import Mathlib

/-!
Verhulst2014_NOFD_PLA.c : auditory-nerve synapse and spike generator

A shallow embedding of `src/ANerve_matlab/Verhulst2014_NOFD_PLA.c` and the
properties of it that the specification states.

Conventions of the embedding

* a C `double` is an exact rational number (`ℚ`); division is the total
  division of `ℚ`;
* where the rounding of the `double` operations decides a discrete result (the clock
  of the spike loop, the PSTH bin, the two buffer lengths) the definitions whose names
  end in `R`, and `SingleAN` and `mexFunction`, which call them, take a rounding
  function `fl` that is applied to the result of every operation: `fl = id` is the
  exact arithmetic above and `fl = binary64` is the arithmetic of the code;
* a C `int` is an unbounded integer (`Int`); the cast `(int) x` truncates
  toward zero; the cast of the `nrep` argument, whose result decides whether the call
  is accepted, is the cast to the 32-bit `int` (`castInt32`);
* a heap buffer is a total map from indices to samples (`Buf`); `mxCalloc`
  returns the all-zero buffer and `b[i] = v` updates one index;
* the functions the file calls but does not define (`exp` and `log` of the C
  library, `rand` and `resample` of the MATLAB host) are the fields of a
  `Host`, and every theorem holds for every host.
-/

namespace ANerve

/-! ## Buffers, loops and host functions -/

/-- A heap buffer of doubles, indexed by C integers. -/
abbrev Buf := Int → ℚ

/-- The buffer `mxCalloc` returns: every element is zero. -/
def Buf.calloc : Buf := fun _ => 0

/-- The assignment `b[i] = v`. -/
def Buf.write (b : Buf) (i : Int) (v : ℚ) : Buf := fun j => if j = i then v else b j

/-- The macro `__max(a,b)`, that is `(((a) > (b))? (a): (b))`. -/
def cmax (a b : ℚ) : ℚ := if a > b then a else b

/-- The cast `(int) x` of a double: truncation toward zero. -/
def castInt (x : ℚ) : Int := if 0 ≤ x then ⌊x⌋ else ⌈x⌉

/-- The cast `(int) x` of a double to the 32-bit `int`: truncation toward zero when the
truncated value lies in the range `-2^31 .. 2^31 - 1` of `int`. Outside that range the C
standard leaves the value undefined; the conversion instruction of the x86 processors
returns `INT_MIN = -2^31`, which is the value taken here. -/
def castInt32 (x : ℚ) : Int :=
  if -2147483648 ≤ castInt x ∧ castInt x ≤ 2147483647 then castInt x else -2147483648

/-- The C library `fmod(x, y)`: `x - n*y` with `n` the quotient `x/y` truncated toward zero. -/
def fmod (x y : ℚ) : ℚ := x - (castInt (x / y) : ℚ) * y

/-- The loop `for (i = 0; i < n; ++i) body`, run for its `n` iterations in order. -/
def forLoop {σ : Type} (body : Int → σ → σ) : Nat → σ → σ
  | 0, s => s
  | n + 1, s => body (n : Int) (forLoop body n s)

/-- The loop `for (i = a; i < a + n; ++i) body`. -/
def forLoopFrom {σ : Type} (a : Int) (body : Int → σ → σ) (n : Nat) (s : σ) : σ :=
  forLoop (fun i => body (a + i)) n s

/-- What the file calls and does not define: `exp` and `log` of `math.h`, and the
MATLAB functions `rand` (called with the dimensions `1` and `n`) and `resample`
(called with a row vector, its length, and the factors `p` and `q`). -/
structure Host where
  exp : ℚ → ℚ
  log : ℚ → ℚ
  rand : ℚ → ℚ → Buf
  resample : Buf → Int → ℚ → ℚ → Buf

/-! ## Synapse: constants of the double-exponential adaptation (lines 263-309) -/

def Ass (cf : ℚ) : ℚ := 150 + (cf / 100)
def FTH : ℚ := 0
def SRTH : ℚ := 5 / 10000
def Vsatmax : ℚ := (128 / 100000) / 20
def TauR : ℚ := 2 / 1000
def TauST : ℚ := 60 / 1000
def Ar_Ast : ℚ := 1
def PTS (spont : ℚ) : ℚ := 1 + (6 * spont / (6 + spont))
def AR (cf spont : ℚ) : ℚ := (Ar_Ast / (1 + Ar_Ast)) * (PTS spont * Ass cf - Ass cf)
def AST (cf spont : ℚ) : ℚ := (1 / (1 + Ar_Ast)) * (PTS spont * Ass cf - Ass cf)
def PI1 (cf spont : ℚ) : ℚ :=
  spont * (PTS spont * Ass cf - spont) / (PTS spont * Ass cf * (1 - spont / Ass cf))
def PI2 (cf spont : ℚ) : ℚ := (PTS spont * Ass cf - spont) / (1 - spont / Ass cf)
def CG : ℚ := 1
def gamma1 (spont : ℚ) : ℚ := CG / spont
def gamma2 (cf : ℚ) : ℚ := CG / Ass cf
def k1 : ℚ := -1 / TauR
def k2 : ℚ := -1 / TauST
def VI0 (cf spont : ℚ) : ℚ :=
  (1 - ((PTS spont * Ass cf) / spont)) * 1 /
    (gamma1 spont * ((AR cf spont * (k1 - k2) / (CG * PI2 cf spont))
      + (k2 / (PI1 cf spont * gamma1 spont)) - (k2 / (PI2 cf spont * gamma2 cf))))
def VI1 (cf spont : ℚ) : ℚ :=
  (1 - ((PTS spont * Ass cf) / spont)) * 1 /
    (gamma1 spont * ((AST cf spont * (k2 - k1) / (CG * PI2 cf spont))
      + (k1 / (PI1 cf spont * gamma1 spont)) - (k1 / (PI2 cf spont * gamma2 cf))))
def VI (cf spont : ℚ) : ℚ := (VI0 cf spont + VI1 cf spont) / 2
def alpha (cf : ℚ) : ℚ := (CG * TauR * TauST) / Ass cf
def beta (cf : ℚ) : ℚ := (1 / TauST + 1 / TauR) * alpha cf
def theta1 (cf spont : ℚ) : ℚ := (alpha cf * PI2 cf spont) / VI cf spont
def theta2 (cf spont : ℚ) : ℚ := VI cf spont / PI2 cf spont
def theta3 (cf spont : ℚ) : ℚ := 1 / Ass cf - 1 / PI2 cf spont
def PL (cf spont : ℚ) : ℚ :=
  (((beta cf - theta2 cf spont * theta3 cf spont) / theta1 cf spont) - 1) * PI2 cf spont
def PG (cf spont : ℚ) : ℚ := 1 / (theta3 cf spont - 1 / PL cf spont)
def VL (cf spont : ℚ) : ℚ := theta1 cf spont * PL cf spont * PG cf spont
/-- The resting value `CI = spont/PI1` (line 305). -/
def CIrest (cf spont : ℚ) : ℚ := spont / PI1 cf spont
/-- The resting value `CL = CI*(PI1+PL)/PL` (line 306). -/
def CLrest (cf spont : ℚ) : ℚ := CIrest cf spont * (PI1 cf spont + PL cf spont) / PL cf spont

/-! ## Synapse: the double-exponential adaptation loop (lines 311-332) -/

/-- The values of the locals the adaptation loop reads and never changes. -/
structure AdaptConsts where
  PI1 : ℚ
  PI2 : ℚ
  VI : ℚ
  VL : ℚ
  PL : ℚ
  PG : ℚ
  CG : ℚ

/-- The constants `Synapse` derives from `cf` and `spont` before the loop. -/
def adaptConsts (cf spont : ℚ) : AdaptConsts where
  PI1 := PI1 cf spont
  PI2 := PI2 cf spont
  VI := VI cf spont
  VL := VL cf spont
  PL := PL cf spont
  PG := PG cf spont
  CG := CG

/-- The locals the adaptation loop changes. -/
structure AdaptState where
  k : Int
  CI : ℚ
  CL : ℚ
  exponOut : Buf

/-- The rectifier of lines 316-317: a line through `PI1` and `PI2`, held at `PI1` at or
below the threshold `FTH + SRTH/exp(spont)`. `expSpont` is the value of `exp(spont)`. -/
def PPIrect (c : AdaptConsts) (expSpont : ℚ) (x : ℚ) : ℚ :=
  let PPI := ((c.PI2 - c.PI1) / (Vsatmax - FTH)) * (x - (SRTH / expSpont)) + c.PI1
  if x ≤ FTH + (SRTH / expSpont) then c.PI1 else PPI

/-- The permeability `PPI` of one iteration (lines 316-318): the rectifier, overridden
by `PI1` in the first iteration (`if(k==0) PPI=PI1`). -/
def PPIof (c : AdaptConsts) (expSpont : ℚ) (k : Int) (x : ℚ) : ℚ :=
  if k = 0 then c.PI1 else PPIrect c expSpont x

/-- The explicit Euler update of `CI` and `CL` (lines 320-322). -/
def adaptEuler (c : AdaptConsts) (tdres PPI : ℚ) (s : AdaptState) : AdaptState :=
  let CIlast := s.CI
  let CI := s.CI + (tdres / c.VI) * (-PPI * s.CI + c.PL * (s.CL - s.CI))
  let CL := s.CL + (tdres / c.VL) * (-c.PL * (s.CL - CIlast) + c.PG * (c.CG - s.CL))
  { s with CI := CI, CL := CL }

/-- The value `CI = CG/(PPI*temp)` with `temp = 1/PG+1/PL+1/PPI` (lines 325-326). -/
def satCI (c : AdaptConsts) (PPI : ℚ) : ℚ :=
  let temp := 1 / c.PG + 1 / c.PL + 1 / PPI
  c.CG / (PPI * temp)

/-- The value `CL = CI*(PPI+PL)/PL` for that `CI` (line 327). -/
def satCL (c : AdaptConsts) (PPI : ℚ) : ℚ := satCI c PPI * (PPI + c.PL) / c.PL

/-- The corrective branch `if (CI<0) {...}` (lines 323-328). -/
def adaptClamp (c : AdaptConsts) (PPI : ℚ) (s : AdaptState) : AdaptState :=
  if s.CI < 0 then { s with CI := satCI c PPI, CL := satCL c PPI } else s

/-- One iteration of the adaptation loop, for the stimulus sample `x = ihcout[indx]`. -/
def adaptStep (c : AdaptConsts) (expSpont tdres : ℚ) (x : ℚ) (s : AdaptState) : AdaptState :=
  let PPI := PPIof c expSpont s.k x
  let s1 := adaptClamp c PPI (adaptEuler c tdres PPI s)
  { s1 with exponOut := s1.exponOut.write s1.k (s1.CI * PPI), k := s1.k + 1 }

/-- The adaptation loop `for (indx=0; indx<totalstim*nrep; ++indx)`, after `n` iterations. -/
def adaptLoop (c : AdaptConsts) (expSpont tdres : ℚ) (ihcout : Buf) (n : Nat)
    (s : AdaptState) : AdaptState :=
  forLoop (fun indx s => adaptStep c expSpont tdres (ihcout indx) s) n s

/-! ## Synapse: delay padding (lines 334-339) -/

/-- The three padding loops that fill `powerLawIn` from `exponOut`. -/
def padDelay (exponOut : Buf) (N delaypoint : Int) (powerLawIn : Buf) : Buf :=
  let p1 := forLoop (fun k p => p.write k (exponOut 0)) delaypoint.toNat powerLawIn
  let p2 := forLoopFrom delaypoint (fun k p => p.write k (exponOut (k - delaypoint)))
    (N + delaypoint - delaypoint).toNat p1
  forLoopFrom (N + delaypoint) (fun k p => p.write k (p (k - 1)))
    (N + 3 * delaypoint - (N + delaypoint)).toNat p2

/-! ## Synapse: power-law adaptation (lines 240-243, 358-379) -/

/-- The local `binwidth = 1/sampFreq`. -/
def binwidth (sampFreq : ℚ) : ℚ := 1 / sampFreq
/-- The local `alpha1 = 2.5e-6/tdres`. -/
def alpha1 (tdres : ℚ) : ℚ := (25 / 10000000) / tdres
/-- The local `beta1 = 5e-4`. -/
def beta1 : ℚ := 5 / 10000
/-- The local `alpha2 = 1e-2/tdres`. -/
def alpha2 (tdres : ℚ) : ℚ := (1 / 100) / tdres
/-- The local `beta2 = 1e-1`. -/
def beta2 : ℚ := 1 / 10

/-- The locals the power-law loop changes. -/
structure PowerLawState where
  k : Int
  I1 : ℚ
  I2 : ℚ
  sout1 : Buf
  sout2 : Buf
  synSampOut : Buf

/-- The inner loop `for (j=0; j<k+1; ++j) I += (sout[j]*binwidth)/((k-j)*binwidth + beta)`,
started from `I = 0`. -/
def convLoop (sout : Buf) (binwidth bet : ℚ) (k : Int) (n : Nat) : ℚ :=
  forLoop (fun j I => I + (sout j * binwidth) / (((k - j : Int) : ℚ) * binwidth + bet)) n 0

/-- One iteration of the power-law loop, for the resampled sample `x = sampIHC[indx]`. -/
def powerLawStep (implnt tdres sampFreq : ℚ) (x : ℚ) (s : PowerLawState) : PowerLawState :=
  let sout1 := s.sout1.write s.k (cmax 0 (x - alpha1 tdres * s.I1))
  let sout2 := s.sout2.write s.k (cmax 0 (x - alpha2 tdres * s.I2))
  let I1 := if implnt = 1 then convLoop sout1 (binwidth sampFreq) beta1 s.k (s.k + 1).toNat
    else s.I1
  let I2 := if implnt = 1 then convLoop sout2 (binwidth sampFreq) beta2 s.k (s.k + 1).toNat
    else s.I2
  { k := s.k + 1, I1 := I1, I2 := I2, sout1 := sout1, sout2 := sout2,
    synSampOut := s.synSampOut.write s.k ((sout1 s.k + sout2 s.k) / 2) }

/-- The state before the power-law loop: `k = 0`, `I1 = I2 = 0`, zeroed buffers. -/
def powerLawInit : PowerLawState :=
  { k := 0, I1 := 0, I2 := 0, sout1 := Buf.calloc, sout2 := Buf.calloc,
    synSampOut := Buf.calloc }

/-- The power-law loop after `n` iterations. -/
def powerLawLoop (implnt tdres sampFreq : ℚ) (sampIHC : Buf) (n : Nat) : PowerLawState :=
  forLoop (fun indx s => powerLawStep implnt tdres sampFreq (sampIHC indx) s) n powerLawInit

/-! ## Synapse: upsampling and delay stripping (lines 386-396) -/

/-- The nested upsampling loops writing `TmpSyn` from the `k` samples of `synSampOut`. -/
def upsample (synSampOut : Buf) (k resamp : Int) (TmpSyn : Buf) : Buf :=
  forLoop (fun z T =>
    let incr := (synSampOut (z + 1) - synSampOut z) / (resamp : ℚ)
    forLoop (fun b T => T.write (z * resamp + b) (synSampOut z + (b : ℚ) * incr))
      resamp.toNat T) (k - 1).toNat TmpSyn

/-- The loop `for (i=0;i<totalstim*nrep;++i) synouttmp[i] = TmpSyn[i+delaypoint]`. -/
def stripDelay (TmpSyn : Buf) (N delaypoint : Int) (synouttmp : Buf) : Buf :=
  forLoop (fun i out => out.write i (TmpSyn (i + delaypoint))) N.toNat synouttmp

/-! ## Synapse (lines 197-404) -/

/-- The local `delaypoint = floor(7500/(cf/1e3))`. -/
def delaypoint (cf : ℚ) : Int := ⌊7500 / (cf / 1000)⌋

/-- The local `resamp = (int) ceil(1/(tdres*sampFreq))`. -/
def resampOf (tdres sampFreq : ℚ) : Int := castInt (⌈1 / (tdres * sampFreq)⌉ : ℚ)

/-- The number of iterations of the power-law loop, whose bound is
`floor((totalstim*nrep+2*delaypoint)*tdres*sampFreq)`. -/
def powerLawCount (N dp : Int) (tdres sampFreq : ℚ) : Nat :=
  (⌊((N + 2 * dp : Int) : ℚ) * tdres * sampFreq⌋).toNat

/-- The part of `Synapse` after the call of `resample`: the power-law loop on `sampIHC`,
the upsampling into a zeroed `TmpSyn`, and the copy into `synouttmp`. -/
def synapseTail (sampIHC : Buf) (tdres : ℚ) (N dp : Int) (implnt sampFreq : ℚ)
    (synouttmp : Buf) : Buf :=
  let n := powerLawCount N dp tdres sampFreq
  let s := powerLawLoop implnt tdres sampFreq sampIHC n
  let TmpSyn := upsample s.synSampOut s.k (resampOf tdres sampFreq) Buf.calloc
  stripDelay TmpSyn N dp synouttmp

/-- The length of the buffer `TmpSyn` (line 225):
`(long) ceil(totalstim*nrep+2*delaypoint)`. -/
def TmpSynLen (N dp : Int) : Int := castInt (⌈((N + 2 * dp : Int) : ℚ)⌉ : ℚ)

/-- The buffer `TmpSyn` of `Synapse` after the upsampling loops (lines 386-393). -/
def synapseTmpSyn (sampIHC : Buf) (tdres : ℚ) (N dp : Int) (implnt sampFreq : ℚ) : Buf :=
  upsample
    (powerLawLoop implnt tdres sampFreq sampIHC (powerLawCount N dp tdres sampFreq)).synSampOut
    (powerLawLoop implnt tdres sampFreq sampIHC (powerLawCount N dp tdres sampFreq)).k
    (resampOf tdres sampFreq) Buf.calloc

/-- The locals before the adaptation loop: `k = 0`, the resting `CI` and `CL`, and a
zeroed `exponOut`. -/
def adaptInit (cf spont : ℚ) : AdaptState :=
  { k := 0, CI := CIrest cf spont, CL := CLrest cf spont, exponOut := Buf.calloc }

/-- The adaptation stage of `Synapse` after `n` iterations of its loop. -/
def synapseAdapt (h : Host) (ihcout : Buf) (tdres cf spont : ℚ) (n : Nat) : AdaptState :=
  adaptLoop (adaptConsts cf spont) (h.exp spont) tdres ihcout n (adaptInit cf spont)

/-- The output `exponOut` of the adaptation stage of `Synapse`. -/
def synapseExponOut (h : Host) (ihcout : Buf) (tdres cf : ℚ) (N : Int) (spont : ℚ) : Buf :=
  (synapseAdapt h ihcout tdres cf spont N.toNat).exponOut

/-- The function `Synapse`: the value it returns and the buffer `synouttmp` it fills.
The random sequence that the call of `ffGn` returns (lines 247-257) is not modelled: the
only statement reading it is commented out (line 361). -/
def Synapse (h : Host) (ihcout : Buf) (tdres cf : ℚ) (totalstim nrep : Int)
    (spont implnt sampFreq : ℚ) (synouttmp : Buf) : ℚ × Buf :=
  let N := totalstim * nrep
  let dp := delaypoint cf
  let exponOut := synapseExponOut h ihcout tdres cf N spont
  let powerLawIn := padDelay exponOut N dp Buf.calloc
  let sampIHC := h.resample powerLawIn (max (N + dp) (N + 3 * dp)) 1 (resampOf tdres sampFreq)
  (((⌈((N : Int) : ℚ)⌉ : Int) : ℚ), synapseTail sampIHC tdres N dp implnt sampFreq synouttmp)

/-! ## SpikeGenerator (lines 414-488) -/

def c0 : ℚ := 1 / 2
def s0 : ℚ := 1 / 1000
def c1 : ℚ := 1 / 2
def s1 : ℚ := 125 / 10000
def dead : ℚ := 75 / 100000

/-- The local `DT = totalstim * tdres * nrep`. -/
def DT (totalstim : Int) (tdres : ℚ) (nrep : Int) : ℚ := (totalstim : ℚ) * tdres * (nrep : ℚ)

/-- The local `NoutMax = (long) ceil(totalstim*nrep*tdres/dead)`. -/
def NoutMax (totalstim nrep : Int) (tdres : ℚ) : Int :=
  castInt (⌈((totalstim * nrep : Int) : ℚ) * tdres / dead⌉ : ℚ)

/-- The local `deadtimeIndex = (long) floor(dead/tdres)`. -/
def deadtimeIndex (tdres : ℚ) : Int := castInt (⌊dead / tdres⌋ : ℚ)

/-- The local `deadtimeRnd = deadtimeIndex*tdres`. -/
def deadtimeRnd (tdres : ℚ) : ℚ := (deadtimeIndex tdres : ℚ) * tdres

def refracMult0 (tdres : ℚ) : ℚ := 1 - tdres / s0
def refracMult1 (tdres : ℚ) : ℚ := 1 - tdres / s1

/-- The locals the spike loop changes, and the buffer `sptime` it writes. -/
structure SpikeState where
  k : Int
  countTime : ℚ
  refracValue0 : ℚ
  refracValue1 : ℚ
  Xsum : ℚ
  unitRateIntrvl : ℚ
  Nout : Int
  randBufIndex : Int
  sptime : Buf

/-- The locals before the spike loop (lines 440-463). The macro `__max(0, e)` expands
to `((0) > (e)) ? (0) : (e)` and so evaluates `e = log(randNums[randBufIndex++]) /
synouttmp[0] + dead` a second time, with the next random number, when `0 > e` fails. -/
def spikeInit (h : Host) (synouttmp randNums : Buf) (tdres : ℚ) (sptime : Buf) : SpikeState :=
  let e0 := h.log (randNums 0) / synouttmp 0 + dead
  let endOfLastDeadtime := if 0 > e0 then 0 else h.log (randNums 1) / synouttmp 0 + dead
  let randBufIndex : Int := if 0 > e0 then 1 else 2
  { k := 0
    countTime := tdres
    refracValue0 := c0 * h.exp (endOfLastDeadtime / s0)
    refracValue1 := c1 * h.exp (endOfLastDeadtime / s1)
    Xsum := synouttmp 0 * (-endOfLastDeadtime + c0 * s0 * (h.exp (endOfLastDeadtime / s0) - 1)
      + c1 * s1 * (h.exp (endOfLastDeadtime / s1) - 1))
    unitRateIntrvl := -h.log (randNums randBufIndex) / tdres
    Nout := 0
    randBufIndex := randBufIndex + 1
    sptime := sptime }

/-- The statements of the loop body (lines 466-482). -/
def spikeBody (h : Host) (synouttmp randNums : Buf) (tdres : ℚ) (s : SpikeState) : SpikeState :=
  if synouttmp s.k > 0 then
    let Xsum := s.Xsum + synouttmp s.k * (1 - s.refracValue0 - s.refracValue1)
    if Xsum ≥ s.unitRateIntrvl then
      { k := s.k + deadtimeIndex tdres
        countTime := s.countTime + deadtimeRnd tdres
        refracValue0 := c0
        refracValue1 := c1
        Xsum := 0
        unitRateIntrvl := -h.log (randNums s.randBufIndex) / tdres
        Nout := s.Nout + 1
        randBufIndex := s.randBufIndex + 1
        sptime := s.sptime.write s.Nout s.countTime }
    else { s with Xsum := Xsum }
  else s

/-- The increment of the `for` statement:
`++k, countTime+=tdres, refracValue0*=refracMult0, refracValue1*=refracMult1`. -/
def spikeIncr (tdres : ℚ) (s : SpikeState) : SpikeState :=
  { s with
    k := s.k + 1
    countTime := s.countTime + tdres
    refracValue0 := s.refracValue0 * refracMult0 tdres
    refracValue1 := s.refracValue1 * refracMult1 tdres }

/-- The spike loop `for (k=0; (k<totalstim*nrep) && (countTime<DT); ...)`, run until its
condition fails or for at most `fuel` iterations. -/
def spikeLoop (h : Host) (synouttmp randNums : Buf) (tdres : ℚ) (totalstim nrep : Int) :
    Nat → SpikeState → SpikeState
  | 0, s => s
  | fuel + 1, s =>
    if s.k < totalstim * nrep ∧ s.countTime < DT totalstim tdres nrep then
      spikeLoop h synouttmp randNums tdres totalstim nrep fuel
        (spikeIncr tdres (spikeBody h synouttmp randNums tdres s))
    else s

/-- The final state of the spike loop. `k` grows in every iteration when `tdres > 0`, so
`totalstim*nrep` iterations are enough for the condition to fail
(`SpikeGenerator_loop_exits`). -/
def spikeFinal (h : Host) (synouttmp : Buf) (tdres : ℚ) (totalstim nrep : Int)
    (sptime : Buf) : SpikeState :=
  let randNums := h.rand 1 ((NoutMax totalstim nrep tdres + 1 : Int) : ℚ)
  spikeLoop h synouttmp randNums tdres totalstim nrep (totalstim * nrep).toNat
    (spikeInit h synouttmp randNums tdres sptime)

/-- The function `SpikeGenerator`: the spike count it returns and the buffer `sptime`
it fills. -/
def SpikeGenerator (h : Host) (synouttmp : Buf) (tdres : ℚ) (totalstim nrep : Int)
    (sptime : Buf) : Int × Buf :=
  let s := spikeFinal h synouttmp tdres totalstim nrep sptime
  (s.Nout, s.sptime)

/-! ## SingleAN: fiber classes (lines 164-167), and the steady state of the adaptation -/

/-- The spontaneous rate `spont` that `SingleAN` derives from `fibertype`: 1, 5 and 60
spikes/s for the classes 1 (low), 2 (medium) and 3 (high), and `fibertype` itself
otherwise. -/
def spontOf (fibertype : ℚ) : ℚ :=
  let spont := fibertype
  let spont := if fibertype = 1 then 1 else spont
  let spont := if fibertype = 2 then 5 else spont
  if fibertype = 3 then 60 else spont

/-- The steady-state rate of the adaptation stage for a constant receptor potential `v`:
the output `CI*PPI` in the state `CI = CG/(PPI*temp)`, `CL = CI*(PPI+PL)/PL` of lines
325-327, which the Euler update leaves as it is (`adaptEuler_sat`); `PPI` is the
rectifier of lines 316-317 at `v`. -/
def steadyRate (h : Host) (cf spont v : ℚ) : ℚ :=
  let c := adaptConsts cf spont
  let PPI := PPIrect c (h.exp spont) v
  satCI c PPI * PPI

/-! ## Double arithmetic: the clock of the spike loop, the PSTH bin, the buffer lengths

The definitions above compute with exact numbers. Where the rounding of the `double`
operations decides a discrete result (whether the spike loop enters an iteration, which
bin a spike falls into, how long a buffer is), the definitions of this section repeat the
statements of the source with a rounding function `fl` applied to the result of every
arithmetic operation, to every constant and to every value the C library returns. -/

/-- The number of halvings that take `n` below 2, which is `floor(log2 n)` for `n ≥ 1`;
`fuel` bounds the number of halvings. -/
def log2Halving : Nat → Nat → Nat
  | 0, _ => 0
  | fuel + 1, n => if n < 2 then 0 else log2Halving fuel (n / 2) + 1

/-- The power `2^e` of two for an integer exponent `e`. -/
def pow2 (e : Int) : ℚ :=
  if 0 ≤ e then ((2 ^ e.toNat : Nat) : ℚ) else 1 / ((2 ^ (-e).toNat : Nat) : ℚ)

/-- The binary exponent of a positive number `x`: the integer `e` with
`2^e ≤ x < 2^(e+1)`. It is `floor(log2 num) - floor(log2 den)` or one less. -/
def binExp (x : ℚ) : Int :=
  let e0 : Int :=
    (log2Halving x.num.natAbs x.num.natAbs : Int) - (log2Halving x.den x.den : Int)
  if pow2 e0 ≤ x then e0 else e0 - 1

/-- Rounding to the nearest integer, a tie going to the even neighbour. -/
def roundHalfEven (q : ℚ) : Int :=
  if q - (⌊q⌋ : ℚ) < 1 / 2 then ⌊q⌋
  else if 1 / 2 < q - (⌊q⌋ : ℚ) then ⌊q⌋ + 1
  else if ⌊q⌋ % 2 = 0 then ⌊q⌋
  else ⌊q⌋ + 1

/-- The rounding of IEEE 754 binary64 arithmetic, which is the C `double` (round to
nearest, ties to even, 53 significant bits): the multiple of `2^(e-52)` nearest to `x`,
where `e` is the binary exponent of `|x|`. Overflow and subnormal numbers are not
modelled. -/
def binary64 (x : ℚ) : ℚ :=
  if x = 0 then 0
  else (roundHalfEven (x / pow2 (binExp |x| - 52)) : ℚ) * pow2 (binExp |x| - 52)

/-- The rounding `fl` has relative error at most `u`: `binary64` has it with `u = 2^-53`
(`binary64_relErr`) and exact arithmetic with `u = 0`. -/
def RelErr (fl : ℚ → ℚ) (u : ℚ) : Prop := ∀ x : ℚ, |fl x - x| ≤ u * |x|

/-- The local `DT = totalstim * tdres * nrep` of `SpikeGenerator` (line 430). -/
def DTR (fl : ℚ → ℚ) (totalstim : Int) (tdres : ℚ) (nrep : Int) : ℚ :=
  fl (fl ((totalstim : ℚ) * tdres) * (nrep : ℚ))

/-- The local `NoutMax = (long) ceil(totalstim*nrep*tdres/dead)` of `SpikeGenerator`
(line 432); `totalstim*nrep` is a product of two `int`s. -/
def NoutMaxR (fl : ℚ → ℚ) (totalstim nrep : Int) (tdres : ℚ) : Int :=
  castInt (⌈fl (fl (((totalstim * nrep : Int) : ℚ) * tdres) / fl dead)⌉ : ℚ)

/-- The length of the buffer `sptime` that `SingleAN` allocates (line 161):
`(long) ceil(totalstim*tdres*nrep/0.00075)`. -/
def sptimeLenR (fl : ℚ → ℚ) (totalstim : Int) (tdres : ℚ) (nrep : Int) : Int :=
  castInt (⌈fl (fl (fl ((totalstim : ℚ) * tdres) * (nrep : ℚ)) / fl (75 / 100000))⌉ : ℚ)

/-- The local `deadtimeIndex = (long) floor(dead/tdres)`. -/
def deadtimeIndexR (fl : ℚ → ℚ) (tdres : ℚ) : Int := castInt (⌊fl (fl dead / tdres)⌋ : ℚ)

/-- The local `deadtimeRnd = deadtimeIndex*tdres`. -/
def deadtimeRndR (fl : ℚ → ℚ) (tdres : ℚ) : ℚ := fl ((deadtimeIndexR fl tdres : ℚ) * tdres)

def refracMult0R (fl : ℚ → ℚ) (tdres : ℚ) : ℚ := fl (1 - fl (tdres / fl s0))
def refracMult1R (fl : ℚ → ℚ) (tdres : ℚ) : ℚ := fl (1 - fl (tdres / fl s1))

/-- The locals before the spike loop (lines 440-463), as `spikeInit`. -/
def spikeInitR (fl : ℚ → ℚ) (h : Host) (synouttmp randNums : Buf) (tdres : ℚ)
    (sptime : Buf) : SpikeState :=
  let e0 := fl (fl (fl (h.log (randNums 0)) / synouttmp 0) + fl dead)
  let endOfLastDeadtime :=
    if 0 > e0 then 0 else fl (fl (fl (h.log (randNums 1)) / synouttmp 0) + fl dead)
  let randBufIndex : Int := if 0 > e0 then 1 else 2
  { k := 0
    countTime := tdres
    refracValue0 := fl (fl c0 * fl (h.exp (fl (endOfLastDeadtime / fl s0))))
    refracValue1 := fl (fl c1 * fl (h.exp (fl (endOfLastDeadtime / fl s1))))
    Xsum := fl (synouttmp 0 * fl (fl (-endOfLastDeadtime
        + fl (fl (fl c0 * fl s0) * fl (fl (h.exp (fl (endOfLastDeadtime / fl s0))) - 1)))
      + fl (fl (fl c1 * fl s1) * fl (fl (h.exp (fl (endOfLastDeadtime / fl s1))) - 1))))
    unitRateIntrvl := fl (-fl (h.log (randNums randBufIndex)) / tdres)
    Nout := 0
    randBufIndex := randBufIndex + 1
    sptime := sptime }

/-- The statements of the loop body (lines 466-482), as `spikeBody`. -/
def spikeBodyR (fl : ℚ → ℚ) (h : Host) (synouttmp randNums : Buf) (tdres : ℚ)
    (s : SpikeState) : SpikeState :=
  if synouttmp s.k > 0 then
    let Xsum := fl (s.Xsum + fl (synouttmp s.k * fl (fl (1 - s.refracValue0) - s.refracValue1)))
    if Xsum ≥ s.unitRateIntrvl then
      { k := s.k + deadtimeIndexR fl tdres
        countTime := fl (s.countTime + deadtimeRndR fl tdres)
        refracValue0 := fl c0
        refracValue1 := fl c1
        Xsum := 0
        unitRateIntrvl := fl (-fl (h.log (randNums s.randBufIndex)) / tdres)
        Nout := s.Nout + 1
        randBufIndex := s.randBufIndex + 1
        sptime := s.sptime.write s.Nout s.countTime }
    else { s with Xsum := Xsum }
  else s

/-- The increment of the `for` statement, as `spikeIncr`: `countTime+=tdres` is one
rounded addition in every iteration. -/
def spikeIncrR (fl : ℚ → ℚ) (tdres : ℚ) (s : SpikeState) : SpikeState :=
  { s with
    k := s.k + 1
    countTime := fl (s.countTime + tdres)
    refracValue0 := fl (s.refracValue0 * refracMult0R fl tdres)
    refracValue1 := fl (s.refracValue1 * refracMult1R fl tdres) }

/-- The spike loop `for (k=0; (k<totalstim*nrep) && (countTime<DT); ...)`, run until its
condition fails or for at most `fuel` iterations. -/
def spikeLoopR (fl : ℚ → ℚ) (h : Host) (synouttmp randNums : Buf) (tdres : ℚ)
    (totalstim nrep : Int) : Nat → SpikeState → SpikeState
  | 0, s => s
  | fuel + 1, s =>
    if s.k < totalstim * nrep ∧ s.countTime < DTR fl totalstim tdres nrep then
      spikeLoopR fl h synouttmp randNums tdres totalstim nrep fuel
        (spikeIncrR fl tdres (spikeBodyR fl h synouttmp randNums tdres s))
    else s

/-- The state of `SpikeGenerator` at the head of its loop after `n` iterations, or after
the last one when the loop ends before. -/
def spikeHeadR (fl : ℚ → ℚ) (h : Host) (synouttmp : Buf) (tdres : ℚ) (totalstim nrep : Int)
    (sptime : Buf) (n : Nat) : SpikeState :=
  spikeLoopR fl h synouttmp (h.rand 1 ((NoutMaxR fl totalstim nrep tdres + 1 : Int) : ℚ)) tdres
    totalstim nrep n
    (spikeInitR fl h synouttmp (h.rand 1 ((NoutMaxR fl totalstim nrep tdres + 1 : Int) : ℚ))
      tdres sptime)

/-- The function `SpikeGenerator`: the spike count it returns and the buffer `sptime` it
fills, after at most `totalstim*nrep` iterations of the loop. -/
def SpikeGeneratorR (fl : ℚ → ℚ) (h : Host) (synouttmp : Buf) (tdres : ℚ)
    (totalstim nrep : Int) (sptime : Buf) : Int × Buf :=
  let s := spikeHeadR fl h synouttmp tdres totalstim nrep sptime (totalstim * nrep).toNat
  (s.Nout, s.sptime)

/-- The bin `ipst = (int) (fmod(sptime[i],tdres*totalstim) / tdres)` of a spike time `t`
(line 183); `fmod` is exact. -/
def psthBinR (fl : ℚ → ℚ) (t tdres : ℚ) (totalstim : Int) : Int :=
  castInt (fl (fmod t (fl (tdres * (totalstim : ℚ))) / tdres))

/-- The loop that bins the spike times into `psth` (lines 181-185). -/
def binPsthR (fl : ℚ → ℚ) (sptime : Buf) (nspikes : Int) (tdres : ℚ) (totalstim : Int)
    (psth : Buf) : Buf :=
  forLoop (fun i out =>
    let ipst := psthBinR fl (sptime i) tdres totalstim
    out.write ipst (fl (out ipst + 1))) nspikes.toNat psth

/-! ## SingleAN (lines 145-191) and mexFunction (lines 53-143) -/

/-- The local `sampFreq = 10e3` of `SingleAN`. -/
def sampFreq : ℚ := 10000

/-- The loop that folds the unfolded rate trace into `synout` (lines 173-177); its
bound `I` is the double that `Synapse` returned. -/
def foldSynout (synouttmp : Buf) (I : ℚ) (totalstim nrep : Int) (synout : Buf) : Buf :=
  forLoop (fun i out =>
    let ipst := castInt (fmod (i : ℚ) (totalstim : ℚ))
    out.write ipst (out ipst + synouttmp i / (nrep : ℚ))) (⌈I⌉).toNat synout

/-- The function `SingleAN`: the buffers `synout` and `psth` as it leaves them. The
spike generator and the PSTH loop, whose results depend on the rounding, take the
rounding function `fl`. -/
def SingleAN (fl : ℚ → ℚ) (h : Host) (px : Buf) (cf : ℚ) (nrep : Int) (tdres : ℚ)
    (totalstim : Int) (fibertype implnt : ℚ) (synout psth : Buf) : Buf × Buf :=
  let spont := spontOf fibertype
  let r := Synapse h px tdres cf totalstim nrep spont implnt sampFreq Buf.calloc
  let synout := foldSynout r.2 r.1 totalstim nrep synout
  let g := SpikeGeneratorR fl h r.2 tdres totalstim nrep Buf.calloc
  (synout, binPsthR fl g.2 g.1 tdres totalstim psth)

/-- The local `totalstim = (int)floor(pxbins/nrep)` of `mexFunction` (line 113);
`pxbins/nrep` is the division of two `int`s. -/
def totalstimOf (pxbins nrep : Int) : Int :=
  castInt ((⌊((Int.tdiv pxbins nrep : Int) : ℚ)⌋ : Int) : ℚ)

/-- The copy loop `for (lp=0; lp<pxbins; lp++) px[lp] = pxtmp[lp]` (lines 119-120). -/
def copyPx (pxtmp : Buf) (pxbins : Int) (px : Buf) : Buf :=
  forLoop (fun lp px => px.write lp (pxtmp lp)) pxbins.toNat px

/-- The function `mexFunction`: `mexErrMsgTxt` ends the call with an error message;
otherwise the two outputs `synout` and `psth` are returned. `pxbins` is the number of
columns `mxGetN(prhs[0])` of the stimulus, and the five scalars are the first elements
of the other arguments. The local `nrep` is an `int`: `nrep = (int)nreptmp[0]` is the
cast to the 32-bit `int`. `fl` is the rounding of the arithmetic in `SingleAN`. -/
def mexFunction (fl : ℚ → ℚ) (h : Host) (nlhs nrhs : Int) (pxtmp : Buf) (pxbins : Int)
    (cftmp nreptmp tdrestmp fibertypetmp implnttmp : ℚ) : Except String (Buf × Buf) :=
  if nrhs ≠ 6 then
    Except.error "zilany2009_humanized1_Synapse requires 6 input arguments."
  else if nlhs ≠ 2 then
    Except.error "zilany2009_humanized1_Synapse requires 2 output argument."
  else if pxbins = 1 then
    Except.error "px must be a row vector\n"
  else
    let cf := cftmp
    if cf < 80 ∨ cf > 40000 then
      Except.error "\n"
    else
      let nrep := castInt32 nreptmp
      if nreptmp ≠ (nrep : ℚ) then
        Except.error "nrep must an integer.\n"
      else if nrep < 1 then
        Except.error "nrep must be greater that 0.\n"
      else
        let tdres := tdrestmp
        let fibertype := fibertypetmp
        let implnt := implnttmp
        let totalstim := totalstimOf pxbins nrep
        let px := copyPx pxtmp pxbins Buf.calloc
        Except.ok
          (SingleAN fl h px cf nrep tdres totalstim fibertype implnt Buf.calloc Buf.calloc)

/-! ## The convolution sum of the power-law stage in the words of the specification -/

/-- The adaptation integral for the sample `k` as the specification words it: the sum
over the prior outputs `j = 0 .. k-1` of `sout[j]` weighted by
`binwidth/((k-j)*binwidth + beta)`. -/
def specConv (sout : Buf) (binwidth bet : ℚ) (k : Nat) : ℚ :=
  ∑ j in Finset.range k, sout j * (binwidth / (((k : ℚ) - (j : ℚ)) * binwidth + bet))

/-- The adaptation integral for the sample `k` as the code has it when it computes
`sout[k]`: the weights were formed in the iteration `k-1`, so they are
`binwidth/((k-1-j)*binwidth + beta)`. -/
def codeConv (sout : Buf) (binwidth bet : ℚ) (k : Nat) : ℚ :=
  ∑ j in Finset.range k, sout j * (binwidth / (((k : ℚ) - 1 - (j : ℚ)) * binwidth + bet))

/-! ## Well-defined constants -/

/-- The derived constants are well defined: no divisor in the formulas of lines 276-306,
and neither of the divisors `VI` and `VL` of the loop, is zero. -/
structure WellDefined (cf spont : ℚ) : Prop where
  dPTS : 6 + spont ≠ 0
  dAss : Ass cf ≠ 0
  dPI1 : PTS spont * Ass cf * (1 - spont / Ass cf) ≠ 0
  dPI2 : 1 - spont / Ass cf ≠ 0
  dSpont : spont ≠ 0
  dVIa : CG * PI2 cf spont ≠ 0
  dVIb : PI1 cf spont * gamma1 spont ≠ 0
  dVIc : PI2 cf spont * gamma2 cf ≠ 0
  dVI0 : gamma1 spont * ((AR cf spont * (k1 - k2) / (CG * PI2 cf spont))
      + (k2 / (PI1 cf spont * gamma1 spont)) - (k2 / (PI2 cf spont * gamma2 cf))) ≠ 0
  dVI1 : gamma1 spont * ((AST cf spont * (k2 - k1) / (CG * PI2 cf spont))
      + (k1 / (PI1 cf spont * gamma1 spont)) - (k1 / (PI2 cf spont * gamma2 cf))) ≠ 0
  dVI : VI cf spont ≠ 0
  dtheta2 : PI2 cf spont ≠ 0
  dtheta1 : theta1 cf spont ≠ 0
  dPL : PL cf spont ≠ 0
  dPG : theta3 cf spont - 1 / PL cf spont ≠ 0
  dVL : VL cf spont ≠ 0
  dCI : PI1 cf spont ≠ 0

/-! ## Loop invariants -/

/-- What holds of the locals at the head of every iteration of the spike loop;
`sptime0` is the buffer `sptime` as the caller passed it. -/
structure SpikeInv (tdres : ℚ) (totalstim nrep : Int) (sptime0 : Buf) (s : SpikeState) :
    Prop where
  nout_nonneg : 0 ≤ s.Nout
  k_nonneg : 0 ≤ s.k
  time_eq : s.countTime = ((s.k : ℚ) + 1) * tdres
  lead : ((s.Nout : ℚ) * ((deadtimeIndex tdres : ℚ) + 1) + 1) * tdres ≤ s.countTime
  before : ∀ i, 0 ≤ i → i < s.Nout →
    s.sptime i + ((deadtimeIndex tdres : ℚ) + 1) * tdres ≤ s.countTime
  gap : ∀ i, 0 ≤ i → i + 1 < s.Nout →
    s.sptime i + ((deadtimeIndex tdres : ℚ) + 1) * tdres ≤ s.sptime (i + 1)
  lower : ∀ i, 0 ≤ i → i < s.Nout →
    ((i : ℚ) * ((deadtimeIndex tdres : ℚ) + 1) + 1) * tdres ≤ s.sptime i
  upper : ∀ i, 0 ≤ i → i < s.Nout → s.sptime i < DT totalstim tdres nrep
  frame : ∀ i, (i < 0 ∨ s.Nout ≤ i) → s.sptime i = sptime0 i

/-- What holds of the locals at the head of every iteration of the spike loop when every
operation is rounded with relative error at most `u`; `sptime0` is the buffer `sptime` as
the caller passed it. -/
structure SpikeInvR (fl : ℚ → ℚ) (u tdres : ℚ) (totalstim nrep : Int) (sptime0 : Buf)
    (s : SpikeState) : Prop where
  nout_nonneg : 0 ≤ s.Nout
  k_nonneg : 0 ≤ s.k
  lead : s.Nout * (deadtimeIndexR fl tdres + 1) ≤ s.k
  count : 0 < s.Nout → (s.Nout - 1) * (deadtimeIndexR fl tdres + 1) < totalstim * nrep
  clock : |s.countTime - ((s.k : ℚ) + 1) * tdres|
    ≤ ((1 + u) ^ (4 * s.k.toNat) - 1) * (((s.k : ℚ) + 1) * tdres)
  stamps : ∀ i, 0 ≤ i → i < s.Nout → ∃ k : Int, 0 ≤ k ∧ k < totalstim * nrep ∧
    |s.sptime i - ((k : ℚ) + 1) * tdres|
      ≤ ((1 + u) ^ (4 * k.toNat) - 1) * (((k : ℚ) + 1) * tdres) ∧
    s.sptime i < DTR fl totalstim tdres nrep
  frame : ∀ i, (i < 0 ∨ s.Nout ≤ i) → s.sptime i = sptime0 i

/-- What holds after `m` iterations of the power-law loop in exact mode. -/
structure PowerLawInv (tdres sampFreq : ℚ) (sampIHC : Buf) (m : Nat) (s : PowerLawState) :
    Prop where
  k_eq : s.k = m
  I1_eq : s.I1 = codeConv s.sout1 (binwidth sampFreq) beta1 m
  I2_eq : s.I2 = codeConv s.sout2 (binwidth sampFreq) beta2 m
  out1 : ∀ k : Nat, k < m → s.sout1 k
    = cmax 0 (sampIHC k - alpha1 tdres * codeConv s.sout1 (binwidth sampFreq) beta1 k)
  out2 : ∀ k : Nat, k < m → s.sout2 k
    = cmax 0 (sampIHC k - alpha2 tdres * codeConv s.sout2 (binwidth sampFreq) beta2 k)
  out : ∀ k : Nat, k < m → s.synSampOut k = (s.sout1 k + s.sout2 k) / 2

/-- Every spike recorded so far is stamped `(k+1)*tdres` for a sample index `k` with
`0 ≤ k < totalstim*nrep - 1`. -/
def SpikeStamp (tdres : ℚ) (totalstim nrep : Int) (s : SpikeState) : Prop :=
  ∀ i, 0 ≤ i → i < s.Nout →
    ∃ k : Int, 0 ≤ k ∧ k < totalstim * nrep - 1 ∧ s.sptime i = ((k : ℚ) + 1) * tdres

/-! ## Sample inputs on which the definitions are run -/

/-- A host whose `exp` is constantly `1` and whose `log` is constantly `0`. -/
def flatHost : Host :=
  { exp := fun _ => 1, log := fun _ => 0, rand := fun _ _ _ => 1 / 2,
    resample := fun b _ _ _ => b }

/-- A host whose `exp` has the values of `e^1`, `e^5` and `e^60` to 16 digits (and is
`1` elsewhere) and whose `log` is constantly `0`. -/
def classHost : Host :=
  { exp := fun x =>
      if x = 1 then 2718281828459045 / 1000000000000000
      else if x = 5 then 1484131591025766 / 10000000000000
      else if x = 60 then 114200738981568400000000000
      else 1
    log := fun _ => 0
    rand := fun _ _ _ => 1 / 2
    resample := fun b _ _ _ => b }

/-- The constant resampled input of value 1. -/
def unitInput : Buf := fun _ => 1

/-- A host for runs of `SpikeGenerator`: `rand` returns the draws 0.5, 0.99999, 0.99999,
...; `log` has the values of the natural logarithm at these two numbers, to 16 and 7
digits; `exp` is constantly 1, its value at 0. -/
def drawHost : Host :=
  { exp := fun _ => 1
    log := fun u =>
      if u = 1 / 2 then -6931471805599453 / 10000000000000000
      else if u = 99999 / 100000 then -1000005 / 100000000000
      else 0
    rand := fun _ _ i => if i = 0 then 1 / 2 else 99999 / 100000
    resample := fun b _ _ _ => b }

/-- The constant rate trace of 400 spikes per second. -/
def rate400 : Buf := fun _ => 400

/-- The constant rate trace of 1000 spikes per second. -/
def rate1000 : Buf := fun _ => 1000

/-- The constant rate trace of 100 spikes per second. -/
def rate100 : Buf := fun _ => 100

/-- A rate trace of 1 spike per second with 1000 spikes per second at the sample 5. -/
def lastSampleRate : Buf := fun k => if k = 5 then 1000 else 1

/-! ## Loops and buffers: general facts -/

theorem forLoop_succ {σ : Type} (body : Int → σ → σ) (n : Nat) (s : σ) :
    forLoop body (n + 1) s = body (n : Int) (forLoop body n s) := rfl

/-- Invariant rule for `forLoop`: a property that holds before the loop and that every
iteration `i < n` carries from `i` to `i + 1` holds after the loop. -/
theorem forLoop_invariant {σ : Type} (body : Int → σ → σ) (P : Nat → σ → Prop) (n : Nat)
    (s : σ) (h0 : P 0 s) (hstep : ∀ i t, i < n → P i t → P (i + 1) (body (i : Int) t)) :
    P n (forLoop body n s) := by
  induction n with
  | zero => exact h0
  | succ m ih =>
    rw [forLoop_succ]
    exact hstep m _ (Nat.lt_succ_self m)
      (ih (fun i t hi hP => hstep i t (Nat.lt_succ_of_lt hi) hP))

theorem Buf.write_same (b : Buf) (i : Int) (v : ℚ) : b.write i v i = v := by
  simp [Buf.write]

theorem Buf.write_other (b : Buf) (i j : Int) (v : ℚ) (h : j ≠ i) : b.write i v j = b j := by
  simp [Buf.write, h]

theorem Buf.write_nonneg (b : Buf) (i : Int) (v : ℚ) (hb : ∀ j, 0 ≤ b j) (hv : 0 ≤ v) :
    ∀ j, 0 ≤ b.write i v j := by
  intro j
  unfold Buf.write
  split
  · exact hv
  · exact hb j

theorem cmax_zero_nonneg (x : ℚ) : 0 ≤ cmax 0 x := by
  unfold cmax
  split
  · exact le_refl 0
  · rename_i h
    exact not_lt.mp h

/-! ## Synapse: the firing rate is non-negative -/

theorem powerLawLoop_nonneg (implnt tdres sampFreq : ℚ) (sampIHC : Buf) (n : Nat) :
    ∀ j, 0 ≤ (powerLawLoop implnt tdres sampFreq sampIHC n).synSampOut j := by
  have key : (∀ j, 0 ≤ (powerLawLoop implnt tdres sampFreq sampIHC n).sout1 j) ∧
      (∀ j, 0 ≤ (powerLawLoop implnt tdres sampFreq sampIHC n).sout2 j) ∧
      (∀ j, 0 ≤ (powerLawLoop implnt tdres sampFreq sampIHC n).synSampOut j) := by
    unfold powerLawLoop
    apply forLoop_invariant _ (fun _ (s : PowerLawState) =>
      (∀ j, 0 ≤ s.sout1 j) ∧ (∀ j, 0 ≤ s.sout2 j) ∧ (∀ j, 0 ≤ s.synSampOut j))
    · simp [powerLawInit, Buf.calloc]
    · rintro i t - ⟨h1, h2, h3⟩
      have w1 := Buf.write_nonneg t.sout1 t.k _ h1 (cmax_zero_nonneg (sampIHC i - alpha1 tdres * t.I1))
      have w2 := Buf.write_nonneg t.sout2 t.k _ h2 (cmax_zero_nonneg (sampIHC i - alpha2 tdres * t.I2))
      refine ⟨w1, w2, ?_⟩
      apply Buf.write_nonneg _ _ _ h3
      have := w1 t.k
      have := w2 t.k
      positivity
  exact key.2.2

theorem upsample_nonneg (synSampOut : Buf) (k resamp : Int) (TmpSyn : Buf)
    (hs : ∀ j, 0 ≤ synSampOut j) (hT : ∀ j, 0 ≤ TmpSyn j) :
    ∀ j, 0 ≤ upsample synSampOut k resamp TmpSyn j := by
  unfold upsample
  apply forLoop_invariant _ (fun _ (T : Buf) => ∀ j, 0 ≤ T j) _ _ hT
  intro z T _ hTz
  apply forLoop_invariant _ (fun _ (T : Buf) => ∀ j, 0 ≤ T j) _ _ hTz
  intro b U hb hU
  apply Buf.write_nonneg _ _ _ hU
  have hr : (0 : ℚ) < (resamp : ℚ) := by
    have : 0 < resamp := by omega
    exact_mod_cast this
  have hbr : ((b : Int) : ℚ) < (resamp : ℚ) := by
    have : (b : Int) < resamp := by omega
    exact_mod_cast this
  have hb0 : (0 : ℚ) ≤ ((b : Int) : ℚ) := by exact_mod_cast Int.natCast_nonneg b
  have e : synSampOut z + ((b : Int) : ℚ) * ((synSampOut (z + 1) - synSampOut z) / (resamp : ℚ))
      = (synSampOut z * ((resamp : ℚ) - ((b : Int) : ℚ))
          + synSampOut (z + 1) * ((b : Int) : ℚ)) / (resamp : ℚ) := by
    field_simp
    ring
  rw [e]
  apply div_nonneg _ hr.le
  have := hs z
  have := hs (z + 1)
  nlinarith [mul_nonneg (hs z) (sub_nonneg.mpr hbr.le), mul_nonneg (hs (z + 1)) hb0]

theorem stripDelay_read (TmpSyn : Buf) (N delaypoint : Int) (synouttmp : Buf) (i : Int)
    (h0 : 0 ≤ i) (hN : i < N) :
    stripDelay TmpSyn N delaypoint synouttmp i = TmpSyn (i + delaypoint) := by
  have key : ∀ n : Nat, i < n →
      forLoop (fun i out => Buf.write out i (TmpSyn (i + delaypoint))) n synouttmp i
        = TmpSyn (i + delaypoint) := by
    intro n
    induction n with
    | zero => intro h; omega
    | succ m ih =>
      intro h
      rw [forLoop_succ]
      by_cases hm : i = (m : Int)
      · rw [← hm, Buf.write_same]
      · rw [Buf.write_other _ _ _ _ hm]
        apply ih
        omega
  unfold stripDelay
  apply key
  omega

theorem synapseTail_nonneg (sampIHC : Buf) (tdres : ℚ) (N dp : Int) (implnt sampFreq : ℚ)
    (synouttmp : Buf) (i : Int) (h0 : 0 ≤ i) (hN : i < N) :
    0 ≤ synapseTail sampIHC tdres N dp implnt sampFreq synouttmp i := by
  unfold synapseTail
  rw [stripDelay_read _ _ _ _ _ h0 hN]
  apply upsample_nonneg
  · exact powerLawLoop_nonneg _ _ _ _ _
  · intro j
    simp [Buf.calloc]

/-- C1. Every firing-rate sample that `Synapse` writes to `synouttmp` (the indices
`0 ≤ i < totalstim*nrep`) is non-negative: for the power-law stage, upsampling and delay
stripping run on an arbitrary resampled input `sampIHC` with an arbitrary `delaypoint`,
and so for `Synapse` itself with every host; for every `implnt` and every `tdres`, in
particular every `tdres > 0`. -/
theorem Synapse_output_nonneg (h : Host) (ihcout sampIHC : Buf) (tdres cf : ℚ)
    (totalstim nrep dp : Int) (spont implnt sampFreq : ℚ) (synouttmp : Buf) (i : Int)
    (h0 : 0 ≤ i) (hN : i < totalstim * nrep) :
    0 ≤ synapseTail sampIHC tdres (totalstim * nrep) dp implnt sampFreq synouttmp i ∧
    0 ≤ (Synapse h ihcout tdres cf totalstim nrep spont implnt sampFreq synouttmp).2 i :=
  ⟨synapseTail_nonneg _ _ _ _ _ _ _ _ h0 hN, synapseTail_nonneg _ _ _ _ _ _ _ _ h0 hN⟩

/-- C1 at a concrete input: the first of two samples, exact mode, `tdres = 1e-5`. -/
theorem Synapse_output_nonneg_witness :
    (0 : Int) ≤ 0 ∧ (0 : Int) < 2 * 1 ∧
    0 ≤ (Synapse flatHost rate100 (1 / 100000) 1000 2 1 5 1 10000 Buf.calloc).2 0 :=
  ⟨by decide, by decide,
    (Synapse_output_nonneg flatHost rate100 rate100 (1 / 100000) 1000 2 1 0 5 1 10000
      Buf.calloc 0 (by decide) (by decide)).2⟩

/-! ## SpikeGenerator: the invariant of the spike loop -/

theorem castInt_intCast (n : Int) : castInt (n : ℚ) = n := by
  unfold castInt
  split <;> simp

theorem deadtimeIndex_eq (tdres : ℚ) : deadtimeIndex tdres = ⌊dead / tdres⌋ :=
  castInt_intCast _

theorem deadtimeIndex_nonneg (tdres : ℚ) (h : 0 < tdres) : 0 ≤ deadtimeIndex tdres := by
  rw [deadtimeIndex_eq]
  exact Int.floor_nonneg.mpr (div_nonneg (by norm_num [dead]) h.le)

/-- The time between a spike and the next iteration of the loop,
`deadtimeRnd + tdres = (deadtimeIndex + 1) * tdres`, is longer than the dead time. -/
theorem dead_lt_stride (tdres : ℚ) (h : 0 < tdres) :
    dead < ((deadtimeIndex tdres : ℚ) + 1) * tdres := by
  rw [deadtimeIndex_eq]
  have h1 := Int.lt_floor_add_one (dead / tdres)
  calc dead = dead / tdres * tdres := by field_simp
    _ < ((⌊dead / tdres⌋ : ℚ) + 1) * tdres := mul_lt_mul_of_pos_right h1 h

theorem spikeInit_inv (h : Host) (synouttmp randNums : Buf) (tdres : ℚ) (totalstim nrep : Int)
    (sptime : Buf) :
    SpikeInv tdres totalstim nrep sptime (spikeInit h synouttmp randNums tdres sptime) := by
  constructor <;> simp [spikeInit] <;> intros <;> omega

/-- The fields an iteration that emits no spike leaves as they are. -/
theorem spikeBody_cases (h : Host) (synouttmp randNums : Buf) (tdres : ℚ) (s : SpikeState) :
    ((spikeBody h synouttmp randNums tdres s).k = s.k ∧
      (spikeBody h synouttmp randNums tdres s).countTime = s.countTime ∧
      (spikeBody h synouttmp randNums tdres s).Nout = s.Nout ∧
      (spikeBody h synouttmp randNums tdres s).randBufIndex = s.randBufIndex ∧
      (spikeBody h synouttmp randNums tdres s).sptime = s.sptime) ∨
    (0 < synouttmp s.k ∧
      (spikeBody h synouttmp randNums tdres s).k = s.k + deadtimeIndex tdres ∧
      (spikeBody h synouttmp randNums tdres s).countTime = s.countTime + deadtimeRnd tdres ∧
      (spikeBody h synouttmp randNums tdres s).Nout = s.Nout + 1 ∧
      (spikeBody h synouttmp randNums tdres s).randBufIndex = s.randBufIndex + 1 ∧
      (spikeBody h synouttmp randNums tdres s).sptime = s.sptime.write s.Nout s.countTime) := by
  unfold spikeBody
  by_cases h1 : synouttmp s.k > 0
  · rw [if_pos h1]
    dsimp only
    by_cases h2 : s.Xsum + synouttmp s.k * (1 - s.refracValue0 - s.refracValue1)
        ≥ s.unitRateIntrvl
    · rw [if_pos h2]
      right
      exact ⟨h1, rfl, rfl, rfl, rfl, rfl⟩
    · rw [if_neg h2]
      left
      exact ⟨rfl, rfl, rfl, rfl, rfl⟩
  · rw [if_neg h1]
    left
    exact ⟨rfl, rfl, rfl, rfl, rfl⟩

theorem spikeIncr_fields (tdres : ℚ) (s : SpikeState) :
    (spikeIncr tdres s).k = s.k + 1 ∧ (spikeIncr tdres s).countTime = s.countTime + tdres ∧
    (spikeIncr tdres s).Nout = s.Nout ∧ (spikeIncr tdres s).randBufIndex = s.randBufIndex ∧
    (spikeIncr tdres s).sptime = s.sptime :=
  ⟨rfl, rfl, rfl, rfl, rfl⟩

/-- One iteration of the spike loop, entered with `countTime < DT`, keeps the invariant. -/
theorem spikeStep_inv (h : Host) (synouttmp randNums : Buf) (tdres : ℚ) (totalstim nrep : Int)
    (sptime0 : Buf) (s : SpikeState) (htd : 0 < tdres)
    (hs : SpikeInv tdres totalstim nrep sptime0 s)
    (hc : s.countTime < DT totalstim tdres nrep) :
    SpikeInv tdres totalstim nrep sptime0
      (spikeIncr tdres (spikeBody h synouttmp randNums tdres s)) := by
  have hD := deadtimeIndex_nonneg tdres htd
  have hDq : (0 : ℚ) ≤ (deadtimeIndex tdres : ℚ) := by exact_mod_cast hD
  have hstride : 0 ≤ ((deadtimeIndex tdres : ℚ) + 1) * tdres :=
    mul_nonneg (by linarith) htd.le
  obtain ⟨ik, it, iN, -, ib⟩ := spikeIncr_fields tdres (spikeBody h synouttmp randNums tdres s)
  rcases spikeBody_cases h synouttmp randNums tdres s with
    ⟨bk, bt, bN, -, bb⟩ | ⟨-, bk, bt, bN, -, bb⟩
  · -- no spike in this iteration
    constructor
    · rw [iN, bN]; exact hs.nout_nonneg
    · rw [ik, bk]; have := hs.k_nonneg; omega
    · rw [it, bt, ik, bk, hs.time_eq]; push_cast; ring
    · rw [it, bt, iN, bN]; have := hs.lead; linarith
    · intro i h0 h1
      rw [iN, bN] at h1
      rw [ib, bb, it, bt]
      have := hs.before i h0 h1
      linarith
    · intro i h0 h1
      rw [iN, bN] at h1
      rw [ib, bb]
      exact hs.gap i h0 h1
    · intro i h0 h1
      rw [iN, bN] at h1
      rw [ib, bb]
      exact hs.lower i h0 h1
    · intro i h0 h1
      rw [iN, bN] at h1
      rw [ib, bb]
      exact hs.upper i h0 h1
    · intro i h1
      rw [iN, bN] at h1
      rw [ib, bb]
      exact hs.frame i h1
  · -- a spike is recorded at `sptime[Nout] = countTime`
    have hNq : (0 : ℚ) ≤ (s.Nout : ℚ) := by exact_mod_cast hs.nout_nonneg
    constructor
    · rw [iN, bN]; have := hs.nout_nonneg; omega
    · rw [ik, bk]; have := hs.k_nonneg; omega
    · rw [it, bt, ik, bk, hs.time_eq]; unfold deadtimeRnd; push_cast; ring
    · rw [it, bt, iN, bN]; unfold deadtimeRnd; push_cast; have := hs.lead; linarith
    · intro i h0 h1
      rw [iN, bN] at h1
      rw [ib, bb, it, bt]
      unfold deadtimeRnd
      by_cases hi : i = s.Nout
      · rw [hi, Buf.write_same]; linarith
      · rw [Buf.write_other _ _ _ _ hi]
        have := hs.before i h0 (by omega)
        linarith
    · intro i h0 h1
      rw [iN, bN] at h1
      rw [ib, bb]
      have hi : i ≠ s.Nout := by omega
      rw [Buf.write_other _ _ _ _ hi]
      by_cases hi1 : i + 1 = s.Nout
      · rw [hi1, Buf.write_same]
        exact hs.before i h0 (by omega)
      · rw [Buf.write_other _ _ _ _ hi1]
        exact hs.gap i h0 (by omega)
    · intro i h0 h1
      rw [iN, bN] at h1
      rw [ib, bb]
      by_cases hi : i = s.Nout
      · rw [hi, Buf.write_same]; exact hs.lead
      · rw [Buf.write_other _ _ _ _ hi]
        exact hs.lower i h0 (by omega)
    · intro i h0 h1
      rw [iN, bN] at h1
      rw [ib, bb]
      by_cases hi : i = s.Nout
      · rw [hi, Buf.write_same]; exact hc
      · rw [Buf.write_other _ _ _ _ hi]
        exact hs.upper i h0 (by omega)
    · intro i h1
      rw [iN, bN] at h1
      rw [ib, bb]
      have hi : i ≠ s.Nout := by have := hs.nout_nonneg; omega
      rw [Buf.write_other _ _ _ _ hi]
      exact hs.frame i (by omega)

theorem spikeLoop_inv (h : Host) (synouttmp randNums : Buf) (tdres : ℚ) (totalstim nrep : Int)
    (sptime0 : Buf) (htd : 0 < tdres) (fuel : Nat) :
    ∀ s, SpikeInv tdres totalstim nrep sptime0 s →
      SpikeInv tdres totalstim nrep sptime0
        (spikeLoop h synouttmp randNums tdres totalstim nrep fuel s) := by
  induction fuel with
  | zero => intro s hs; exact hs
  | succ m ih =>
    intro s hs
    unfold spikeLoop
    split_ifs with hc
    · exact ih _ (spikeStep_inv h synouttmp randNums tdres totalstim nrep sptime0 s htd hs hc.2)
    · exact hs

/-- With fuel for `totalstim*nrep - k` iterations the loop is left through its condition. -/
theorem spikeLoop_exits (h : Host) (synouttmp randNums : Buf) (tdres : ℚ) (totalstim nrep : Int)
    (htd : 0 < tdres) (fuel : Nat) :
    ∀ s : SpikeState, (totalstim * nrep - s.k).toNat ≤ fuel →
      ¬ ((spikeLoop h synouttmp randNums tdres totalstim nrep fuel s).k < totalstim * nrep ∧
        (spikeLoop h synouttmp randNums tdres totalstim nrep fuel s).countTime
          < DT totalstim tdres nrep) := by
  have hD := deadtimeIndex_nonneg tdres htd
  induction fuel with
  | zero =>
    intro s hf
    unfold spikeLoop
    intro hc
    omega
  | succ m ih =>
    intro s hf
    unfold spikeLoop
    split_ifs with hc
    · apply ih
      obtain ⟨ik, -⟩ := spikeIncr_fields tdres (spikeBody h synouttmp randNums tdres s)
      rw [ik]
      rcases spikeBody_cases h synouttmp randNums tdres s with ⟨bk, -⟩ | ⟨-, bk, -⟩ <;>
        rw [bk] <;> omega
    · exact hc

theorem spikeFinal_inv (h : Host) (synouttmp : Buf) (tdres : ℚ) (totalstim nrep : Int)
    (sptime : Buf) (htd : 0 < tdres) :
    SpikeInv tdres totalstim nrep sptime (spikeFinal h synouttmp tdres totalstim nrep sptime) :=
  spikeLoop_inv h synouttmp _ tdres totalstim nrep sptime htd _ _
    (spikeInit_inv h synouttmp _ tdres totalstim nrep sptime)

/-- For `tdres > 0` the spike loop of `SpikeGenerator` terminates: in the state
`spikeFinal` the loop condition `(k<totalstim*nrep) && (countTime<DT)` is false. -/
theorem SpikeGenerator_loop_exits (h : Host) (synouttmp : Buf) (tdres : ℚ)
    (totalstim nrep : Int) (sptime : Buf) (htd : 0 < tdres) :
    ¬ ((spikeFinal h synouttmp tdres totalstim nrep sptime).k < totalstim * nrep ∧
      (spikeFinal h synouttmp tdres totalstim nrep sptime).countTime
        < DT totalstim tdres nrep) := by
  apply spikeLoop_exits h synouttmp _ tdres totalstim nrep htd
  simp [spikeInit]

/-- Spikes `n` places apart are at least `n` strides apart. -/
theorem SpikeInv.gap_many {tdres : ℚ} {totalstim nrep : Int} {sptime0 : Buf} {s : SpikeState}
    (hs : SpikeInv tdres totalstim nrep sptime0 s) (i : Int) (h0 : 0 ≤ i) (n : Nat)
    (hn : i + n < s.Nout) :
    s.sptime i + (n : ℚ) * (((deadtimeIndex tdres : ℚ) + 1) * tdres) ≤ s.sptime (i + n) := by
  induction n with
  | zero => simp
  | succ m ih =>
    have h1 := ih (by push_cast at hn; omega)
    have h2 := hs.gap (i + m) (by omega) (by push_cast at hn; omega)
    have e : i + ((m + 1 : Nat) : Int) = i + m + 1 := by push_cast; ring
    rw [e]
    push_cast
    linarith

/-! ## SpikeGenerator: spike times and spike count -/

/-- C2. For every rate trace, every host (so every sequence of uniform draws) and every
`tdres > 0`, the spike times `SpikeGenerator` records in `sptime[0 .. nspikes-1]` are
strictly increasing, and consecutive spike times differ by at least the absolute dead
time `dead = 0.00075`, indeed by at least `(floor(dead/tdres)+1)*tdres`. -/
theorem SpikeGenerator_spikes_separated (h : Host) (synouttmp : Buf) (tdres : ℚ)
    (totalstim nrep : Int) (sptime : Buf) (i j : Int) (htd : 0 < tdres) (hi : 0 ≤ i)
    (hij : i < j) (hj : j < (SpikeGenerator h synouttmp tdres totalstim nrep sptime).1) :
    (SpikeGenerator h synouttmp tdres totalstim nrep sptime).2 i
        < (SpikeGenerator h synouttmp tdres totalstim nrep sptime).2 j ∧
    (SpikeGenerator h synouttmp tdres totalstim nrep sptime).2 i + dead
        ≤ (SpikeGenerator h synouttmp tdres totalstim nrep sptime).2 (i + 1) ∧
    (SpikeGenerator h synouttmp tdres totalstim nrep sptime).2 i
        + ((⌊dead / tdres⌋ : ℚ) + 1) * tdres
        ≤ (SpikeGenerator h synouttmp tdres totalstim nrep sptime).2 (i + 1) := by
  have inv := spikeFinal_inv h synouttmp tdres totalstim nrep sptime htd
  have hstride := dead_lt_stride tdres htd
  have hdead : (0 : ℚ) < dead := by norm_num [dead]
  simp only [SpikeGenerator] at hj ⊢
  have hgap := inv.gap i hi (by omega)
  obtain ⟨n, hn⟩ := Int.eq_ofNat_of_zero_le (show 0 ≤ j - i - 1 by omega)
  have hjn : j = i + 1 + n := by omega
  have hmany := inv.gap_many (i + 1) (by omega) n (by omega)
  rw [← hjn] at hmany
  have hn0 : (0 : ℚ) ≤ (n : ℚ) * (((deadtimeIndex tdres : ℚ) + 1) * tdres) :=
    mul_nonneg (Nat.cast_nonneg n) (by linarith)
  rw [← deadtimeIndex_eq]
  refine ⟨by linarith, by linarith, hgap⟩

/-- A run with two spikes, on which C2 is exercised. -/
theorem SpikeGenerator_spikes_separated_witness :
    (0 : ℚ) < 1 / 1000 ∧ (0 : Int) ≤ 0 ∧ (0 : Int) < 1 ∧
    (1 : Int) < (SpikeGenerator flatHost rate100 (1 / 1000) 4 1 Buf.calloc).1 ∧
    (SpikeGenerator flatHost rate100 (1 / 1000) 4 1 Buf.calloc).2 0
        < (SpikeGenerator flatHost rate100 (1 / 1000) 4 1 Buf.calloc).2 1 := by
  have hj : (1 : Int) < (SpikeGenerator flatHost rate100 (1 / 1000) 4 1 Buf.calloc).1 := by
    decide!
  exact ⟨by norm_num, by decide, by decide, hj,
    (SpikeGenerator_spikes_separated flatHost rate100 (1 / 1000) 4 1 Buf.calloc 0 1
      (by norm_num) (by decide) (by decide) hj).1⟩

/-- C3. For every rate trace, every host and every `tdres > 0`, each spike time `t`
recorded by `SpikeGenerator` satisfies `0 ≤ t < DT`, where `DT = totalstim*tdres*nrep`. -/
theorem SpikeGenerator_spike_times_in_range (h : Host) (synouttmp : Buf) (tdres : ℚ)
    (totalstim nrep : Int) (sptime : Buf) (i : Int) (htd : 0 < tdres) (hi : 0 ≤ i)
    (hn : i < (SpikeGenerator h synouttmp tdres totalstim nrep sptime).1) :
    0 ≤ (SpikeGenerator h synouttmp tdres totalstim nrep sptime).2 i ∧
    (SpikeGenerator h synouttmp tdres totalstim nrep sptime).2 i
      < (totalstim : ℚ) * tdres * (nrep : ℚ) := by
  have inv := spikeFinal_inv h synouttmp tdres totalstim nrep sptime htd
  simp only [SpikeGenerator] at hn ⊢
  have hlow := inv.lower i hi hn
  have hup := inv.upper i hi hn
  have hD : (0 : ℚ) ≤ (deadtimeIndex tdres : ℚ) := by
    exact_mod_cast deadtimeIndex_nonneg tdres htd
  have hiq : (0 : ℚ) ≤ (i : ℚ) := by exact_mod_cast hi
  have h1 : 0 ≤ ((i : ℚ) * ((deadtimeIndex tdres : ℚ) + 1) + 1) * tdres :=
    mul_nonneg (by positivity) htd.le
  exact ⟨by linarith, hup⟩

/-- A run with a spike, on which C3 is exercised. -/
theorem SpikeGenerator_spike_times_in_range_witness :
    (0 : ℚ) < 1 / 1000 ∧ (0 : Int) ≤ 0 ∧
    (0 : Int) < (SpikeGenerator flatHost rate100 (1 / 1000) 4 1 Buf.calloc).1 ∧
    0 ≤ (SpikeGenerator flatHost rate100 (1 / 1000) 4 1 Buf.calloc).2 0 := by
  have hn : (0 : Int) < (SpikeGenerator flatHost rate100 (1 / 1000) 4 1 Buf.calloc).1 := by
    decide!
  exact ⟨by norm_num, by decide, hn,
    (SpikeGenerator_spike_times_in_range flatHost rate100 (1 / 1000) 4 1 Buf.calloc 0
      (by norm_num) (by decide) hn).1⟩

/-! ## Synapse: the resting state of the adaptation loop -/

/-- The relation between `PI1`, `PI2`, `Ass` and `spont` that makes rest a fixed point. -/
theorem PI_identity (cf spont : ℚ) (hA : Ass cf ≠ 0) (hs : spont ≠ 0)
    (hd : PTS spont * Ass cf * (1 - spont / Ass cf) ≠ 0) (h1 : PI1 cf spont ≠ 0) :
    1 / Ass cf - 1 / PI2 cf spont + 1 / PI1 cf spont = 1 / spont := by
  have hP : PTS spont * Ass cf ≠ 0 := left_ne_zero_of_mul hd
  have hR : 1 - spont / Ass cf ≠ 0 := right_ne_zero_of_mul hd
  have hQ : PTS spont * Ass cf - spont ≠ 0 := by
    intro h0
    apply h1
    unfold PI1
    rw [h0]
    simp
  have hR' : Ass cf - spont ≠ 0 := by
    intro h0
    apply hR
    field_simp
    linarith
  unfold PI1 PI2
  field_simp
  ring

/-- The reciprocals of `PG` and `PL` add up to `theta3 = 1/Ass - 1/PI2`. -/
theorem inv_PG_add_inv_PL (cf spont : ℚ) :
    1 / PG cf spont + 1 / PL cf spont = 1 / Ass cf - 1 / PI2 cf spont := by
  unfold PG theta3
  rw [one_div_one_div]
  ring

theorem PG_mul (cf spont : ℚ) (wd : WellDefined cf spont) :
    PG cf spont * (1 - CLrest cf spont) = spont := by
  have hid := PI_identity cf spont wd.dAss wd.dSpont wd.dPI1 wd.dCI
  have hpl := wd.dPL
  have hp1 := wd.dCI
  have hs := wd.dSpont
  have hd := wd.dPG
  have e : 1 - CLrest cf spont = spont * (theta3 cf spont - 1 / PL cf spont) := by
    have ht : theta3 cf spont = 1 / spont - 1 / PI1 cf spont := by
      unfold theta3
      linarith
    rw [ht]
    unfold CLrest CIrest
    field_simp
    ring
  rw [e]
  unfold PG
  generalize theta3 cf spont - 1 / PL cf spont = d at hd
  field_simp

/-- With `PPI = PI1` the Euler update leaves the resting `CI` and `CL` as they are. -/
theorem adaptEuler_rest (cf spont tdres : ℚ) (wd : WellDefined cf spont) (k : Int) (b : Buf) :
    adaptEuler (adaptConsts cf spont) tdres (PI1 cf spont)
        { k := k, CI := CIrest cf spont, CL := CLrest cf spont, exponOut := b }
      = { k := k, CI := CIrest cf spont, CL := CLrest cf spont, exponOut := b } := by
  have hpl := wd.dPL
  have hp1 := wd.dCI
  have h1 : PL cf spont * (CLrest cf spont - CIrest cf spont)
      = PI1 cf spont * CIrest cf spont := by
    unfold CLrest
    field_simp
    ring
  have h2 : PI1 cf spont * CIrest cf spont = spont := by
    unfold CIrest
    field_simp
  have h3 := PG_mul cf spont wd
  have eCI : CIrest cf spont + tdres / VI cf spont *
      (-PI1 cf spont * CIrest cf spont + PL cf spont * (CLrest cf spont - CIrest cf spont))
      = CIrest cf spont := by
    rw [h1]
    ring
  have eCL : CLrest cf spont + tdres / VL cf spont *
      (-PL cf spont * (CLrest cf spont - CIrest cf spont) + PG cf spont * (CG - CLrest cf spont))
      = CLrest cf spont := by
    have : -PL cf spont * (CLrest cf spont - CIrest cf spont)
        + PG cf spont * (CG - CLrest cf spont) = 0 := by
      have hcg : CG = 1 := rfl
      rw [hcg, h3, neg_mul, h1, h2]
      ring
    rw [this]
    ring
  simp only [adaptEuler, adaptConsts]
  rw [eCI, eCL]

/-- With `PPI = PI1` the corrective branch recomputes the resting `CI` and `CL`. -/
theorem sat_rest (cf spont : ℚ) (wd : WellDefined cf spont) :
    satCI (adaptConsts cf spont) (PI1 cf spont) = CIrest cf spont ∧
    satCL (adaptConsts cf spont) (PI1 cf spont) = CLrest cf spont := by
  have hid := PI_identity cf spont wd.dAss wd.dSpont wd.dPI1 wd.dCI
  have hsum := inv_PG_add_inv_PL cf spont
  have hp1 := wd.dCI
  have hs := wd.dSpont
  have e1 : satCI (adaptConsts cf spont) (PI1 cf spont) = CIrest cf spont := by
    simp only [satCI, adaptConsts]
    have : 1 / PG cf spont + 1 / PL cf spont + 1 / PI1 cf spont = 1 / spont := by
      rw [hsum]
      exact hid
    rw [this]
    unfold CIrest CG
    field_simp
  refine ⟨e1, ?_⟩
  unfold satCL
  rw [e1]
  rfl

theorem PPIof_rest (c : AdaptConsts) (e : ℚ) (k : Int) (x : ℚ) (hx : x ≤ FTH + SRTH / e) :
    PPIof c e k x = c.PI1 := by
  unfold PPIof PPIrect
  simp [hx]

/-- One iteration at rest: the state stays at rest and `exponOut[k] = spont`. -/
theorem adaptStep_rest (cf spont tdres e x : ℚ) (wd : WellDefined cf spont) (k : Int) (b : Buf)
    (hx : x ≤ FTH + SRTH / e) :
    adaptStep (adaptConsts cf spont) e tdres x
        { k := k, CI := CIrest cf spont, CL := CLrest cf spont, exponOut := b }
      = { k := k + 1, CI := CIrest cf spont, CL := CLrest cf spont,
          exponOut := b.write k spont } := by
  have hP : PPIof (adaptConsts cf spont) e k x = PI1 cf spont := PPIof_rest _ e k x hx
  have hout : CIrest cf spont * PI1 cf spont = spont := by
    have := wd.dCI
    unfold CIrest
    field_simp
  unfold adaptStep
  simp only [hP]
  rw [adaptEuler_rest cf spont tdres wd k b]
  unfold adaptClamp
  split_ifs with hneg
  · simp only [(sat_rest cf spont wd).1, (sat_rest cf spont wd).2, hout]
  · simp only [hout]

theorem synapseAdapt_rest (h : Host) (ihcout : Buf) (cf spont tdres : ℚ)
    (wd : WellDefined cf spont) (hst : ∀ k, ihcout k ≤ FTH + SRTH / h.exp spont) (n : Nat) :
    ∃ b : Buf, (∀ j : Int, 0 ≤ j → j < n → b j = spont) ∧
      synapseAdapt h ihcout tdres cf spont n
        = { k := n, CI := CIrest cf spont, CL := CLrest cf spont, exponOut := b } := by
  induction n with
  | zero =>
    refine ⟨Buf.calloc, ?_, rfl⟩
    intro j h0 h1
    simp at h1
    omega
  | succ m ih =>
    obtain ⟨b, hb, hm⟩ := ih
    refine ⟨b.write m spont, ?_, ?_⟩
    · intro j h0 h1
      by_cases hj : j = (m : Int)
      · rw [hj, Buf.write_same]
      · rw [Buf.write_other _ _ _ _ hj]
        apply hb j h0
        push_cast at h1
        omega
    · have e : synapseAdapt h ihcout tdres cf spont (m + 1)
          = adaptStep (adaptConsts cf spont) (h.exp spont) tdres (ihcout m)
              (synapseAdapt h ihcout tdres cf spont m) := rfl
      rw [e, hm, adaptStep_rest cf spont tdres (h.exp spont) (ihcout m) wd m b (hst m)]
      simp

theorem CIrest_pos (cf spont : ℚ) (hs : 0 < spont) (hA : spont < Ass cf) :
    0 < CIrest cf spont := by
  have hA0 : 0 < Ass cf := lt_trans hs hA
  have hP : 1 < PTS spont := by
    unfold PTS
    have : 0 < 6 * spont / (6 + spont) := by positivity
    linarith
  have hQ : 0 < PTS spont * Ass cf - spont := by nlinarith
  have hR : 0 < 1 - spont / Ass cf := by
    rw [sub_pos, div_lt_one hA0]
    exact hA
  unfold CIrest PI1
  have hP0 : 0 < PTS spont := by linarith
  positivity

/-- C5 (amended). For every `cf`, `spont` and `tdres` for which the derived constants
are well defined and every stimulus whose samples are all `≤ FTH + SRTH/exp(spont)`:
after any number `n` of iterations of the adaptation loop `CI` and `CL` have their
resting values and `exponOut[j] = spont` for every `j < n`; the next iteration enters
the `CI<0` branch exactly when the resting value `CI = spont/PI1` is negative; that
value is positive when `0 < spont < Ass`. -/
theorem Synapse_rest_fixed_point (h : Host) (ihcout : Buf) (cf spont tdres : ℚ)
    (wd : WellDefined cf spont) (hst : ∀ k, ihcout k ≤ FTH + SRTH / h.exp spont) (n : Nat) :
    (synapseAdapt h ihcout tdres cf spont n).CI = CIrest cf spont ∧
    (synapseAdapt h ihcout tdres cf spont n).CL = CLrest cf spont ∧
    (∀ j : Int, 0 ≤ j → j < n → (synapseAdapt h ihcout tdres cf spont n).exponOut j = spont) ∧
    ((adaptEuler (adaptConsts cf spont) tdres
        (PPIof (adaptConsts cf spont) (h.exp spont) (synapseAdapt h ihcout tdres cf spont n).k
          (ihcout n)) (synapseAdapt h ihcout tdres cf spont n)).CI < 0
      ↔ CIrest cf spont < 0) ∧
    (0 < spont → spont < Ass cf → 0 < CIrest cf spont) := by
  obtain ⟨b, hb, hn⟩ := synapseAdapt_rest h ihcout cf spont tdres wd hst n
  rw [hn]
  refine ⟨rfl, rfl, hb, ?_, CIrest_pos cf spont⟩
  have hP : PPIof (adaptConsts cf spont) (h.exp spont) (n : Int) (ihcout n) = PI1 cf spont :=
    PPIof_rest _ _ _ _ (hst n)
  simp only [hP]
  rw [adaptEuler_rest cf spont tdres wd n b]

theorem wellDefined_1000_5 : WellDefined 1000 5 := by
  constructor <;>
  norm_num [Ass, PTS, PI1, PI2, CG, gamma1, gamma2, k1, k2, AR, AST, Ar_Ast, TauR, TauST,
    VI0, VI1, VI, alpha, beta, theta1, theta2, theta3, PL, PG, VL]

theorem wellDefined_1000_200 : WellDefined 1000 200 := by
  constructor <;>
  norm_num [Ass, PTS, PI1, PI2, CG, gamma1, gamma2, k1, k2, AR, AST, Ar_Ast, TauR, TauST,
    VI0, VI1, VI, alpha, beta, theta1, theta2, theta3, PL, PG, VL]

/-- C5 at a concrete input: `cf = 1000`, the medium class, a zero stimulus. -/
theorem Synapse_rest_fixed_point_witness :
    WellDefined 1000 5 ∧ (∀ k, Buf.calloc k ≤ FTH + SRTH / flatHost.exp 5) ∧
    (synapseAdapt flatHost Buf.calloc (1 / 100000) 1000 5 3).exponOut 2 = 5 := by
  have hst : ∀ k, Buf.calloc k ≤ FTH + SRTH / flatHost.exp 5 := by
    intro k
    norm_num [Buf.calloc, FTH, SRTH, flatHost]
  exact ⟨wellDefined_1000_5, hst,
    (Synapse_rest_fixed_point flatHost Buf.calloc 1000 5 (1 / 100000) wellDefined_1000_5 hst
      3).2.2.1 2 (by decide) (by decide)⟩

/-- C5 as stated fails: for `cf = 1000` and `spont = 200` (`fibertype = 200`) the
constants are well defined and the stimulus is zero, yet the resting `CI = spont/PI1` is
negative and the first iteration enters the `CI<0` branch. -/
theorem Synapse_rest_enters_branch :
    WellDefined 1000 200 ∧ (∀ k, Buf.calloc k ≤ FTH + SRTH / flatHost.exp 200) ∧
    (adaptEuler (adaptConsts 1000 200) (1 / 100000)
      (PPIof (adaptConsts 1000 200) (flatHost.exp 200)
        (synapseAdapt flatHost Buf.calloc (1 / 100000) 1000 200 0).k (Buf.calloc 0))
      (synapseAdapt flatHost Buf.calloc (1 / 100000) 1000 200 0)).CI < 0 := by
  refine ⟨wellDefined_1000_200, ?_, ?_⟩
  · intro k
    norm_num [Buf.calloc, FTH, SRTH, flatHost]
  · have e0 : synapseAdapt flatHost Buf.calloc (1 / 100000) 1000 200 0
        = { k := 0, CI := CIrest 1000 200, CL := CLrest 1000 200, exponOut := Buf.calloc } :=
      rfl
    have hP : PPIof (adaptConsts 1000 200) (flatHost.exp 200) 0 (Buf.calloc 0)
        = PI1 1000 200 := by
      simp [PPIof, adaptConsts]
    rw [e0]
    simp only [hP]
    rw [adaptEuler_rest 1000 200 (1 / 100000) wellDefined_1000_200 0 Buf.calloc]
    norm_num [CIrest, PI1, PTS, Ass]

/-! ## Synapse: the negative-concentration correction -/

theorem PPIrect_ge (c : AdaptConsts) (e x : ℚ) (hPI : c.PI1 ≤ c.PI2) : c.PI1 ≤ PPIrect c e x := by
  unfold PPIrect
  dsimp only
  split_ifs with hx
  · exact le_refl _
  · have hx' : 0 < x - SRTH / e := by
      have : FTH = 0 := rfl
      rw [this] at hx
      linarith [not_le.mp hx]
    have hV : (0 : ℚ) < Vsatmax - FTH := by norm_num [Vsatmax, FTH]
    have : 0 ≤ (c.PI2 - c.PI1) / (Vsatmax - FTH) * (x - SRTH / e) :=
      mul_nonneg (div_nonneg (sub_nonneg.mpr hPI) hV.le) hx'.le
    linarith

theorem PPIof_pos (c : AdaptConsts) (e : ℚ) (k : Int) (x : ℚ) (hPI1 : 0 < c.PI1)
    (hPI : c.PI1 ≤ c.PI2) : 0 < PPIof c e k x := by
  unfold PPIof
  split_ifs
  · exact hPI1
  · exact lt_of_lt_of_le hPI1 (PPIrect_ge c e x hPI)

/-- The value the corrective branch gives `CI` is positive, and the output `CI*PPI` it
leads to is the saturation value `CG/(1/PG + 1/PL + 1/PPI)`. -/
theorem satCI_spec (c : AdaptConsts) (PPI : ℚ) (hCG : 0 < c.CG) (hPG : 0 < c.PG)
    (hPL : 0 < c.PL) (hP : 0 < PPI) :
    0 < satCI c PPI ∧ satCI c PPI * PPI = c.CG / (1 / c.PG + 1 / c.PL + 1 / PPI) := by
  have ht : 0 < 1 / c.PG + 1 / c.PL + 1 / PPI := by positivity
  constructor
  · unfold satCI
    positivity
  · unfold satCI
    dsimp only
    field_simp
    ring

/-- One iteration of the adaptation loop from an arbitrary state. -/
theorem adaptStep_spec (c : AdaptConsts) (e tdres x : ℚ) (s : AdaptState) (hCG : 0 < c.CG)
    (hPG : 0 < c.PG) (hPL : 0 < c.PL) (hPI1 : 0 < c.PI1) (hPI : c.PI1 ≤ c.PI2) :
    (adaptStep c e tdres x s).k = s.k + 1 ∧
    0 ≤ (adaptStep c e tdres x s).CI ∧
    (adaptStep c e tdres x s).exponOut
      = s.exponOut.write s.k ((adaptStep c e tdres x s).CI * PPIof c e s.k x) ∧
    0 ≤ (adaptStep c e tdres x s).CI * PPIof c e s.k x ∧
    ((adaptEuler c tdres (PPIof c e s.k x) s).CI < 0 →
      (adaptStep c e tdres x s).CI * PPIof c e s.k x
        = c.CG / (1 / c.PG + 1 / c.PL + 1 / PPIof c e s.k x)) := by
  have hP := PPIof_pos c e s.k x hPI1 hPI
  obtain ⟨hsat, hval⟩ := satCI_spec c (PPIof c e s.k x) hCG hPG hPL hP
  have hk : (adaptEuler c tdres (PPIof c e s.k x) s).k = s.k := rfl
  have hb : (adaptEuler c tdres (PPIof c e s.k x) s).exponOut = s.exponOut := rfl
  unfold adaptStep adaptClamp
  dsimp only
  split_ifs with hneg
  · refine ⟨by simp [hk], hsat.le, by simp [hk, hb], by positivity, fun _ => hval⟩
  · have h0 : 0 ≤ (adaptEuler c tdres (PPIof c e s.k x) s).CI := not_lt.mp hneg
    refine ⟨by simp [hk], h0, by simp [hk, hb], by positivity, fun hc => absurd hc hneg⟩

theorem adaptLoop_succ (c : AdaptConsts) (e tdres : ℚ) (ihcout : Buf) (n : Nat)
    (s : AdaptState) :
    adaptLoop c e tdres ihcout (n + 1) s
      = adaptStep c e tdres (ihcout n) (adaptLoop c e tdres ihcout n s) := rfl

/-- After `n` iterations from the state `s`: `k` has advanced by `n` and the `n` outputs
written so far are non-negative. -/
theorem adaptLoop_outputs (c : AdaptConsts) (e tdres : ℚ) (ihcout : Buf) (s : AdaptState)
    (hCG : 0 < c.CG) (hPG : 0 < c.PG) (hPL : 0 < c.PL) (hPI1 : 0 < c.PI1)
    (hPI : c.PI1 ≤ c.PI2) (n : Nat) :
    (adaptLoop c e tdres ihcout n s).k = s.k + n ∧
    ∀ j : Nat, j < n → 0 ≤ (adaptLoop c e tdres ihcout n s).exponOut (s.k + j) := by
  induction n with
  | zero =>
    refine ⟨by simp [adaptLoop, forLoop], ?_⟩
    intro j hj
    omega
  | succ m ih =>
    obtain ⟨ihk, ihb⟩ := ih
    obtain ⟨hk, -, hb, hv, -⟩ :=
      adaptStep_spec c e tdres (ihcout m) (adaptLoop c e tdres ihcout m s) hCG hPG hPL hPI1 hPI
    rw [adaptLoop_succ]
    refine ⟨by rw [hk, ihk]; push_cast; ring, ?_⟩
    intro j hj
    rw [hb, ihk]
    by_cases hjm : j = m
    · rw [hjm, Buf.write_same]
      rw [ihk] at hv
      exact hv
    · have hne : s.k + (j : Int) ≠ s.k + (m : Int) := by omega
      rw [Buf.write_other _ _ _ _ hne]
      exact ihb j (by omega)

/-- C6. Whenever `CG, PG, PL > 0` and `PI2 ≥ PI1 > 0`, for every stimulus, every `tdres`
(in particular `tdres > 0`), every `exp(spont)` and every starting state: after each
iteration of the adaptation loop `CI ≥ 0`; every output `exponOut[k]` written so far is
`≥ 0`; the output of the iteration is `CI*PPI`; and in an iteration whose Euler step
made `CI` negative that output is the saturation value `CG/(1/PG + 1/PL + 1/PPI)`. -/
theorem Synapse_negative_CI_corrected (c : AdaptConsts) (e tdres : ℚ) (ihcout : Buf)
    (s : AdaptState) (n : Nat) (hCG : 0 < c.CG) (hPG : 0 < c.PG) (hPL : 0 < c.PL)
    (hPI1 : 0 < c.PI1) (hPI : c.PI1 ≤ c.PI2) :
    0 ≤ (adaptLoop c e tdres ihcout (n + 1) s).CI ∧
    (∀ j : Nat, j < n + 1 → 0 ≤ (adaptLoop c e tdres ihcout (n + 1) s).exponOut (s.k + j)) ∧
    (adaptLoop c e tdres ihcout (n + 1) s).exponOut (adaptLoop c e tdres ihcout n s).k
      = (adaptLoop c e tdres ihcout (n + 1) s).CI
        * PPIof c e (adaptLoop c e tdres ihcout n s).k (ihcout n) ∧
    ((adaptEuler c tdres (PPIof c e (adaptLoop c e tdres ihcout n s).k (ihcout n))
        (adaptLoop c e tdres ihcout n s)).CI < 0 →
      (adaptLoop c e tdres ihcout (n + 1) s).exponOut (adaptLoop c e tdres ihcout n s).k
        = c.CG / (1 / c.PG + 1 / c.PL
          + 1 / PPIof c e (adaptLoop c e tdres ihcout n s).k (ihcout n))) := by
  obtain ⟨-, h0, hb, -, hsat⟩ :=
    adaptStep_spec c e tdres (ihcout n) (adaptLoop c e tdres ihcout n s) hCG hPG hPL hPI1 hPI
  have hout := (adaptLoop_outputs c e tdres ihcout s hCG hPG hPL hPI1 hPI (n + 1)).2
  rw [adaptLoop_succ]
  refine ⟨h0, hout, ?_, ?_⟩
  · rw [hb, Buf.write_same]
  · intro hneg
    rw [hb, Buf.write_same]
    exact hsat hneg

/-- C6 at the constants of `cf = 1000` and the medium class. -/
theorem Synapse_negative_CI_corrected_witness :
    0 < (adaptConsts 1000 5).CG ∧ 0 < (adaptConsts 1000 5).PG ∧ 0 < (adaptConsts 1000 5).PL ∧
    0 < (adaptConsts 1000 5).PI1 ∧ (adaptConsts 1000 5).PI1 ≤ (adaptConsts 1000 5).PI2 ∧
    0 ≤ (adaptLoop (adaptConsts 1000 5) 1 (1 / 100000) rate100 1
      { k := 0, CI := -1, CL := 1, exponOut := Buf.calloc }).CI := by
  have hCG : 0 < (adaptConsts 1000 5).CG := by norm_num [adaptConsts, CG]
  have hPG : 0 < (adaptConsts 1000 5).PG := by
    norm_num [adaptConsts, Ass, PTS, PI1, PI2, CG, gamma1, gamma2, k1, k2, AR, AST, Ar_Ast,
      TauR, TauST, VI0, VI1, VI, alpha, beta, theta1, theta2, theta3, PL, PG]
  have hPL : 0 < (adaptConsts 1000 5).PL := by
    norm_num [adaptConsts, Ass, PTS, PI1, PI2, CG, gamma1, gamma2, k1, k2, AR, AST, Ar_Ast,
      TauR, TauST, VI0, VI1, VI, alpha, beta, theta1, theta2, theta3, PL]
  have hPI1 : 0 < (adaptConsts 1000 5).PI1 := by norm_num [adaptConsts, Ass, PTS, PI1]
  have hPI : (adaptConsts 1000 5).PI1 ≤ (adaptConsts 1000 5).PI2 := by
    norm_num [adaptConsts, Ass, PTS, PI1, PI2]
  exact ⟨hCG, hPG, hPL, hPI1, hPI,
    (Synapse_negative_CI_corrected (adaptConsts 1000 5) 1 (1 / 100000) rate100
      { k := 0, CI := -1, CL := 1, exponOut := Buf.calloc } 0 hCG hPG hPL hPI1 hPI).1⟩

/-! ## Closed forms of the derived constants for `0 < spont < Ass` -/

theorem PTS_gt_one (spont : ℚ) (hs : 0 < spont) : 1 < PTS spont := by
  unfold PTS
  have : 0 < 6 * spont / (6 + spont) := by positivity
  linarith

theorem PI2_pos (cf spont : ℚ) (hs : 0 < spont) (hA : spont < Ass cf) : 0 < PI2 cf spont := by
  have hA0 : 0 < Ass cf := lt_trans hs hA
  have hP := PTS_gt_one spont hs
  have hQ : 0 < PTS spont * Ass cf - spont := by nlinarith
  have hR : 0 < 1 - spont / Ass cf := by
    rw [sub_pos, div_lt_one hA0]
    exact hA
  unfold PI2
  positivity

theorem PI1_eq (cf spont : ℚ) (hs : 0 < spont) (hA : spont < Ass cf) :
    PI1 cf spont = spont * PI2 cf spont / (PTS spont * Ass cf) := by
  have hA0 : 0 < Ass cf := lt_trans hs hA
  have hP := PTS_gt_one spont hs
  have hR : 0 < 1 - spont / Ass cf := by
    rw [sub_pos, div_lt_one hA0]
    exact hA
  have hAs: Ass cf - spont ≠ 0 := by linarith
  unfold PI1 PI2
  field_simp
  ring

theorem theta3_eq (cf spont : ℚ) (hs : 0 < spont) (hA : spont < Ass cf) :
    theta3 cf spont = (PTS spont - 1) / (PTS spont * Ass cf - spont) := by
  have hA0 : 0 < Ass cf := lt_trans hs hA
  have hP := PTS_gt_one spont hs
  have hQ : 0 < PTS spont * Ass cf - spont := by nlinarith
  have hAs : Ass cf - spont ≠ 0 := by linarith
  unfold theta3 PI2
  field_simp
  ring

theorem VI0_bracket_eq (cf spont : ℚ) (hs : 0 < spont) (hA : spont < Ass cf) :
    (AR cf spont * (k1 - k2) / (CG * PI2 cf spont))
      + (k2 / (PI1 cf spont * gamma1 spont)) - (k2 / (PI2 cf spont * gamma2 cf))
    = -(775 * (PTS spont - 1) * Ass cf) / (3 * PI2 cf spont) := by
  have hA0 : 0 < Ass cf := lt_trans hs hA
  have hP := PTS_gt_one spont hs
  have h2 := PI2_pos cf spont hs hA
  rw [PI1_eq cf spont hs hA]
  unfold gamma1 gamma2 AR k1 k2 CG Ar_Ast TauR TauST
  generalize PI2 cf spont = p2 at h2
  generalize PTS spont = P at hP
  generalize Ass cf = A at hA hA0
  field_simp
  ring

theorem VI1_bracket_eq (cf spont : ℚ) (hs : 0 < spont) (hA : spont < Ass cf) :
    (AST cf spont * (k2 - k1) / (CG * PI2 cf spont))
      + (k1 / (PI1 cf spont * gamma1 spont)) - (k1 / (PI2 cf spont * gamma2 cf))
    = -(775 * (PTS spont - 1) * Ass cf) / (3 * PI2 cf spont) := by
  have hA0 : 0 < Ass cf := lt_trans hs hA
  have hP := PTS_gt_one spont hs
  have h2 := PI2_pos cf spont hs hA
  rw [PI1_eq cf spont hs hA]
  unfold gamma1 gamma2 AST k1 k2 CG Ar_Ast TauR TauST
  generalize PI2 cf spont = p2 at h2
  generalize PTS spont = P at hP
  generalize Ass cf = A at hA hA0
  field_simp
  ring

theorem VI0_eq (cf spont : ℚ) (hs : 0 < spont) (hA : spont < Ass cf) :
    VI0 cf spont = 3 * (PTS spont * Ass cf - spont) * PI2 cf spont
      / (775 * (PTS spont - 1) * Ass cf) := by
  have hA0 : 0 < Ass cf := lt_trans hs hA
  have hP := PTS_gt_one spont hs
  have hP1 : PTS spont - 1 ≠ 0 := by linarith
  have h2 := PI2_pos cf spont hs hA
  unfold VI0
  rw [VI0_bracket_eq cf spont hs hA]
  unfold gamma1 CG
  generalize PI2 cf spont = p2 at h2
  generalize PTS spont = P at hP hP1
  generalize Ass cf = A at hA hA0
  field_simp
  ring

theorem VI1_eq (cf spont : ℚ) (hs : 0 < spont) (hA : spont < Ass cf) :
    VI1 cf spont = 3 * (PTS spont * Ass cf - spont) * PI2 cf spont
      / (775 * (PTS spont - 1) * Ass cf) := by
  have hA0 : 0 < Ass cf := lt_trans hs hA
  have hP := PTS_gt_one spont hs
  have hP1 : PTS spont - 1 ≠ 0 := by linarith
  have h2 := PI2_pos cf spont hs hA
  unfold VI1
  rw [VI1_bracket_eq cf spont hs hA]
  unfold gamma1 CG
  generalize PI2 cf spont = p2 at h2
  generalize PTS spont = P at hP hP1
  generalize Ass cf = A at hA hA0
  field_simp
  ring

theorem VI_eq (cf spont : ℚ) (hs : 0 < spont) (hA : spont < Ass cf) :
    VI cf spont = 3 * (PTS spont * Ass cf - spont) * PI2 cf spont
      / (775 * (PTS spont - 1) * Ass cf) := by
  unfold VI
  rw [VI0_eq cf spont hs hA, VI1_eq cf spont hs hA]
  ring

theorem theta1_eq (cf spont : ℚ) (hs : 0 < spont) (hA : spont < Ass cf) :
    theta1 cf spont = 31 * (PTS spont - 1) / (1000 * (PTS spont * Ass cf - spont)) := by
  have hA0 : 0 < Ass cf := lt_trans hs hA
  have hP := PTS_gt_one spont hs
  have hP1 : PTS spont - 1 ≠ 0 := by linarith
  have hQ : 0 < PTS spont * Ass cf - spont := by nlinarith
  have h2 := PI2_pos cf spont hs hA
  unfold theta1
  rw [VI_eq cf spont hs hA]
  unfold alpha CG TauR TauST
  generalize PI2 cf spont = p2 at h2
  generalize PTS spont = P at hP hP1 hQ
  generalize Ass cf = A at hA hA0 hQ
  field_simp
  ring

/-- The numerator `841*PTS*Ass + 961*Ass - 1802*spont` that `PL` and `PG` share. -/
theorem PL_eq (cf spont : ℚ) (hs : 0 < spont) (hA : spont < Ass cf) :
    PL cf spont = (841 * PTS spont * Ass cf + 961 * Ass cf - 1802 * spont)
      / (961 * Ass cf * (PTS spont - 1)) * PI2 cf spont := by
  have hA0 : 0 < Ass cf := lt_trans hs hA
  have hP := PTS_gt_one spont hs
  have hP1 : PTS spont - 1 ≠ 0 := by linarith
  have hQ : 0 < PTS spont * Ass cf - spont := by nlinarith
  have h2 := PI2_pos cf spont hs hA
  unfold PL
  rw [theta1_eq cf spont hs hA, theta3_eq cf spont hs hA]
  unfold theta2
  rw [VI_eq cf spont hs hA]
  unfold beta alpha CG TauR TauST
  generalize PI2 cf spont = p2 at h2
  generalize PTS spont = P at hP hP1 hQ
  generalize Ass cf = A at hA hA0 hQ
  field_simp
  ring

theorem PL_pos (cf spont : ℚ) (hs : 0 < spont) (hA : spont < Ass cf) : 0 < PL cf spont := by
  have hA0 : 0 < Ass cf := lt_trans hs hA
  have hP := PTS_gt_one spont hs
  have hP1 : 0 < PTS spont - 1 := by linarith
  have h2 := PI2_pos cf spont hs hA
  have hD : 0 < 841 * PTS spont * Ass cf + 961 * Ass cf - 1802 * spont := by nlinarith
  rw [PL_eq cf spont hs hA]
  positivity

theorem theta3_sub_eq (cf spont : ℚ) (hs : 0 < spont) (hA : spont < Ass cf) :
    theta3 cf spont - 1 / PL cf spont
      = 841 * (PTS spont - 1) / (841 * PTS spont * Ass cf + 961 * Ass cf - 1802 * spont) := by
  have hA0 : 0 < Ass cf := lt_trans hs hA
  have hP := PTS_gt_one spont hs
  have hP1 : PTS spont - 1 ≠ 0 := by linarith
  have hQ : 0 < PTS spont * Ass cf - spont := by nlinarith
  have hD : 0 < 841 * PTS spont * Ass cf + 961 * Ass cf - 1802 * spont := by nlinarith
  have hAs : Ass cf - spont ≠ 0 := by linarith
  rw [PL_eq cf spont hs hA, theta3_eq cf spont hs hA]
  unfold PI2
  generalize PTS spont = P at hP hP1 hQ hD
  generalize Ass cf = A at hA hA0 hQ hD hAs
  field_simp
  ring

theorem PG_eq (cf spont : ℚ) (hs : 0 < spont) (hA : spont < Ass cf) :
    PG cf spont = (841 * PTS spont * Ass cf + 961 * Ass cf - 1802 * spont)
      / (841 * (PTS spont - 1)) := by
  have hA0 : 0 < Ass cf := lt_trans hs hA
  have hP := PTS_gt_one spont hs
  have hP1 : PTS spont - 1 ≠ 0 := by linarith
  have hD : 0 < 841 * PTS spont * Ass cf + 961 * Ass cf - 1802 * spont := by nlinarith
  unfold PG
  rw [theta3_sub_eq cf spont hs hA]
  field_simp

theorem PG_pos (cf spont : ℚ) (hs : 0 < spont) (hA : spont < Ass cf) : 0 < PG cf spont := by
  have hA0 : 0 < Ass cf := lt_trans hs hA
  have hP := PTS_gt_one spont hs
  have hP1 : 0 < PTS spont - 1 := by linarith
  have hD : 0 < 841 * PTS spont * Ass cf + 961 * Ass cf - 1802 * spont := by nlinarith
  rw [PG_eq cf spont hs hA]
  positivity

/-- For `0 < spont < Ass`, which holds for the three fiber classes at every `cf` in
`[80, 40000]`, no divisor of the derived constants is zero; `PI1`, `PI2`, `PL` and `PG`
are positive. -/
theorem wellDefined_of_lt (cf spont : ℚ) (hs : 0 < spont) (hA : spont < Ass cf) :
    WellDefined cf spont := by
  have hA0 : 0 < Ass cf := lt_trans hs hA
  have hP := PTS_gt_one spont hs
  have hP1 : 0 < PTS spont - 1 := by linarith
  have hQ : 0 < PTS spont * Ass cf - spont := by nlinarith
  have hD : 0 < 841 * PTS spont * Ass cf + 961 * Ass cf - 1802 * spont := by nlinarith
  have hR : 0 < 1 - spont / Ass cf := by
    rw [sub_pos, div_lt_one hA0]
    exact hA
  have h2 := PI2_pos cf spont hs hA
  have h1 : 0 < PI1 cf spont := by
    rw [PI1_eq cf spont hs hA]
    positivity
  have hg1 : 0 < gamma1 spont := by
    unfold gamma1 CG
    positivity
  have hg2 : 0 < gamma2 cf := by
    unfold gamma2 CG
    positivity
  have hVI : 0 < VI cf spont := by
    rw [VI_eq cf spont hs hA]
    positivity
  have hth1 : 0 < theta1 cf spont := by
    rw [theta1_eq cf spont hs hA]
    positivity
  have hPL := PL_pos cf spont hs hA
  have hPG := PG_pos cf spont hs hA
  have hbr : -(775 * (PTS spont - 1) * Ass cf) / (3 * PI2 cf spont) < 0 := by
    apply div_neg_of_neg_of_pos
    · nlinarith [mul_pos hP1 hA0]
    · positivity
  constructor
  · linarith
  · exact hA0.ne'
  · positivity
  · exact hR.ne'
  · exact hs.ne'
  · unfold CG
    positivity
  · positivity
  · positivity
  · rw [VI0_bracket_eq cf spont hs hA]
    exact mul_ne_zero hg1.ne' hbr.ne
  · rw [VI1_bracket_eq cf spont hs hA]
    exact mul_ne_zero hg1.ne' hbr.ne
  · exact hVI.ne'
  · exact h2.ne'
  · exact hth1.ne'
  · exact hPL.ne'
  · rw [theta3_sub_eq cf spont hs hA]
    positivity
  · unfold VL
    positivity
  · exact h1.ne'

/-- The state the corrective branch sets is a fixed point of the Euler update: with
`CI = CG/(PPI*temp)` and `CL = CI*(PPI+PL)/PL` both right-hand sides vanish. -/
theorem adaptEuler_sat (c : AdaptConsts) (tdres PPI : ℚ) (k : Int) (b : Buf) (hPG : 0 < c.PG)
    (hPL : 0 < c.PL) (hP : 0 < PPI) :
    adaptEuler c tdres PPI { k := k, CI := satCI c PPI, CL := satCL c PPI, exponOut := b }
      = { k := k, CI := satCI c PPI, CL := satCL c PPI, exponOut := b } := by
  have ht : 0 < 1 / c.PG + 1 / c.PL + 1 / PPI := by positivity
  have e1 : -PPI * satCI c PPI + c.PL * (satCL c PPI - satCI c PPI) = 0 := by
    unfold satCL
    field_simp
    ring
  have e2 : -c.PL * (satCL c PPI - satCI c PPI) + c.PG * (c.CG - satCL c PPI) = 0 := by
    unfold satCL satCI
    dsimp only
    field_simp
    ring
  simp only [adaptEuler]
  rw [e1, e2]
  simp

/-! ## Steady-state rate and fiber class -/

theorem spontOf_classes : spontOf 1 = 1 ∧ spontOf 2 = 5 ∧ spontOf 3 = 60 := by
  refine ⟨?_, ?_, ?_⟩ <;> norm_num [spontOf]

theorem Ass_gt_60 (cf : ℚ) (hlo : 80 ≤ cf) : 60 < Ass cf := by
  unfold Ass
  linarith

theorem steadyRate_eq (h : Host) (cf spont v : ℚ) (hs : 0 < spont) (hA : spont < Ass cf) :
    steadyRate h cf spont v
      = CG / (1 / PG cf spont + 1 / PL cf spont
          + 1 / PPIrect (adaptConsts cf spont) (h.exp spont) v) := by
  have h1 : 0 < (adaptConsts cf spont).PI1 := by
    show 0 < PI1 cf spont
    rw [PI1_eq cf spont hs hA]
    have := PI2_pos cf spont hs hA
    have := PTS_gt_one spont hs
    have : 0 < Ass cf := lt_trans hs hA
    positivity
  have h12 : (adaptConsts cf spont).PI1 ≤ (adaptConsts cf spont).PI2 := by
    show PI1 cf spont ≤ PI2 cf spont
    rw [PI1_eq cf spont hs hA]
    have h2 := PI2_pos cf spont hs hA
    have hP := PTS_gt_one spont hs
    have hA0 : 0 < Ass cf := lt_trans hs hA
    have hsA : spont ≤ PTS spont * Ass cf := by nlinarith
    rw [div_le_iff₀ (by positivity)]
    nlinarith [mul_le_mul_of_nonneg_left hsA h2.le]
  have hP : 0 < PPIrect (adaptConsts cf spont) (h.exp spont) v :=
    lt_of_lt_of_le h1 (PPIrect_ge _ _ _ h12)
  exact (satCI_spec (adaptConsts cf spont) _ (by norm_num [adaptConsts, CG])
    (PG_pos cf spont hs hA) (PL_pos cf spont hs hA) hP).2

theorem steadyRate_rest (h : Host) (cf spont v : ℚ) (hs : 0 < spont) (hA : spont < Ass cf)
    (hv : v ≤ FTH + SRTH / h.exp spont) : steadyRate h cf spont v = spont := by
  have wd := wellDefined_of_lt cf spont hs hA
  have hP : PPIrect (adaptConsts cf spont) (h.exp spont) v = PI1 cf spont := by
    unfold PPIrect
    simp [hv, adaptConsts]
  unfold steadyRate
  simp only [hP]
  rw [(sat_rest cf spont wd).1]
  have := wd.dCI
  unfold CIrest
  field_simp

/-! ## Synapse: the delay `delaypoint` -/

theorem delaypoint_arg (cf : ℚ) (hlo : 80 ≤ cf) : 7500 / (cf / 1000) = 7500000 / cf := by
  have : cf ≠ 0 := by linarith
  field_simp
  ring

/-- C8 (amended). For every `cf` in `[80, 40000]` the delay `delaypoint` that `Synapse`
pads with and later strips is `7500/(cf/1000)` rounded down: it is the integer `d` with
`d ≤ 7500/(cf/1000) < d + 1`, it lies between 187 and 93750, and it is the nearest
integer `round(7500/(cf/1000))` exactly when the fractional part of `7500/(cf/1000)` is
below one half. -/
theorem delaypoint_is_floor (cf : ℚ) (hlo : 80 ≤ cf) (hhi : cf ≤ 40000) :
    (delaypoint cf : ℚ) ≤ 7500 / (cf / 1000) ∧
    7500 / (cf / 1000) < (delaypoint cf : ℚ) + 1 ∧
    187 ≤ delaypoint cf ∧ delaypoint cf ≤ 93750 ∧
    (delaypoint cf = round (7500 / (cf / 1000)) ↔ Int.fract (7500 / (cf / 1000)) < 1 / 2) := by
  have hcf : (0 : ℚ) < cf := by linarith
  have harg := delaypoint_arg cf hlo
  refine ⟨Int.floor_le _, Int.lt_floor_add_one _, ?_, ?_, ?_⟩
  · unfold delaypoint
    rw [Int.le_floor, harg, le_div_iff₀ hcf]
    push_cast
    linarith
  · unfold delaypoint
    have h1 : 7500 / (cf / 1000) < ((93750 + 1 : Int) : ℚ) := by
      rw [harg, div_lt_iff₀ hcf]
      push_cast
      linarith
    have := Int.floor_lt.mpr h1
    omega
  · unfold delaypoint
    generalize 7500 / (cf / 1000) = x
    unfold round
    split_ifs with hf
    · constructor
      · intro _
        linarith
      · intro _
        rfl
    · constructor
      · intro he
        have hx : (⌊x⌋ : ℚ) = x := by
          apply le_antisymm (Int.floor_le x)
          rw [he]
          exact Int.le_ceil x
        have : Int.fract x = 0 := by
          unfold Int.fract
          linarith
        rw [this] at hf
        norm_num at hf
      · intro h2
        exfalso
        apply hf
        linarith

/-- C8 at `cf = 1000`. -/
theorem delaypoint_is_floor_witness :
    (80 : ℚ) ≤ 1000 ∧ (1000 : ℚ) ≤ 40000 ∧ ((delaypoint 1000 : Int) : ℚ) ≤ 7500 / (1000 / 1000) :=
  ⟨by norm_num, by norm_num, (delaypoint_is_floor 1000 (by norm_num) (by norm_num)).1⟩

/-- C8 as stated fails: at `cf = 1700` the quotient `7500/(cf/1000)` is about 4411.76;
`delaypoint` is 4411 and the nearest integer is 4412. -/
theorem delaypoint_not_round :
    (80 : ℚ) ≤ 1700 ∧ (1700 : ℚ) ≤ 40000 ∧ delaypoint 1700 = 4411 ∧
    round (7500 / ((1700 : ℚ) / 1000)) = 4412 ∧
    delaypoint 1700 ≠ round (7500 / ((1700 : ℚ) / 1000)) := by
  have h1 : delaypoint 1700 = 4411 := by
    unfold delaypoint
    rw [Int.floor_eq_iff]
    norm_num
  have h2 : round (7500 / ((1700 : ℚ) / 1000)) = 4412 := by
    rw [round_eq, Int.floor_eq_iff]
    norm_num
  refine ⟨by norm_num, by norm_num, h1, h2, ?_⟩
  rw [h1, h2]
  decide

/-! ## Synapse: the power-law loop in exact mode -/

theorem convLoop_eq_sum (sout : Buf) (bw bet : ℚ) (k : Int) (n : Nat) :
    convLoop sout bw bet k n
      = ∑ j in Finset.range n, sout j * (bw / (((k : ℚ) - (j : ℚ)) * bw + bet)) := by
  induction n with
  | zero => rfl
  | succ m ih =>
    rw [Finset.sum_range_succ, ← ih]
    unfold convLoop
    rw [forLoop_succ]
    push_cast
    ring

/-- The inner loop over `j < n` reads only the elements `sout[0 .. n-1]`. -/
theorem convLoop_congr (sout sout' : Buf) (bw bet : ℚ) (k : Int) (n : Nat)
    (h : ∀ j : Nat, j < n → sout j = sout' j) :
    convLoop sout bw bet k n = convLoop sout' bw bet k n := by
  rw [convLoop_eq_sum, convLoop_eq_sum]
  apply Finset.sum_congr rfl
  intro j hj
  rw [h j (Finset.mem_range.mp hj)]

theorem convLoop_write (sout : Buf) (bw bet : ℚ) (k : Int) (n m : Nat) (v : ℚ) (hnm : n ≤ m) :
    convLoop (sout.write m v) bw bet k n = convLoop sout bw bet k n := by
  apply convLoop_congr
  intro j hj
  apply Buf.write_other
  omega

theorem codeConv_eq_convLoop (sout : Buf) (bw bet : ℚ) (k : Nat) :
    codeConv sout bw bet k = convLoop sout bw bet ((k : Int) - 1) k := by
  rw [convLoop_eq_sum]
  unfold codeConv
  push_cast
  rfl

theorem codeConv_write (sout : Buf) (bw bet : ℚ) (k m : Nat) (v : ℚ) (hkm : k ≤ m) :
    codeConv (sout.write m v) bw bet k = codeConv sout bw bet k := by
  rw [codeConv_eq_convLoop, codeConv_eq_convLoop]
  exact convLoop_write sout bw bet _ k m v hkm

theorem powerLawStep_inv (tdres sampFreq : ℚ) (sampIHC : Buf) (m : Nat) (s : PowerLawState)
    (hs : PowerLawInv tdres sampFreq sampIHC m s) :
    PowerLawInv tdres sampFreq sampIHC (m + 1)
      (powerLawStep 1 tdres sampFreq (sampIHC m) s) := by
  have hk := hs.k_eq
  have hn : (s.k + 1).toNat = m + 1 := by
    rw [hk]
    omega
  have hk1 : s.k = ((m + 1 : Nat) : Int) - 1 := by
    rw [hk]
    push_cast
    ring
  constructor
  · simp only [powerLawStep, hk]
    push_cast
    ring
  · simp only [powerLawStep, if_true]
    rw [codeConv_eq_convLoop, hn, ← hk1]
  · simp only [powerLawStep, if_true]
    rw [codeConv_eq_convLoop, hn, ← hk1]
  · intro k hkm
    simp only [powerLawStep]
    rw [hk, codeConv_write _ _ _ _ _ _ (by omega)]
    by_cases hkeq : k = m
    · rw [hkeq, Buf.write_same, hs.I1_eq]
    · have hne : (k : Int) ≠ (m : Int) := by omega
      rw [Buf.write_other _ _ _ _ hne]
      exact hs.out1 k (by omega)
  · intro k hkm
    simp only [powerLawStep]
    rw [hk, codeConv_write _ _ _ _ _ _ (by omega)]
    by_cases hkeq : k = m
    · rw [hkeq, Buf.write_same, hs.I2_eq]
    · have hne : (k : Int) ≠ (m : Int) := by omega
      rw [Buf.write_other _ _ _ _ hne]
      exact hs.out2 k (by omega)
  · intro k hkm
    simp only [powerLawStep]
    rw [hk]
    by_cases hkeq : k = m
    · rw [hkeq, Buf.write_same, Buf.write_same, Buf.write_same]
    · have hne : (k : Int) ≠ (m : Int) := by omega
      rw [Buf.write_other _ _ _ _ hne, Buf.write_other _ _ _ _ hne,
        Buf.write_other _ _ _ _ hne]
      exact hs.out k (by omega)

theorem powerLawLoop_inv (tdres sampFreq : ℚ) (sampIHC : Buf) (n : Nat) :
    PowerLawInv tdres sampFreq sampIHC n (powerLawLoop 1 tdres sampFreq sampIHC n) := by
  induction n with
  | zero =>
    constructor
    · rfl
    · simp [powerLawLoop, forLoop, powerLawInit, codeConv]
    · simp [powerLawLoop, forLoop, powerLawInit, codeConv]
    · intro k hk
      omega
    · intro k hk
      omega
    · intro k hk
      omega
  | succ m ih => exact powerLawStep_inv tdres sampFreq sampIHC m _ ih

/-- C9 (amended). Exact mode (`implnt = 1`): for every resampled input, every number `n` of
iterations and every sample index `k < n`, the power-law loop has computed
`sout1[k] = max(0, sample[k] - alpha1*I1)` and `sout2[k] = max(0, sample[k] - alpha2*I2)`
with `I1` and `I2` the sums over all prior outputs `j = 0 .. k-1` of `sout1[j]` (resp.
`sout2[j]`) weighted by `binwidth/((k-1-j)*binwidth + beta1)` (resp. `beta2`), and
`synSampOut[k] = (sout1[k] + sout2[k])/2`. -/
theorem powerLaw_exact_mode (tdres sampFreq : ℚ) (sampIHC : Buf) (n k : Nat) (hk : k < n) :
    (powerLawLoop 1 tdres sampFreq sampIHC n).sout1 k
      = cmax 0 (sampIHC k - alpha1 tdres *
          ∑ j in Finset.range k, (powerLawLoop 1 tdres sampFreq sampIHC n).sout1 j *
            (binwidth sampFreq / (((k : ℚ) - 1 - (j : ℚ)) * binwidth sampFreq + beta1))) ∧
    (powerLawLoop 1 tdres sampFreq sampIHC n).sout2 k
      = cmax 0 (sampIHC k - alpha2 tdres *
          ∑ j in Finset.range k, (powerLawLoop 1 tdres sampFreq sampIHC n).sout2 j *
            (binwidth sampFreq / (((k : ℚ) - 1 - (j : ℚ)) * binwidth sampFreq + beta2))) ∧
    (powerLawLoop 1 tdres sampFreq sampIHC n).synSampOut k
      = ((powerLawLoop 1 tdres sampFreq sampIHC n).sout1 k
          + (powerLawLoop 1 tdres sampFreq sampIHC n).sout2 k) / 2 := by
  have inv := powerLawLoop_inv tdres sampFreq sampIHC n
  exact ⟨inv.out1 k hk, inv.out2 k hk, inv.out k hk⟩

/-- C9 at the second of two samples. -/
theorem powerLaw_exact_mode_witness :
    (1 : Nat) < 2 ∧
    (powerLawLoop 1 (1 / 100000) 10000 unitInput 2).synSampOut (1 : Nat)
      = ((powerLawLoop 1 (1 / 100000) 10000 unitInput 2).sout1 (1 : Nat)
          + (powerLawLoop 1 (1 / 100000) 10000 unitInput 2).sout2 (1 : Nat)) / 2 :=
  ⟨by decide, (powerLaw_exact_mode (1 / 100000) 10000 unitInput 2 1 (by decide)).2.2⟩

/-- C9 as stated fails: with `tdres = 1e-5`, `sampFreq = 10000` and the constant input 1,
`sout1[1]` is `19/20` (the weight of `sout1[0]` is `binwidth/beta1 = 1/5`), whereas the
weights `binwidth/((k-j)*binwidth + beta1)` of the statement give `23/24`. -/
theorem powerLaw_exact_mode_weights :
    (powerLawLoop 1 (1 / 100000) 10000 unitInput 2).sout1 1 = 19 / 20 ∧
    cmax 0 (unitInput 1 - alpha1 (1 / 100000) *
      specConv (powerLawLoop 1 (1 / 100000) 10000 unitInput 2).sout1 (binwidth 10000) beta1 1)
      = 23 / 24 ∧
    (powerLawLoop 1 (1 / 100000) 10000 unitInput 2).sout1 1
      ≠ cmax 0 (unitInput 1 - alpha1 (1 / 100000) *
          specConv (powerLawLoop 1 (1 / 100000) 10000 unitInput 2).sout1 (binwidth 10000)
            beta1 1) := by
  have h0 : (powerLawLoop 1 (1 / 100000) 10000 unitInput 2).sout1 0 = 1 := by
    norm_num [powerLawLoop, forLoop, powerLawStep, powerLawInit, Buf.write, Buf.calloc, cmax,
      unitInput, alpha1, convLoop, binwidth, beta1]
  have h1 : (powerLawLoop 1 (1 / 100000) 10000 unitInput 2).sout1 1 = 19 / 20 := by
    norm_num [powerLawLoop, forLoop, powerLawStep, powerLawInit, Buf.write, Buf.calloc, cmax,
      unitInput, alpha1, convLoop, binwidth, beta1]
  have h2 : cmax 0 (unitInput 1 - alpha1 (1 / 100000) *
      specConv (powerLawLoop 1 (1 / 100000) 10000 unitInput 2).sout1 (binwidth 10000) beta1 1)
      = 23 / 24 := by
    unfold specConv
    rw [Finset.sum_range_one]
    push_cast
    rw [h0]
    norm_num [cmax, unitInput, alpha1, binwidth, beta1]
  refine ⟨h1, h2, ?_⟩
  rw [h1, h2]
  norm_num

/-! ## mexFunction: the copy of the stimulus -/

/-- The copy loop writes every index `0 ≤ lp < pxbins` of `px`, and no other. -/
theorem copyPx_read (pxtmp : Buf) (pxbins : Int) (px : Buf) (lp : Int) :
    copyPx pxtmp pxbins px lp = if 0 ≤ lp ∧ lp < pxbins then pxtmp lp else px lp := by
  have key : ∀ n : Nat, forLoop (fun lp px => Buf.write px lp (pxtmp lp)) n px lp
      = if 0 ≤ lp ∧ lp < n then pxtmp lp else px lp := by
    intro n
    induction n with
    | zero =>
      rw [if_neg]
      · rfl
      · intro hc
        have := hc.2
        simp at this
        omega
    | succ m ih =>
      rw [forLoop_succ]
      by_cases hm : lp = (m : Int)
      · rw [hm, Buf.write_same, if_pos]
        constructor
        · omega
        · push_cast
          omega
      · rw [Buf.write_other _ _ _ _ hm, ih]
        by_cases hlt : 0 ≤ lp ∧ lp < (m : Int)
        · rw [if_pos hlt, if_pos]
          constructor
          · exact hlt.1
          · push_cast
            omega
        · rw [if_neg hlt, if_neg]
          intro hc
          apply hlt
          constructor
          · exact hc.1
          · have := hc.2
            push_cast at this
            omega
  unfold copyPx
  rw [key]
  by_cases h0 : 0 ≤ lp
  · have e : (lp < ((pxbins.toNat : Nat) : Int)) ↔ lp < pxbins := by omega
    simp only [e]
  · have n1 : ¬ (0 ≤ lp ∧ lp < ((pxbins.toNat : Nat) : Int)) := fun hc => h0 hc.1
    have n2 : ¬ (0 ≤ lp ∧ lp < pxbins) := fun hc => h0 hc.1
    rw [if_neg n1, if_neg n2]

theorem totalstimOf_eq (pxbins nrep : Int) : totalstimOf pxbins nrep = Int.tdiv pxbins nrep := by
  unfold totalstimOf
  rw [Int.floor_intCast, castInt_intCast]

/-- Whenever `pxbins` is not a multiple of `nrep`, the copy loop writes the element
`px[totalstim*nrep]`, one past the end of the `totalstim*nrep` elements allocated. -/
theorem copyPx_overruns (pxtmp : Buf) (pxbins nrep : Int) (px : Buf) (hp : 0 ≤ pxbins)
    (hn : 1 ≤ nrep) (hmul : ¬ nrep ∣ pxbins) :
    totalstimOf pxbins nrep * nrep < pxbins ∧
    copyPx pxtmp pxbins px (totalstimOf pxbins nrep * nrep)
      = pxtmp (totalstimOf pxbins nrep * nrep) := by
  rw [totalstimOf_eq]
  have hdiv : Int.tdiv pxbins nrep = pxbins / nrep :=
    Int.tdiv_eq_ediv hp (by omega)
  have hle : pxbins / nrep * nrep ≤ pxbins := Int.ediv_mul_le pxbins (by omega)
  have hne : pxbins / nrep * nrep ≠ pxbins := by
    intro he
    apply hmul
    exact Dvd.intro_left _ he
  have h0 : 0 ≤ pxbins / nrep * nrep :=
    mul_nonneg (Int.ediv_nonneg hp (by omega)) (by omega)
  rw [hdiv]
  refine ⟨lt_of_le_of_ne hle hne, ?_⟩
  rw [copyPx_read, if_pos ⟨h0, lt_of_le_of_ne hle hne⟩]

/-- C11 fails on the code: for a stimulus of `pxbins = 5` samples and `nrep = 2`,
`totalstim = 2` and `px` is allocated with `totalstim*nrep = 4` elements (indices 0 to
3), and the copy loop stores `pxtmp[4]` at `px[4]`. -/
theorem copyPx_writes_past_end :
    totalstimOf 5 2 = 2 ∧ totalstimOf 5 2 * 2 = 4 ∧ Buf.calloc 4 = 0 ∧
    copyPx unitInput 5 Buf.calloc 4 = 1 := by
  have ht : totalstimOf 5 2 = 2 := by
    rw [totalstimOf_eq]
    decide
  refine ⟨ht, by rw [ht]; decide, rfl, ?_⟩
  rw [copyPx_read, if_pos (by decide)]
  rfl

/-! ## SingleAN: folding the repetitions of the rate trace -/

/-- For a sample index `i ≥ 0` and `totalstim ≥ 1`, `(int) fmod(i, totalstim)` is `i`
modulo `totalstim`. -/
theorem castInt_fmod_nat (i T : Nat) (hT : 1 ≤ T) :
    castInt (fmod (((i : Nat) : Int) : ℚ) (((T : Nat) : Int) : ℚ)) = ((i % T : Nat) : Int) := by
  have hq : (0 : ℚ) ≤ (((i : Nat) : Int) : ℚ) / (((T : Nat) : Int) : ℚ) := by positivity
  have hfl : castInt ((((i : Nat) : Int) : ℚ) / (((T : Nat) : Int) : ℚ)) = ((i / T : Nat) : Int) := by
    unfold castInt
    rw [if_pos hq]
    have := Rat.floor_intCast_div_natCast (i : Int) T
    push_cast at this ⊢
    rw [this]
  have e : fmod (((i : Nat) : Int) : ℚ) (((T : Nat) : Int) : ℚ) = (((i % T : Nat) : Int) : ℚ) := by
    unfold fmod
    rw [hfl]
    have h' : ((((i : Int) % (T : Int) : Int)) : ℚ)
        + (T : ℚ) * ((((i : Int) / (T : Int) : Int)) : ℚ) = (i : ℚ) := by
      exact_mod_cast Int.emod_add_ediv (i : Int) (T : Int)
    push_cast at h' ⊢
    linarith
  rw [e, castInt_intCast]

/-- The folding loop after `n` iterations: every element of `synout` has received the
samples `synouttmp[i]/nrep` of the indices `i < n` that are congruent to it modulo
`totalstim`. -/
theorem foldLoop_read (synouttmp : Buf) (T : Nat) (nrep : Int) (synout : Buf) (hT : 1 ≤ T)
    (n : Nat) (p : Int) :
    forLoop (fun i out =>
        Buf.write out (castInt (fmod (i : ℚ) (((T : Nat) : Int) : ℚ)))
          (out (castInt (fmod (i : ℚ) (((T : Nat) : Int) : ℚ))) + synouttmp i / (nrep : ℚ)))
      n synout p
    = synout p + ∑ i in Finset.range n,
        if ((i % T : Nat) : Int) = p then synouttmp i / (nrep : ℚ) else 0 := by
  induction n with
  | zero => simp [forLoop]
  | succ m ih =>
    rw [forLoop_succ, Finset.sum_range_succ]
    rw [castInt_fmod_nat m T hT]
    by_cases hp : ((m % T : Nat) : Int) = p
    · rw [if_pos hp, ← hp, Buf.write_same, hp, ih]
      ring
    · rw [if_neg hp, Buf.write_other _ _ _ _ (Ne.symm hp), ih]
      ring

/-- The indices below `T*R` that are congruent to `p` modulo `T` are `p + r*T`, `r < R`. -/
theorem sum_mod_eq (f : Nat → ℚ) (T R p : Nat) (hp : p < T) :
    (∑ i in Finset.range (T * R), if i % T = p then f i else 0)
      = ∑ r in Finset.range R, f (p + r * T) := by
  induction R with
  | zero => simp
  | succ m ih =>
    rw [Nat.mul_succ, Finset.sum_range_add, ih, Finset.sum_range_succ]
    congr 1
    have hc : ∀ j ∈ Finset.range T,
        (if (T * m + j) % T = p then f (T * m + j) else 0)
          = if j = p then f (T * m + j) else 0 := by
      intro j hj
      have hjT : j < T := Finset.mem_range.mp hj
      have : (T * m + j) % T = j := by
        rw [Nat.mul_add_mod, Nat.mod_eq_of_lt hjT]
      rw [this]
    rw [Finset.sum_congr rfl hc, Finset.sum_ite_eq' (Finset.range T) p,
      if_pos (Finset.mem_range.mpr hp)]
    congr 1
    ring

theorem Synapse_returns_length (h : Host) (ihcout : Buf) (tdres cf : ℚ) (totalstim nrep : Int)
    (spont implnt sf : ℚ) (synouttmp : Buf) :
    (Synapse h ihcout tdres cf totalstim nrep spont implnt sf synouttmp).1
      = ((totalstim * nrep : Int) : ℚ) := by
  simp only [Synapse]
  rw [Int.ceil_intCast]

/-- The folding loop run over `T*R` samples, read at an index `p < T`. -/
theorem foldSynout_nat (synouttmp : Buf) (T R p : Nat) (synout : Buf) (hT : 1 ≤ T)
    (hp : p < T) :
    foldSynout synouttmp (((((T : Nat) : Int) * ((R : Nat) : Int) : Int)) : ℚ) T R synout p
      = synout p + ∑ r in Finset.range R, synouttmp ((p + r * T : Nat) : Int) / ((R : Int) : ℚ) := by
  unfold foldSynout
  rw [Int.ceil_intCast]
  have hn : (((T : Nat) : Int) * ((R : Nat) : Int)).toNat = T * R := by
    have : ((T : Nat) : Int) * ((R : Nat) : Int) = ((T * R : Nat) : Int) := by push_cast; ring
    rw [this]
    exact Int.toNat_natCast _
  rw [hn, foldLoop_read synouttmp T R synout hT (T * R) p]
  congr 1
  have hc : ∀ i ∈ Finset.range (T * R),
      (if ((i % T : Nat) : Int) = (p : Int) then synouttmp i / ((R : Int) : ℚ) else 0)
        = if i % T = p then synouttmp i / ((R : Int) : ℚ) else 0 := by
    intro i _
    by_cases hi : i % T = p
    · rw [if_pos hi, if_pos (by exact_mod_cast hi)]
    · rw [if_neg hi, if_neg (by exact_mod_cast hi)]
  rw [Finset.sum_congr rfl hc]
  exact sum_mod_eq (fun i => synouttmp i / ((R : Int) : ℚ)) T R p hp

/-- C12. For every `totalstim ≥ 1`, `nrep ≥ 1` and unfolded rate trace `synouttmp`,
starting from a zero-initialised `synout`, after the folding loop of `SingleAN` (whose
bound is the value `totalstim*nrep` that `Synapse` returns) every `0 ≤ p < totalstim`
satisfies `synout[p] = (1/nrep) * Σ_{r < nrep} synouttmp[p + r*totalstim]`. -/
theorem foldSynout_average (h : Host) (ihcout : Buf) (tdres cf spont implnt sf : ℚ)
    (synouttmp buf : Buf) (totalstim nrep p : Int) (hT : 1 ≤ totalstim) (hR : 1 ≤ nrep)
    (hp0 : 0 ≤ p) (hp : p < totalstim) :
    (Synapse h ihcout tdres cf totalstim nrep spont implnt sf buf).1
      = ((totalstim * nrep : Int) : ℚ) ∧
    foldSynout synouttmp ((totalstim * nrep : Int) : ℚ) totalstim nrep Buf.calloc p
      = (1 / (nrep : ℚ)) *
          ∑ r in Finset.range nrep.toNat, synouttmp (p + (r : Int) * totalstim) := by
  refine ⟨Synapse_returns_length h ihcout tdres cf totalstim nrep spont implnt sf buf, ?_⟩
  obtain ⟨T, rfl⟩ := Int.eq_ofNat_of_zero_le (show 0 ≤ totalstim by omega)
  obtain ⟨R, rfl⟩ := Int.eq_ofNat_of_zero_le (show 0 ≤ nrep by omega)
  obtain ⟨q, rfl⟩ := Int.eq_ofNat_of_zero_le hp0
  have hT' : 1 ≤ T := by omega
  have hp' : q < T := by omega
  rw [foldSynout_nat synouttmp T R q Buf.calloc hT' hp', Int.toNat_natCast, Finset.mul_sum]
  have hz : Buf.calloc (q : Int) = 0 := rfl
  rw [hz, zero_add]
  apply Finset.sum_congr rfl
  intro r _
  push_cast
  ring

/-- C12 at two repetitions of three samples. -/
theorem foldSynout_average_witness :
    (1 : Int) ≤ 3 ∧ (1 : Int) ≤ 2 ∧ (0 : Int) ≤ 1 ∧ (1 : Int) < 3 ∧
    foldSynout rate100 (((3 : Int) * 2 : Int) : ℚ) 3 2 Buf.calloc 1
      = (1 / ((2 : Int) : ℚ)) *
          ∑ r in Finset.range (2 : Int).toNat, rate100 (1 + (r : Int) * 3) :=
  ⟨by decide, by decide, by decide, by decide,
    (foldSynout_average flatHost rate100 (1 / 100000) 1000 5 1 10000 rate100 Buf.calloc 3 2 1
      (by decide) (by decide) (by decide) (by decide)).2⟩

/-! ## Synapse: the delay padding -/

/-- A loop that stores `f k` at every index `k` of `a ≤ k < a + n`. -/
theorem fillLoop_read (f : Int → ℚ) (a : Int) (n : Nat) (p : Buf) (idx : Int) :
    forLoopFrom a (fun k p => Buf.write p k (f k)) n p idx
      = if a ≤ idx ∧ idx < a + n then f idx else p idx := by
  unfold forLoopFrom
  induction n with
  | zero =>
    rw [if_neg]
    · rfl
    · intro hc
      have := hc.2
      push_cast at this
      omega
  | succ m ih =>
    rw [forLoop_succ]
    beta_reduce
    by_cases hm : idx = a + (m : Int)
    · rw [hm, Buf.write_same, if_pos]
      constructor
      · omega
      · push_cast
        omega
    · rw [Buf.write_other _ _ _ _ hm, ih]
      by_cases hlt : a ≤ idx ∧ idx < a + (m : Int)
      · rw [if_pos hlt, if_pos]
        constructor
        · exact hlt.1
        · push_cast
          omega
      · rw [if_neg hlt, if_neg]
        intro hc
        apply hlt
        constructor
        · exact hc.1
        · have := hc.2
          push_cast at this
          omega

/-- A loop that copies each element from its left neighbour, over `a ≤ k < a + n`,
replicates the element `p[a-1]`. -/
theorem replicateLoop_read (a : Int) (n : Nat) (p : Buf) (idx : Int) :
    forLoopFrom a (fun k p => Buf.write p k (p (k - 1))) n p idx
      = if a ≤ idx ∧ idx < a + n then p (a - 1) else p idx := by
  unfold forLoopFrom
  induction n generalizing idx with
  | zero =>
    rw [if_neg]
    · rfl
    · intro hc
      have := hc.2
      push_cast at this
      omega
  | succ m ih =>
    rw [forLoop_succ]
    beta_reduce
    by_cases hm : idx = a + (m : Int)
    · have hR : a ≤ a + (m : Int) ∧ a + (m : Int) < a + ((m + 1 : Nat) : Int) := by
        constructor
        · omega
        · push_cast
          omega
      rw [hm, Buf.write_same, ih, if_pos hR]
      by_cases hm0 : m = 0
      · have hL : ¬ (a ≤ a + (m : Int) - 1 ∧ a + (m : Int) - 1 < a + (m : Int)) := by
          intro hc
          have := hc.1
          omega
        rw [if_neg hL, hm0]
        simp
      · have hL : a ≤ a + (m : Int) - 1 ∧ a + (m : Int) - 1 < a + (m : Int) := by
          constructor <;> omega
        rw [if_pos hL]
    · rw [Buf.write_other _ _ _ _ hm, ih]
      by_cases hlt : a ≤ idx ∧ idx < a + (m : Int)
      · rw [if_pos hlt, if_pos]
        constructor
        · exact hlt.1
        · push_cast
          omega
      · rw [if_neg hlt, if_neg]
        intro hc
        apply hlt
        constructor
        · exact hc.1
        · have := hc.2
          push_cast at this
          omega

/-- C14. Edge-replicating padding: for every `N = totalstim*nrep ≥ 1`, every
`delaypoint ≥ 0` and every `k` with `0 ≤ k < N + 3*delaypoint`, after the three padding
loops `powerLawIn[k] = exponOut[min(max(k - delaypoint, 0), N - 1)]`: `delaypoint` copies
of the first sample, then the `N` samples, then `2*delaypoint` copies of the last. -/
theorem padDelay_edge_replicates (exponOut powerLawIn : Buf) (N dp k : Int) (hN : 1 ≤ N)
    (hdp : 0 ≤ dp) (hk0 : 0 ≤ k) (hk : k < N + 3 * dp) :
    padDelay exponOut N dp powerLawIn k = exponOut (min (max (k - dp) 0) (N - 1)) := by
  unfold padDelay
  have e1 : ∀ idx : Int,
      forLoop (fun k p => Buf.write p k (exponOut 0)) dp.toNat powerLawIn idx
        = if 0 ≤ idx ∧ idx < 0 + (dp.toNat : Int) then exponOut 0 else powerLawIn idx := by
    intro idx
    have := fillLoop_read (fun _ => exponOut 0) 0 dp.toNat powerLawIn idx
    unfold forLoopFrom at this
    simpa using this
  have hn1 : ((dp.toNat : Nat) : Int) = dp := Int.toNat_of_nonneg hdp
  have hn2 : (((N + dp - dp).toNat : Nat) : Int) = N := by
    rw [Int.toNat_of_nonneg (by omega)]
    ring
  have hn3 : (((N + 3 * dp - (N + dp)).toNat : Nat) : Int) = 2 * dp := by
    rw [Int.toNat_of_nonneg (by omega)]
    ring
  rw [replicateLoop_read, hn3]
  by_cases h3 : N + dp ≤ k ∧ k < N + dp + 2 * dp
  · rw [if_pos h3, fillLoop_read (fun k => exponOut (k - dp)), hn2, if_pos (by omega)]
    congr 1
    omega
  · rw [if_neg h3, fillLoop_read (fun k => exponOut (k - dp)), hn2]
    by_cases h2 : dp ≤ k ∧ k < dp + N
    · rw [if_pos h2]
      congr 1
      omega
    · rw [if_neg h2, e1, hn1, if_pos (by omega)]
      congr 1
      omega

/-- C14 at three samples and a delay of two. -/
theorem padDelay_edge_replicates_witness :
    (1 : Int) ≤ 3 ∧ (0 : Int) ≤ 2 ∧ (0 : Int) ≤ 8 ∧ (8 : Int) < 3 + 3 * 2 ∧
    padDelay rate100 3 2 Buf.calloc 8 = rate100 (min (max (8 - 2) 0) (3 - 1)) :=
  ⟨by decide, by decide, by decide, by decide,
    padDelay_edge_replicates rate100 Buf.calloc 3 2 8 (by decide) (by decide) (by decide)
      (by decide)⟩

/-! ## Synapse: upsampling and delay stripping -/

/-- The inner upsampling loop stores `g b` at the index `a + b` for every `b < n`. -/
theorem rowLoop_read (a : Int) (g : Int → ℚ) (n : Nat) (T : Buf) (idx : Int) :
    forLoop (fun b T => Buf.write T (a + b) (g b)) n T idx
      = if a ≤ idx ∧ idx < a + n then g (idx - a) else T idx := by
  induction n with
  | zero =>
    rw [if_neg]
    · rfl
    · intro hc
      have := hc.2
      push_cast at this
      omega
  | succ m ih =>
    rw [forLoop_succ]
    by_cases hm : idx = a + (m : Int)
    · rw [hm, Buf.write_same, if_pos]
      · congr 1
        omega
      · constructor
        · omega
        · push_cast
          omega
    · rw [Buf.write_other _ _ _ _ hm, ih]
      by_cases hlt : a ≤ idx ∧ idx < a + (m : Int)
      · rw [if_pos hlt, if_pos]
        constructor
        · exact hlt.1
        · push_cast
          omega
      · rw [if_neg hlt, if_neg]
        intro hc
        apply hlt
        constructor
        · exact hc.1
        · have := hc.2
          push_cast at this
          omega

/-- An index `q*resamp + r` with `0 ≤ r < resamp` lies in the row `z` exactly when
`q = z`. -/
theorem row_iff (resamp q r z : Int) (hr0 : 0 ≤ r) (hr : r < resamp) :
    (z * resamp ≤ q * resamp + r ∧ q * resamp + r < z * resamp + resamp) ↔ q = z := by
  have hpos : 0 < resamp := by omega
  constructor
  · rintro ⟨h1, h2⟩
    by_contra hne
    rcases lt_or_gt_of_ne hne with hlt | hgt
    · have : (q + 1) * resamp ≤ z * resamp :=
        Int.mul_le_mul_of_nonneg_right (by omega) hpos.le
      nlinarith
    · have : (z + 1) * resamp ≤ q * resamp :=
        Int.mul_le_mul_of_nonneg_right (by omega) hpos.le
      nlinarith
  · rintro rfl
    constructor <;> omega

/-- The nested upsampling loops after `Z` iterations of the outer one: the element
`q*resamp + r` holds the interpolated value once the row `q` has been written, and is
unchanged before. -/
theorem upLoop_read (s : Buf) (resamp : Int) (Z : Nat) (T : Buf) (q r : Int) (hr0 : 0 ≤ r)
    (hr : r < resamp) :
    forLoop (fun z T =>
        forLoop (fun b T => Buf.write T (z * resamp + b)
          (s z + (b : ℚ) * ((s (z + 1) - s z) / (resamp : ℚ)))) resamp.toNat T) Z T
        (q * resamp + r)
      = if 0 ≤ q ∧ q < Z then s q + (r : ℚ) * ((s (q + 1) - s q) / (resamp : ℚ))
        else T (q * resamp + r) := by
  have hn : ((resamp.toNat : Nat) : Int) = resamp := Int.toNat_of_nonneg (by omega)
  induction Z with
  | zero =>
    rw [if_neg]
    · rfl
    · intro hc
      have := hc.2
      push_cast at this
      omega
  | succ m ih =>
    rw [forLoop_succ]
    rw [rowLoop_read ((m : Int) * resamp)
      (fun b => s (m : Int) + (b : ℚ) * ((s ((m : Int) + 1) - s (m : Int)) / (resamp : ℚ))),
      hn]
    by_cases hq : q = (m : Int)
    · rw [if_pos ((row_iff resamp q r m hr0 hr).mpr hq), if_pos]
      · rw [hq]
        have : (m : Int) * resamp + r - (m : Int) * resamp = r := by ring
        rw [this]
      · constructor
        · omega
        · push_cast
          omega
    · rw [if_neg (fun hc => hq ((row_iff resamp q r m hr0 hr).mp hc)), ih]
      by_cases hlt : 0 ≤ q ∧ q < (m : Int)
      · rw [if_pos hlt, if_pos]
        constructor
        · exact hlt.1
        · push_cast
          omega
      · rw [if_neg hlt, if_neg]
        intro hc
        apply hlt
        constructor
        · exact hc.1
        · have := hc.2
          push_cast at this
          omega

theorem powerLawLoop_k (implnt tdres sf : ℚ) (sampIHC : Buf) (n : Nat) :
    (powerLawLoop implnt tdres sf sampIHC n).k = n := by
  induction n with
  | zero => rfl
  | succ m ih =>
    have e : powerLawLoop implnt tdres sf sampIHC (m + 1)
        = powerLawStep implnt tdres sf (sampIHC m) (powerLawLoop implnt tdres sf sampIHC m) :=
      rfl
    rw [e]
    simp only [powerLawStep, ih]
    push_cast
    ring

/-- The upsampled buffer `TmpSyn` at an index `q*resamp + r` of a row that is written. -/
theorem upsample_read (s : Buf) (K resamp : Int) (T : Buf) (q r : Int) (hq0 : 0 ≤ q)
    (hq : q < K - 1) (hr0 : 0 ≤ r) (hr : r < resamp) :
    upsample s K resamp T (q * resamp + r)
      = s q + (r : ℚ) * ((s (q + 1) - s q) / (resamp : ℚ)) := by
  unfold upsample
  rw [upLoop_read s resamp (K - 1).toNat T q r hr0 hr, if_pos]
  constructor
  · exact hq0
  · omega

/-- At the receptor potential `Vsatmax + SRTH/exp(spont)` the rectifier gives `PI2`. -/
theorem PPIrect_at_Vsatmax (c : AdaptConsts) (e : ℚ) :
    PPIrect c e (Vsatmax + SRTH / e) = c.PI2 := by
  have hV : (0 : ℚ) < Vsatmax := by norm_num [Vsatmax]
  have hF : FTH = 0 := rfl
  unfold PPIrect
  dsimp only
  rw [if_neg (by rw [hF]; intro hc; linarith), hF]
  field_simp

/-- The saturation formula at `PPI = PI2` gives `CI = Ass/PI2`. -/
theorem satCI_PI2 (cf spont : ℚ) (wd : WellDefined cf spont) :
    satCI (adaptConsts cf spont) (PI2 cf spont) = Ass cf / PI2 cf spont := by
  have hA := wd.dAss
  have h2 := wd.dtheta2
  have hsum := inv_PG_add_inv_PL cf spont
  simp only [satCI, adaptConsts]
  have : 1 / PG cf spont + 1 / PL cf spont + 1 / PI2 cf spont = 1 / Ass cf := by
    rw [hsum]
    ring
  rw [this]
  unfold CG
  field_simp

/-- With `PPI = PI2` the Euler update leaves `CI = Ass/PI2`, `CL = CI*(PI2+PL)/PL` as they
are. -/
theorem adaptEuler_PI2 (cf spont tdres : ℚ) (wd : WellDefined cf spont) (k : Int) (b : Buf) :
    adaptEuler (adaptConsts cf spont) tdres (PI2 cf spont)
        { k := k, CI := Ass cf / PI2 cf spont,
          CL := Ass cf / PI2 cf spont * (PI2 cf spont + PL cf spont) / PL cf spont,
          exponOut := b }
      = { k := k, CI := Ass cf / PI2 cf spont,
          CL := Ass cf / PI2 cf spont * (PI2 cf spont + PL cf spont) / PL cf spont,
          exponOut := b } := by
  have hA := wd.dAss
  have h2 := wd.dtheta2
  have hpl := wd.dPL
  have hd := wd.dPG
  have e1 : -PI2 cf spont * (Ass cf / PI2 cf spont)
      + PL cf spont * (Ass cf / PI2 cf spont * (PI2 cf spont + PL cf spont) / PL cf spont
        - Ass cf / PI2 cf spont) = 0 := by
    field_simp
    ring
  have e3 : CG - Ass cf / PI2 cf spont * (PI2 cf spont + PL cf spont) / PL cf spont
      = Ass cf * (theta3 cf spont - 1 / PL cf spont) := by
    unfold theta3 CG
    field_simp
    ring
  have e2 : -PL cf spont * (Ass cf / PI2 cf spont * (PI2 cf spont + PL cf spont) / PL cf spont
        - Ass cf / PI2 cf spont)
      + PG cf spont * (CG - Ass cf / PI2 cf spont * (PI2 cf spont + PL cf spont) / PL cf spont)
      = 0 := by
    rw [e3]
    unfold PG
    generalize theta3 cf spont - 1 / PL cf spont = d at hd
    field_simp
    ring
  simp only [adaptEuler, adaptConsts]
  rw [e1, e2]
  simp

/-- C16. For every `cf`, `spont` and `tdres` for which the derived constants are well
defined: the receptor potential `Vsatmax + SRTH/exp(spont)` gives the permeability
`PPI = PI2`; with `PPI = PI2` the state `CI = Ass/PI2`, `CL = CI*(PI2+PL)/PL` is a fixed
point of the Euler update; its output `CI*PPI` and the saturation formula
`CG/(1/PG + 1/PL + 1/PI2)` are both `Ass = 150 + cf/100`; and a whole iteration of the
loop after the first one keeps that state and writes the output `Ass`. -/
theorem Synapse_steady_state_at_PI2 (cf spont tdres e : ℚ) (wd : WellDefined cf spont)
    (k : Int) (hk : k ≠ 0) (b : Buf) :
    PPIof (adaptConsts cf spont) e k (Vsatmax + SRTH / e) = PI2 cf spont ∧
    adaptEuler (adaptConsts cf spont) tdres (PI2 cf spont)
        { k := k, CI := Ass cf / PI2 cf spont,
          CL := Ass cf / PI2 cf spont * (PI2 cf spont + PL cf spont) / PL cf spont,
          exponOut := b }
      = { k := k, CI := Ass cf / PI2 cf spont,
          CL := Ass cf / PI2 cf spont * (PI2 cf spont + PL cf spont) / PL cf spont,
          exponOut := b } ∧
    Ass cf / PI2 cf spont * PI2 cf spont = Ass cf ∧
    CG / (1 / PG cf spont + 1 / PL cf spont + 1 / PI2 cf spont) = Ass cf ∧
    Ass cf = 150 + cf / 100 ∧
    adaptStep (adaptConsts cf spont) e tdres (Vsatmax + SRTH / e)
        { k := k, CI := Ass cf / PI2 cf spont,
          CL := Ass cf / PI2 cf spont * (PI2 cf spont + PL cf spont) / PL cf spont,
          exponOut := b }
      = { k := k + 1, CI := Ass cf / PI2 cf spont,
          CL := Ass cf / PI2 cf spont * (PI2 cf spont + PL cf spont) / PL cf spont,
          exponOut := b.write k (Ass cf) } := by
  have hA := wd.dAss
  have h2 := wd.dtheta2
  have hP : PPIof (adaptConsts cf spont) e k (Vsatmax + SRTH / e) = PI2 cf spont := by
    unfold PPIof
    rw [if_neg hk, PPIrect_at_Vsatmax]
    rfl
  have hout : Ass cf / PI2 cf spont * PI2 cf spont = Ass cf := by field_simp
  have hsat : CG / (1 / PG cf spont + 1 / PL cf spont + 1 / PI2 cf spont) = Ass cf := by
    rw [inv_PG_add_inv_PL]
    have : 1 / Ass cf - 1 / PI2 cf spont + 1 / PI2 cf spont = 1 / Ass cf := by ring
    rw [this]
    unfold CG
    field_simp
  refine ⟨hP, adaptEuler_PI2 cf spont tdres wd k b, hout, hsat, rfl, ?_⟩
  unfold adaptStep
  simp only [hP]
  rw [adaptEuler_PI2 cf spont tdres wd k b]
  unfold adaptClamp
  split_ifs with hneg
  · have hs := satCI_PI2 cf spont wd
    have hl : satCL (adaptConsts cf spont) (PI2 cf spont)
        = Ass cf / PI2 cf spont * (PI2 cf spont + PL cf spont) / PL cf spont := by
      unfold satCL
      rw [hs]
      rfl
    simp only [hs, hl, hout]
  · simp only [hout]

/-- C16 at `cf = 1000` and the medium class. -/
theorem Synapse_steady_state_at_PI2_witness :
    WellDefined 1000 5 ∧ (1 : Int) ≠ 0 ∧
    CG / (1 / PG 1000 5 + 1 / PL 1000 5 + 1 / PI2 1000 5) = Ass 1000 :=
  ⟨wellDefined_1000_5, by decide,
    (Synapse_steady_state_at_PI2 1000 5 (1 / 100000) 1 wellDefined_1000_5 1 (by decide)
      Buf.calloc).2.2.2.1⟩

/-! ## Synapse: the peak-to-steady-state ratio -/

theorem PTS_eq (spont : ℚ) (hs : 0 ≤ spont) : PTS spont = 7 - 36 / (6 + spont) := by
  have : 6 + spont ≠ 0 := by linarith
  unfold PTS
  field_simp
  ring

/-- C17. For every `spont ≥ 0`, the peak-to-steady ratio `PTS = 1 + 6*spont/(6+spont)`
that `Synapse` computes satisfies `1 ≤ PTS < 7`, equals 1 exactly at `spont = 0`, and is
strictly increasing in `spont`. -/
theorem PTS_range_and_monotone (spont : ℚ) (hs : 0 ≤ spont) :
    PTS spont = 1 + 6 * spont / (6 + spont) ∧ 1 ≤ PTS spont ∧ PTS spont < 7 ∧
    (PTS spont = 1 ↔ spont = 0) ∧
    (∀ spont' : ℚ, spont < spont' → PTS spont < PTS spont') := by
  have h6 : 0 < 6 + spont := by linarith
  have hfrac : 0 ≤ 6 * spont / (6 + spont) := by positivity
  refine ⟨rfl, ?_, ?_, ?_, ?_⟩
  · unfold PTS
    linarith
  · rw [PTS_eq spont hs]
    have : 0 < 36 / (6 + spont) := by positivity
    linarith
  · constructor
    · intro h1
      unfold PTS at h1
      have h0 : 6 * spont / (6 + spont) = 0 := by linarith
      rw [div_eq_zero_iff] at h0
      rcases h0 with h0 | h0
      · linarith
      · linarith
    · intro h0
      rw [h0]
      norm_num [PTS]
  · intro spont' hlt
    have h6' : 0 < 6 + spont' := by linarith
    rw [PTS_eq spont hs, PTS_eq spont' (by linarith)]
    have : 36 / (6 + spont') < 36 / (6 + spont) := by
      apply div_lt_div_of_pos_left (by norm_num) h6
      linarith
    linarith

/-- C17 at the medium class, `spont = 5`. -/
theorem PTS_range_and_monotone_witness : (0 : ℚ) ≤ 5 ∧ 1 ≤ PTS 5 ∧ PTS 5 < 7 :=
  ⟨by norm_num, (PTS_range_and_monotone 5 (by norm_num)).2.1,
    (PTS_range_and_monotone 5 (by norm_num)).2.2.1⟩

/-! ## SpikeGenerator: no spike without a positive rate -/

/-- An iteration at a sample that is not positive changes nothing but the loop
variables. -/
theorem spikeLoop_silent (h : Host) (synouttmp randNums : Buf) (tdres : ℚ)
    (totalstim nrep : Int)
    (hrate : ∀ k, 0 ≤ k → k < totalstim * nrep → synouttmp k ≤ 0) (fuel : Nat) :
    ∀ s : SpikeState, 0 ≤ s.k →
      (spikeLoop h synouttmp randNums tdres totalstim nrep fuel s).Nout = s.Nout ∧
      (spikeLoop h synouttmp randNums tdres totalstim nrep fuel s).sptime = s.sptime ∧
      (spikeLoop h synouttmp randNums tdres totalstim nrep fuel s).randBufIndex
        = s.randBufIndex := by
  induction fuel with
  | zero =>
    intro s _
    exact ⟨rfl, rfl, rfl⟩
  | succ m ih =>
    intro s hk
    unfold spikeLoop
    split_ifs with hc
    · have hb : spikeBody h synouttmp randNums tdres s = s := by
        unfold spikeBody
        rw [if_neg (not_lt.mpr (hrate s.k hk hc.1))]
      rw [hb]
      obtain ⟨ik, -, iN, ir, ib⟩ := spikeIncr_fields tdres s
      obtain ⟨r1, r2, r3⟩ := ih (spikeIncr tdres s) (by rw [ik]; omega)
      rw [r1, r2, r3, iN, ir, ib]
      exact ⟨rfl, rfl, rfl⟩
    · exact ⟨rfl, rfl, rfl⟩

/-- C18. For every rate trace whose samples `synouttmp[0 .. totalstim*nrep-1]` are all
`≤ 0`, every host (so every sequence of uniform draws) and every `tdres` (in particular
every `tdres > 0`), `SpikeGenerator` returns 0 and leaves `sptime` as it was. -/
theorem SpikeGenerator_silent (h : Host) (synouttmp : Buf) (tdres : ℚ) (totalstim nrep : Int)
    (sptime : Buf) (hrate : ∀ k, 0 ≤ k → k < totalstim * nrep → synouttmp k ≤ 0) :
    SpikeGenerator h synouttmp tdres totalstim nrep sptime = (0, sptime) := by
  unfold SpikeGenerator spikeFinal
  obtain ⟨r1, r2, -⟩ := spikeLoop_silent h synouttmp
    (h.rand 1 ((NoutMax totalstim nrep tdres + 1 : Int) : ℚ)) tdres totalstim nrep hrate
    (totalstim * nrep).toNat
    (spikeInit h synouttmp (h.rand 1 ((NoutMax totalstim nrep tdres + 1 : Int) : ℚ)) tdres
      sptime) (le_refl 0)
  simp only [r1, r2]
  rfl

/-- C18 at the all-zero rate trace. -/
theorem SpikeGenerator_silent_witness :
    (∀ k : Int, 0 ≤ k → k < 4 * 1 → Buf.calloc k ≤ 0) ∧
    SpikeGenerator flatHost Buf.calloc (1 / 1000) 4 1 Buf.calloc = (0, Buf.calloc) := by
  have hrate : ∀ k : Int, 0 ≤ k → k < 4 * 1 → Buf.calloc k ≤ 0 := by
    intro k _ _
    exact le_refl 0
  exact ⟨hrate, SpikeGenerator_silent flatHost Buf.calloc (1 / 1000) 4 1 Buf.calloc hrate⟩

/-! ## Synapse: the power-law loop outside exact mode -/

/-- C19. Non-exact mode: for every `implnt` other than 1 and every resampled input, after
any number `n` of iterations of the power-law loop the accumulators `I1` and `I2` are
still 0, and `sout1[k] = sout2[k] = synSampOut[k] = max(0, sample[k])` for every
`k < n`: the stage applies no adaptation. -/
theorem powerLaw_non_exact_mode (implnt tdres sf : ℚ) (sampIHC : Buf) (n : Nat)
    (himp : implnt ≠ 1) :
    (powerLawLoop implnt tdres sf sampIHC n).I1 = 0 ∧
    (powerLawLoop implnt tdres sf sampIHC n).I2 = 0 ∧
    ∀ k : Nat, k < n →
      (powerLawLoop implnt tdres sf sampIHC n).sout1 k = cmax 0 (sampIHC k) ∧
      (powerLawLoop implnt tdres sf sampIHC n).sout2 k = cmax 0 (sampIHC k) ∧
      (powerLawLoop implnt tdres sf sampIHC n).synSampOut k = cmax 0 (sampIHC k) := by
  induction n with
  | zero =>
    refine ⟨rfl, rfl, ?_⟩
    intro k hk
    omega
  | succ m ih =>
    obtain ⟨h1, h2, hout⟩ := ih
    have hk := powerLawLoop_k implnt tdres sf sampIHC m
    have e : powerLawLoop implnt tdres sf sampIHC (m + 1)
        = powerLawStep implnt tdres sf (sampIHC m) (powerLawLoop implnt tdres sf sampIHC m) :=
      rfl
    rw [e]
    simp only [powerLawStep, if_neg himp, h1, h2, hk, mul_zero, sub_zero]
    refine ⟨trivial, trivial, ?_⟩
    intro k hkm
    by_cases hkeq : k = m
    · rw [hkeq]
      simp only [Buf.write_same]
      refine ⟨trivial, trivial, ?_⟩
      ring
    · have hne : (k : Int) ≠ (m : Int) := by omega
      simp only [Buf.write_other _ _ _ _ hne]
      exact hout k (by omega)

/-- C19 at `implnt = 0`. -/
theorem powerLaw_non_exact_mode_witness :
    (0 : ℚ) ≠ 1 ∧ (powerLawLoop 0 (1 / 100000) 10000 rate100 3).I1 = 0 :=
  ⟨by norm_num, (powerLaw_non_exact_mode 0 (1 / 100000) 10000 rate100 3 (by norm_num)).1⟩

/-! ## SpikeGenerator: the reads of the buffer of uniform draws -/

/-- C20 fails on the code. With `totalstim*nrep = 79`, `tdres = 1e-5`, a constant rate of
400 spikes/s and the draws 0.5, 0.99999, 0.99999, ...: `NoutMax = 2`, so `rand` is asked
for `NoutMax + 1 = 3` numbers (indices 0 to 2); the two initial draws read the indices 0
and 1, spikes occur at the samples 1 and 77, and the draw after the second spike reads
`randNums[3]`: `randBufIndex` ends at 4. With a constant rate of 1000 spikes/s and
`totalstim*nrep = 2` the macro `__max` reads a second number for `endOfLastDeadtime`, so
three numbers (indices 0 to 2) are read before the loop while `NoutMax + 1 = 2`. -/
theorem SpikeGenerator_reads_past_draws :
    NoutMax 79 1 (1 / 100000) + 1 = 3 ∧
    (SpikeGenerator drawHost rate400 (1 / 100000) 79 1 Buf.calloc).1 = 2 ∧
    (spikeFinal drawHost rate400 (1 / 100000) 79 1 Buf.calloc).randBufIndex = 4 ∧
    NoutMax 2 1 (1 / 100000) + 1 = 2 ∧
    (spikeInit drawHost rate1000 (drawHost.rand 1 ((NoutMax 2 1 (1 / 100000) + 1 : Int) : ℚ))
      (1 / 100000) Buf.calloc).randBufIndex = 3 := by
  refine ⟨by decide!, by decide!, by decide!, by decide!, by decide!⟩

/-! ## Synapse: the indices the upsampling loops write -/

theorem synapseTail_eq_strip (sampIHC : Buf) (tdres : ℚ) (N dp : Int) (implnt sf : ℚ)
    (synouttmp : Buf) :
    synapseTail sampIHC tdres N dp implnt sf synouttmp
      = stripDelay (synapseTmpSyn sampIHC tdres N dp implnt sf) N dp synouttmp := rfl

theorem TmpSynLen_eq (N dp : Int) : TmpSynLen N dp = N + 2 * dp := by
  unfold TmpSynLen
  rw [Int.ceil_intCast, castInt_intCast]

/-- When `1/(tdres*sampFreq)` is an integer, so that `resamp*tdres*sampFreq = 1` (as for
`tdres = 1e-5` and `sampFreq = 10000`), every index `z*resamp + b` with `z < K-1` and
`b < resamp` is below the length `N + 2*delaypoint` of `TmpSyn`. -/
theorem upsample_in_bounds (tdres sf : ℚ) (N dp z b : Int) (hx : 0 < tdres * sf)
    (hint : (resampOf tdres sf : ℚ) * (tdres * sf) ≤ 1) (hM : 0 ≤ N + 2 * dp)
    (hz : z < (powerLawCount N dp tdres sf : Int) - 1) (hb : b < resampOf tdres sf) :
    z * resampOf tdres sf + b < TmpSynLen N dp := by
  rw [TmpSynLen_eq]
  have hMq : (0 : ℚ) ≤ ((N + 2 * dp : Int) : ℚ) := by exact_mod_cast hM
  have hfl : 0 ≤ ⌊((N + 2 * dp : Int) : ℚ) * tdres * sf⌋ := by
    apply Int.floor_nonneg.mpr
    have : ((N + 2 * dp : Int) : ℚ) * tdres * sf = ((N + 2 * dp : Int) : ℚ) * (tdres * sf) := by
      ring
    rw [this]
    exact mul_nonneg hMq hx.le
  have hK : ((powerLawCount N dp tdres sf : Nat) : Int)
      = ⌊((N + 2 * dp : Int) : ℚ) * tdres * sf⌋ := by
    unfold powerLawCount
    exact Int.toNat_of_nonneg hfl
  have hKle : (((powerLawCount N dp tdres sf : Nat) : Int) : ℚ)
      ≤ ((N + 2 * dp : Int) : ℚ) * (tdres * sf) := by
    rw [hK]
    have := Int.floor_le (((N + 2 * dp : Int) : ℚ) * tdres * sf)
    linarith
  have hr0 : (0 : ℚ) ≤ (resampOf tdres sf : ℚ) := by
    by_contra hneg
    have hlt : (resampOf tdres sf : ℚ) < 0 := not_le.mp hneg
    have hres : resampOf tdres sf < 0 := by exact_mod_cast hlt
    have hceil : resampOf tdres sf = ⌈1 / (tdres * sf)⌉ := by
      unfold resampOf
      rw [castInt_intCast]
    have : 0 ≤ ⌈1 / (tdres * sf)⌉ := Int.ceil_nonneg (by positivity)
    omega
  -- (z + 1) * resamp ≤ (K - 1) * resamp ≤ K * resamp ≤ M * x * resamp ≤ M
  have h1 : ((z + 1 : Int) : ℚ) ≤ (((powerLawCount N dp tdres sf : Nat) : Int) : ℚ) - 1 := by
    have : z + 1 ≤ ((powerLawCount N dp tdres sf : Nat) : Int) - 1 := by omega
    exact_mod_cast this
  have h2 : ((z + 1 : Int) : ℚ) * (resampOf tdres sf : ℚ)
      ≤ ((N + 2 * dp : Int) : ℚ) * (tdres * sf) * (resampOf tdres sf : ℚ) := by
    apply mul_le_mul_of_nonneg_right _ hr0
    linarith
  have h3 : ((N + 2 * dp : Int) : ℚ) * (tdres * sf) * (resampOf tdres sf : ℚ)
      ≤ ((N + 2 * dp : Int) : ℚ) := by
    have := mul_le_mul_of_nonneg_left hint hMq
    linarith
  have h4 : ((z * resampOf tdres sf + b : Int) : ℚ) < ((N + 2 * dp : Int) : ℚ) := by
    have hbq : (b : ℚ) < (resampOf tdres sf : ℚ) := by exact_mod_cast hb
    push_cast at h2 h3 ⊢
    linarith
  exact_mod_cast h4

/-- C21 fails on the code. With `tdres = 1/15000` and `sampFreq = 10000` the ratio
`1/(tdres*sampFreq) = 1.5` is not an integer and `resamp = 2`. For `cf = 40000`
(`delaypoint = 187`) and `totalstim*nrep = 1`, `TmpSyn` has `1 + 2*187 = 375` elements
(indices 0 to 374) and the power-law loop runs `K = 250` times, so the upsampling loops
write the indices `z*2 + b` up to `248*2 + 1 = 497`. With a constant input 1 outside exact
mode the element `TmpSyn[375]`, written for `z = 187`, `b = 1`, holds 1 afterwards. -/
theorem upsample_writes_past_TmpSyn :
    delaypoint 40000 = 187 ∧ resampOf (1 / 15000) sampFreq = 2 ∧
    powerLawCount 1 187 (1 / 15000) sampFreq = 250 ∧ TmpSynLen 1 187 = 375 ∧
    (187 : Int) < 250 - 1 ∧ (1 : Int) < 2 ∧ (187 : Int) * 2 + 1 = 375 ∧
    Buf.calloc 375 = 0 ∧
    synapseTmpSyn unitInput (1 / 15000) 1 187 0 sampFreq 375 = 1 := by
  have hres : resampOf (1 / 15000) sampFreq = 2 := by decide!
  have hcnt : powerLawCount 1 187 (1 / 15000) sampFreq = 250 := by decide!
  have hs1 : (powerLawLoop 0 (1 / 15000) sampFreq unitInput 250).synSampOut 187 = 1 := by
    decide!
  have hs2 : (powerLawLoop 0 (1 / 15000) sampFreq unitInput 250).synSampOut (187 + 1) = 1 := by
    decide!
  refine ⟨by decide!, hres, hcnt, by decide!, by decide, by decide, by decide, rfl, ?_⟩
  unfold synapseTmpSyn
  rw [hcnt, hres, powerLawLoop_k]
  have hidx : (375 : Int) = 187 * 2 + 1 := by decide
  rw [hidx, upsample_read _ _ _ _ 187 1 (by decide) (by decide) (by decide) (by decide),
    hs1, hs2]
  norm_num

/-! ## Double arithmetic: the rounding function and the exact instance -/

/-- The rounding `binary64` at the decimal constants of the source: `0.1` is
`0x1.999999999999ap-4`, and `1e-5`, `0.00075` are not representable. -/
theorem binary64_values :
    binary64 (1 / 10) = 3602879701896397 / 36028797018963968 ∧
    binary64 (1 / 100000) = 5902958103587057 / 590295810358705651712 ∧
    binary64 (75 / 100000) = 3458764513820541 / 4611686018427387904 ∧
    binary64 (1 / 2) = 1 / 2 ∧ binary64 6 = 6 := by
  refine ⟨?_, ?_, ?_, ?_, ?_⟩ <;> decide!

theorem roundHalfEven_error (q : ℚ) : |(roundHalfEven q : ℚ) - q| ≤ 1 / 2 := by
  have h1 := Int.floor_le q
  have h2 := Int.lt_floor_add_one q
  unfold roundHalfEven
  split_ifs with ha hb hc
  · rw [abs_le]
    constructor <;> linarith
  · rw [abs_le]
    push_cast
    constructor <;> linarith
  · rw [abs_le]
    constructor <;> linarith
  · rw [abs_le]
    push_cast
    constructor <;> linarith

theorem pow2_pos (e : Int) : 0 < pow2 e := by
  unfold pow2
  split_ifs <;> positivity

/-- The rounding `binary64` moves a number by at most half a unit in its last place. -/
theorem binary64_error (x : ℚ) : |binary64 x - x| ≤ pow2 (binExp |x| - 52) / 2 := by
  unfold binary64
  split_ifs with h0
  · rw [h0]
    simp only [sub_self, abs_zero]
    exact (div_pos (pow2_pos _) (by norm_num)).le
  · have hp := pow2_pos (binExp |x| - 52)
    have he := roundHalfEven_error (x / pow2 (binExp |x| - 52))
    have e : (roundHalfEven (x / pow2 (binExp |x| - 52)) : ℚ) * pow2 (binExp |x| - 52) - x
        = ((roundHalfEven (x / pow2 (binExp |x| - 52)) : ℚ) - x / pow2 (binExp |x| - 52))
          * pow2 (binExp |x| - 52) := by
      field_simp
    rw [e, abs_mul, abs_of_pos hp]
    calc |(roundHalfEven (x / pow2 (binExp |x| - 52)) : ℚ) - x / pow2 (binExp |x| - 52)|
          * pow2 (binExp |x| - 52)
        ≤ 1 / 2 * pow2 (binExp |x| - 52) := mul_le_mul_of_nonneg_right he hp.le
      _ = pow2 (binExp |x| - 52) / 2 := by ring

/-- With exact arithmetic the loop of this section is the loop `spikeLoop`. -/
theorem spikeLoopR_id (h : Host) (synouttmp randNums : Buf) (tdres : ℚ) (totalstim nrep : Int)
    (fuel : Nat) :
    ∀ s, spikeLoopR id h synouttmp randNums tdres totalstim nrep fuel s
      = spikeLoop h synouttmp randNums tdres totalstim nrep fuel s := by
  induction fuel with
  | zero => intro s; rfl
  | succ m ih =>
    intro s
    show (if _ then spikeLoopR id h synouttmp randNums tdres totalstim nrep m _ else _)
      = (if _ then spikeLoop h synouttmp randNums tdres totalstim nrep m _ else _)
    rw [ih]
    rfl

theorem NoutMaxR_id (totalstim nrep : Int) (tdres : ℚ) :
    NoutMaxR id totalstim nrep tdres = NoutMax totalstim nrep tdres := rfl

theorem spikeHeadR_id (h : Host) (synouttmp : Buf) (tdres : ℚ) (totalstim nrep : Int)
    (sptime : Buf) (n : Nat) :
    spikeHeadR id h synouttmp tdres totalstim nrep sptime n
      = spikeLoop h synouttmp (h.rand 1 ((NoutMax totalstim nrep tdres + 1 : Int) : ℚ)) tdres
          totalstim nrep n
          (spikeInit h synouttmp (h.rand 1 ((NoutMax totalstim nrep tdres + 1 : Int) : ℚ))
            tdres sptime) := by
  unfold spikeHeadR
  rw [spikeLoopR_id]
  rfl

/-- With exact arithmetic the function of this section is `SpikeGenerator`. -/
theorem SpikeGeneratorR_id (h : Host) (synouttmp : Buf) (tdres : ℚ) (totalstim nrep : Int)
    (sptime : Buf) :
    SpikeGeneratorR id h synouttmp tdres totalstim nrep sptime
      = SpikeGenerator h synouttmp tdres totalstim nrep sptime := by
  unfold SpikeGeneratorR SpikeGenerator spikeFinal
  rw [spikeHeadR_id]

/-- One more unit of fuel runs one more iteration at the end, if the loop goes on. -/
theorem spikeLoopR_succ (fl : ℚ → ℚ) (h : Host) (synouttmp randNums : Buf) (tdres : ℚ)
    (totalstim nrep : Int) (m : Nat) :
    ∀ s, spikeLoopR fl h synouttmp randNums tdres totalstim nrep (m + 1) s
      = if (spikeLoopR fl h synouttmp randNums tdres totalstim nrep m s).k < totalstim * nrep ∧
          (spikeLoopR fl h synouttmp randNums tdres totalstim nrep m s).countTime
            < DTR fl totalstim tdres nrep then
          spikeIncrR fl tdres (spikeBodyR fl h synouttmp randNums tdres
            (spikeLoopR fl h synouttmp randNums tdres totalstim nrep m s))
        else spikeLoopR fl h synouttmp randNums tdres totalstim nrep m s := by
  induction m with
  | zero =>
    intro s
    rfl
  | succ m ih =>
    intro s
    by_cases hc : s.k < totalstim * nrep ∧ s.countTime < DTR fl totalstim tdres nrep
    · have e1 : ∀ f, spikeLoopR fl h synouttmp randNums tdres totalstim nrep (f + 1) s
          = spikeLoopR fl h synouttmp randNums tdres totalstim nrep f
              (spikeIncrR fl tdres (spikeBodyR fl h synouttmp randNums tdres s)) := by
        intro f
        show (if _ then _ else _) = _
        rw [if_pos hc]
      rw [e1 (m + 1), e1 m, ih]
    · have e1 : ∀ f, spikeLoopR fl h synouttmp randNums tdres totalstim nrep (f + 1) s = s := by
        intro f
        show (if _ then _ else _) = _
        rw [if_neg hc]
      rw [e1 (m + 1), e1 m, if_neg hc]

/-- The two cases of the loop body: no spike, or a spike stamped with `countTime`. -/
theorem spikeBodyR_cases (fl : ℚ → ℚ) (h : Host) (synouttmp randNums : Buf) (tdres : ℚ)
    (s : SpikeState) :
    ((spikeBodyR fl h synouttmp randNums tdres s).k = s.k ∧
      (spikeBodyR fl h synouttmp randNums tdres s).countTime = s.countTime ∧
      (spikeBodyR fl h synouttmp randNums tdres s).Nout = s.Nout ∧
      (spikeBodyR fl h synouttmp randNums tdres s).sptime = s.sptime) ∨
    (0 < synouttmp s.k ∧
      (spikeBodyR fl h synouttmp randNums tdres s).k = s.k + deadtimeIndexR fl tdres ∧
      (spikeBodyR fl h synouttmp randNums tdres s).countTime
        = fl (s.countTime + deadtimeRndR fl tdres) ∧
      (spikeBodyR fl h synouttmp randNums tdres s).Nout = s.Nout + 1 ∧
      (spikeBodyR fl h synouttmp randNums tdres s).sptime
        = s.sptime.write s.Nout s.countTime) := by
  unfold spikeBodyR
  by_cases h1 : synouttmp s.k > 0
  · rw [if_pos h1]
    dsimp only
    by_cases h2 : fl (s.Xsum + fl (synouttmp s.k * fl (fl (1 - s.refracValue0)
        - s.refracValue1))) ≥ s.unitRateIntrvl
    · rw [if_pos h2]
      right
      exact ⟨h1, rfl, rfl, rfl, rfl⟩
    · rw [if_neg h2]
      left
      exact ⟨rfl, rfl, rfl, rfl⟩
  · rw [if_neg h1]
    left
    exact ⟨rfl, rfl, rfl, rfl⟩

/-! ## Steady-state rate: the order of the fiber classes -/

/-- The steady-state rate as the reciprocal of `1/Ass - 1/PI2 + 1/PPI`. -/
theorem steadyRate_inv (h : Host) (cf spont v : ℚ) (hs : 0 < spont) (hA : spont < Ass cf) :
    steadyRate h cf spont v
      = 1 / (1 / Ass cf - 1 / PI2 cf spont
          + 1 / PPIrect (adaptConsts cf spont) (h.exp spont) v) := by
  rw [steadyRate_eq h cf spont v hs hA, inv_PG_add_inv_PL]
  rfl

/-- Above its threshold the rectifier is the line from `PI1` to `PI2`. -/
theorem PPIrect_above (c : AdaptConsts) (e x : ℚ) (hx : ¬ x ≤ FTH + SRTH / e) :
    PPIrect c e x = c.PI1 + (c.PI2 - c.PI1) * ((x - SRTH / e) / Vsatmax) := by
  unfold PPIrect
  rw [if_neg hx]
  simp only [FTH, sub_zero]
  ring

theorem PPIrect_below (c : AdaptConsts) (e x : ℚ) (hx : x ≤ FTH + SRTH / e) :
    PPIrect c e x = c.PI1 + (c.PI2 - c.PI1) * 0 := by
  unfold PPIrect
  rw [if_pos hx]
  ring

theorem PI1_pos (cf spont : ℚ) (hs : 0 < spont) (hA : spont < Ass cf) : 0 < PI1 cf spont := by
  rw [PI1_eq cf spont hs hA]
  have := PI2_pos cf spont hs hA
  have := PTS_gt_one spont hs
  have : 0 < Ass cf := lt_trans hs hA
  positivity

theorem PI1_lt_PI2 (cf spont : ℚ) (hs : 0 < spont) (hA : spont < Ass cf) :
    PI1 cf spont < PI2 cf spont := by
  rw [PI1_eq cf spont hs hA]
  have h2 := PI2_pos cf spont hs hA
  have hP := PTS_gt_one spont hs
  have hA0 : 0 < Ass cf := lt_trans hs hA
  have hsA : spont < PTS spont * Ass cf := by nlinarith
  rw [div_lt_iff₀ (by positivity)]
  nlinarith [mul_lt_mul_of_pos_left hsA h2]

/-- The difference `PI2 - PI1` is `(1/spont - 1/Ass) * PI1 * PI2`. -/
theorem PI_gap (cf spont : ℚ) (hs : 0 < spont) (hA : spont < Ass cf) :
    PI2 cf spont - PI1 cf spont = (1 / spont - 1 / Ass cf) * (PI1 cf spont * PI2 cf spont) := by
  have wd := wellDefined_of_lt cf spont hs hA
  have hid := PI_identity cf spont wd.dAss wd.dSpont wd.dPI1 wd.dCI
  have h1 := (PI1_pos cf spont hs hA).ne'
  have h2 := (PI2_pos cf spont hs hA).ne'
  have e : 1 / spont - 1 / Ass cf = 1 / PI1 cf spont - 1 / PI2 cf spont := by linarith
  rw [e]
  field_simp

theorem theta3_pos (cf spont : ℚ) (hs : 0 < spont) (hA : spont < Ass cf) :
    0 < 1 / Ass cf - 1 / PI2 cf spont := by
  have e : 1 / Ass cf - 1 / PI2 cf spont = theta3 cf spont := rfl
  rw [e, theta3_eq cf spont hs hA]
  have hP := PTS_gt_one spont hs
  have hA0 : 0 < Ass cf := lt_trans hs hA
  have : 0 < PTS spont * Ass cf - spont := by nlinarith
  have : 0 < PTS spont - 1 := by linarith
  positivity

/-- The saturation permeability of the medium class is at most that of the high class. -/
theorem PI2_medium_le_high (cf : ℚ) (hlo : 80 ≤ cf) : PI2 cf 5 ≤ PI2 cf 60 := by
  have hA := Ass_gt_60 cf hlo
  have hA0 : 0 < Ass cf := by linarith
  have h5 : (0 : ℚ) < 1 - 5 / Ass cf := by
    rw [sub_pos, div_lt_one hA0]
    linarith
  have h60 : (0 : ℚ) < 1 - 60 / Ass cf := by
    rw [sub_pos, div_lt_one hA0]
    exact hA
  unfold PI2
  rw [div_le_div_iff₀ h5 h60]
  have e5 : PTS 5 = 41 / 11 := by norm_num [PTS]
  have e60 : PTS 60 = 71 / 11 := by norm_num [PTS]
  rw [e5, e60]
  have hinv : Ass cf * (1 / Ass cf) = 1 := by field_simp
  have e1 : (5 : ℚ) / Ass cf = 5 * (1 / Ass cf) := by ring
  have e2 : (60 : ℚ) / Ass cf = 60 * (1 / Ass cf) := by ring
  rw [e1, e2]
  have hpos : 0 < 1 / Ass cf := by positivity
  nlinarith [hinv, hpos]

/-- The comparison of two rectified permeabilities behind the order of the classes. -/
theorem rate_gap (a b a' b' w w' : ℚ) (ha : 0 < a) (hab : a < b) (ha' : 0 < a')
    (hab' : a' < b') (hb : b ≤ b') (hu : (b' - a') * (a * b) ≤ (b - a) * (a' * b'))
    (hw0 : 0 ≤ w) (hw : w < w') (hw1 : w ≤ 1) :
    1 / (a' + (b' - a') * w') - 1 / b' < 1 / (a + (b - a) * w) - 1 / b := by
  have hb0 : 0 < b := lt_trans ha hab
  have hb0' : 0 < b' := lt_trans ha' hab'
  have hd : 0 < b - a := sub_pos.mpr hab
  have hd' : 0 < b' - a' := sub_pos.mpr hab'
  have hw0' : 0 < w' := lt_of_le_of_lt hw0 hw
  have hp : 0 < a + (b - a) * w := by positivity
  have hp' : 0 < a' + (b' - a') * w' := by positivity
  rw [div_sub_div _ _ hp'.ne' hb0'.ne', div_sub_div _ _ hp.ne' hb0.ne',
    div_lt_div_iff₀ (by positivity) (by positivity)]
  have hX : 0 < (b' - a') * ((a + (b - a) * w) * b) := by positivity
  have hwb : w * b ≤ w' * b' := mul_le_mul hw.le hb hb0.le hw0'.le
  have hXY : (b' - a') * ((a + (b - a) * w) * b) ≤ (b - a) * ((a' + (b' - a') * w') * b') := by
    have := mul_le_mul_of_nonneg_left hwb (mul_pos hd hd').le
    nlinarith
  have h1 : (1 - w') * ((b' - a') * ((a + (b - a) * w) * b))
      < (1 - w) * ((b' - a') * ((a + (b - a) * w) * b)) :=
    mul_lt_mul_of_pos_right (by linarith) hX
  have h2 : (1 - w) * ((b' - a') * ((a + (b - a) * w) * b))
      ≤ (1 - w) * ((b - a) * ((a' + (b' - a') * w') * b')) :=
    mul_le_mul_of_nonneg_left hXY (by linarith)
  nlinarith

/-- C7 (amended). For every `cf ≥ 80` (in particular every `cf` in `[80, 40000]`), every
host whose `exp` satisfies `0 < exp(1) ≤ 7`, `100 ≤ exp(5)` and `exp(5) < exp(60)` (as the
exponential function does), and every constant receptor potential
`v ≤ Vsatmax + SRTH/exp(5)`, the potential at which the medium class reaches `PPI = PI2`
(in particular every `v ≤ Vsatmax = 64 µV`): the steady-state rate
`CG/(1/PG + 1/PL + 1/PPI)` of the adaptation stage is strictly larger for the medium
class than for the low class, and strictly larger for the high class than for the medium
class; the low class is at rest there, with the rate 1. -/
theorem steadyRate_increasing_to_saturation (h : Host) (cf v : ℚ) (hlo : 80 ≤ cf)
    (he1 : 0 < h.exp (spontOf 1) ∧ h.exp (spontOf 1) ≤ 7)
    (he2 : 100 ≤ h.exp (spontOf 2)) (he3 : h.exp (spontOf 2) < h.exp (spontOf 3))
    (hv : v ≤ Vsatmax + SRTH / h.exp (spontOf 2)) :
    steadyRate h cf (spontOf 1) v < steadyRate h cf (spontOf 2) v ∧
    steadyRate h cf (spontOf 2) v < steadyRate h cf (spontOf 3) v ∧
    steadyRate h cf (spontOf 1) v = 1 ∧
    (∀ f : ℚ, f = 1 ∨ f = 2 ∨ f = 3 →
      steadyRate h cf (spontOf f) v
        = CG / (1 / PG cf (spontOf f) + 1 / PL cf (spontOf f)
            + 1 / PPIrect (adaptConsts cf (spontOf f)) (h.exp (spontOf f)) v)) := by
  obtain ⟨e1, e2, e3⟩ := spontOf_classes
  rw [e1] at he1
  rw [e2] at he2 hv
  rw [e2, e3] at he3
  rw [e1, e2, e3]
  have hA := Ass_gt_60 cf hlo
  have hA0 : 0 < Ass cf := by linarith
  have hE5 : 0 < h.exp 5 := by linarith
  have hE60 : 0 < h.exp 60 := lt_trans hE5 he3
  have hS : (0 : ℚ) < SRTH := by norm_num [SRTH]
  have hVs : (0 : ℚ) < Vsatmax := by norm_num [Vsatmax]
  have ht5 : SRTH / h.exp 5 ≤ SRTH / 100 :=
    div_le_div_of_nonneg_left hS.le (by norm_num) he2
  have ht1 : SRTH / 7 ≤ SRTH / h.exp 1 :=
    div_le_div_of_nonneg_left hS.le he1.1 he1.2
  have ht60 : SRTH / h.exp 60 < SRTH / h.exp 5 :=
    div_lt_div_of_pos_left hS hE5 he3
  have hv1 : v ≤ FTH + SRTH / h.exp 1 := by
    have : Vsatmax + SRTH / 100 ≤ SRTH / 7 := by norm_num [Vsatmax, SRTH]
    have hF : FTH = 0 := rfl
    rw [hF, zero_add]
    linarith
  -- the low class is at rest
  have r1 : steadyRate h cf 1 v = 1 :=
    steadyRate_rest h cf 1 v (by norm_num) (by linarith) hv1
  -- the positive constants of the medium and the high class
  have a5 := PI1_pos cf 5 (by norm_num) (by linarith)
  have ab5 := PI1_lt_PI2 cf 5 (by norm_num) (by linarith)
  have a60 := PI1_pos cf 60 (by norm_num) hA
  have ab60 := PI1_lt_PI2 cf 60 (by norm_num) hA
  have th5 := theta3_pos cf 5 (by norm_num) (by linarith)
  have th60 := theta3_pos cf 60 (by norm_num) hA
  have g5 := PI_gap cf 5 (by norm_num) (by linarith)
  have g60 := PI_gap cf 60 (by norm_num) hA
  have hbb := PI2_medium_le_high cf hlo
  have hu : (PI2 cf 60 - PI1 cf 60) * (PI1 cf 5 * PI2 cf 5)
      ≤ (PI2 cf 5 - PI1 cf 5) * (PI1 cf 60 * PI2 cf 60) := by
    rw [g5, g60]
    have hpos : 0 < PI1 cf 60 * PI2 cf 60 * (PI1 cf 5 * PI2 cf 5) :=
      mul_pos (mul_pos a60 (lt_trans a60 ab60)) (mul_pos a5 (lt_trans a5 ab5))
    have hc : (1 : ℚ) / 60 - 1 / Ass cf ≤ 1 / 5 - 1 / Ass cf := by norm_num
    nlinarith [mul_le_mul_of_nonneg_right hc hpos.le]
  -- the medium class: its rate is at least 5
  have hP5 : PI1 cf 5 ≤ PPIrect (adaptConsts cf 5) (h.exp 5) v :=
    PPIrect_ge (adaptConsts cf 5) (h.exp 5) v ab5.le
  have s5 := steadyRate_inv h cf 5 v (by norm_num) (by linarith)
  have s60 := steadyRate_inv h cf 60 v (by norm_num) hA
  have hge5 : (5 : ℚ) ≤ steadyRate h cf 5 v := by
    rw [s5]
    have hid : 1 / Ass cf - 1 / PI2 cf 5 + 1 / PI1 cf 5 = 1 / 5 := by
      have wd := wellDefined_of_lt cf 5 (by norm_num) (by linarith)
      exact PI_identity cf 5 wd.dAss wd.dSpont wd.dPI1 wd.dCI
    have hP0 : 0 < PPIrect (adaptConsts cf 5) (h.exp 5) v := lt_of_lt_of_le a5 hP5
    have hle : 1 / PPIrect (adaptConsts cf 5) (h.exp 5) v ≤ 1 / PI1 cf 5 :=
      one_div_le_one_div_of_le a5 hP5
    have hD : 0 < 1 / Ass cf - 1 / PI2 cf 5 + 1 / PPIrect (adaptConsts cf 5) (h.exp 5) v := by
      have : 0 < 1 / PPIrect (adaptConsts cf 5) (h.exp 5) v := by positivity
      linarith
    rw [le_div_iff₀ hD]
    linarith
  have hmh : steadyRate h cf 5 v < steadyRate h cf 60 v := by
    by_cases h60 : v ≤ FTH + SRTH / h.exp 60
    · have h5 : v ≤ FTH + SRTH / h.exp 5 := by linarith
      rw [steadyRate_rest h cf 5 v (by norm_num) (by linarith) h5,
        steadyRate_rest h cf 60 v (by norm_num) hA h60]
      norm_num
    · have hF : FTH = 0 := rfl
      have hw60 : 0 < (v - SRTH / h.exp 60) / Vsatmax := by
        rw [hF, zero_add, not_le] at h60
        exact div_pos (by linarith) hVs
      have p60 := PPIrect_above (adaptConsts cf 60) (h.exp 60) v h60
      have key : ∃ w : ℚ, PPIrect (adaptConsts cf 5) (h.exp 5) v
            = PI1 cf 5 + (PI2 cf 5 - PI1 cf 5) * w ∧ 0 ≤ w ∧
          w < (v - SRTH / h.exp 60) / Vsatmax ∧ w ≤ 1 := by
        by_cases h5 : v ≤ FTH + SRTH / h.exp 5
        · exact ⟨0, PPIrect_below (adaptConsts cf 5) (h.exp 5) v h5, le_refl 0, hw60,
            by norm_num⟩
        · refine ⟨(v - SRTH / h.exp 5) / Vsatmax,
            PPIrect_above (adaptConsts cf 5) (h.exp 5) v h5, ?_, ?_, ?_⟩
          · rw [hF, zero_add, not_le] at h5
            exact (div_pos (by linarith) hVs).le
          · exact div_lt_div_of_pos_right (by linarith) hVs
          · rw [div_le_one hVs]
            linarith
      obtain ⟨w, pw, hw0, hw, hw1⟩ := key
      have gap := rate_gap (PI1 cf 5) (PI2 cf 5) (PI1 cf 60) (PI2 cf 60) w
        ((v - SRTH / h.exp 60) / Vsatmax) a5 ab5 a60 ab60 hbb hu hw0 hw hw1
      have p60' : PPIrect (adaptConsts cf 60) (h.exp 60) v
          = PI1 cf 60 + (PI2 cf 60 - PI1 cf 60) * ((v - SRTH / h.exp 60) / Vsatmax) := p60
      rw [s5, s60, pw, p60']
      have hp60 : 0 < PI1 cf 60 + (PI2 cf 60 - PI1 cf 60) * ((v - SRTH / h.exp 60) / Vsatmax) := by
        have : 0 < PI2 cf 60 - PI1 cf 60 := sub_pos.mpr ab60
        positivity
      have hD60 : 0 < 1 / Ass cf - 1 / PI2 cf 60
          + 1 / (PI1 cf 60 + (PI2 cf 60 - PI1 cf 60) * ((v - SRTH / h.exp 60) / Vsatmax)) := by
        have : 0 < 1 / (PI1 cf 60
            + (PI2 cf 60 - PI1 cf 60) * ((v - SRTH / h.exp 60) / Vsatmax)) := by positivity
        linarith
      exact one_div_lt_one_div_of_lt hD60 (by linarith)
  refine ⟨by rw [r1]; linarith, hmh, r1, ?_⟩
  rintro f (hf | hf | hf)
  · rw [hf, e1]
    exact steadyRate_eq h cf 1 v (by norm_num) (by linarith)
  · rw [hf, e2]
    exact steadyRate_eq h cf 5 v (by norm_num) (by linarith)
  · rw [hf, e3]
    exact steadyRate_eq h cf 60 v (by norm_num) hA

/-- C7 at `cf = 1000` and the receptor potential `v = Vsatmax = 64 µV`. -/
theorem steadyRate_increasing_to_saturation_witness :
    (80 : ℚ) ≤ 1000 ∧
    (0 < classHost.exp (spontOf 1) ∧ classHost.exp (spontOf 1) ≤ 7) ∧
    100 ≤ classHost.exp (spontOf 2) ∧
    classHost.exp (spontOf 2) < classHost.exp (spontOf 3) ∧
    Vsatmax ≤ Vsatmax + SRTH / classHost.exp (spontOf 2) ∧
    steadyRate classHost 1000 (spontOf 1) Vsatmax
      < steadyRate classHost 1000 (spontOf 2) Vsatmax ∧
    steadyRate classHost 1000 (spontOf 2) Vsatmax
      < steadyRate classHost 1000 (spontOf 3) Vsatmax := by
  have he1 : 0 < classHost.exp (spontOf 1) ∧ classHost.exp (spontOf 1) ≤ 7 := by
    norm_num [classHost, spontOf]
  have he2 : 100 ≤ classHost.exp (spontOf 2) := by norm_num [classHost, spontOf]
  have he3 : classHost.exp (spontOf 2) < classHost.exp (spontOf 3) := by
    norm_num [classHost, spontOf]
  have hv : Vsatmax ≤ Vsatmax + SRTH / classHost.exp (spontOf 2) := by
    norm_num [classHost, spontOf, SRTH]
  have t := steadyRate_increasing_to_saturation classHost 1000 Vsatmax (by norm_num)
    he1 he2 he3 hv
  exact ⟨by norm_num, he1, he2, he3, hv, t.1, t.2.1⟩

/-- C7 as stated fails above the saturation potential. At `cf = 1000` and the constant
receptor potential `v = 70 µV` the steady-state rate of the medium class (about 161.66)
exceeds that of the high class (about 161.35); at `v = 1 mV` the rate of the low class
(about 317) exceeds that of the medium class (about 212), which exceeds that of the high
class (about 177). -/
theorem steadyRate_not_increasing :
    (80 : ℚ) ≤ 1000 ∧ (1000 : ℚ) ≤ 40000 ∧
    steadyRate classHost 1000 (spontOf 3) (7 / 100000)
      < steadyRate classHost 1000 (spontOf 2) (7 / 100000) ∧
    steadyRate classHost 1000 (spontOf 2) (1 / 1000)
      < steadyRate classHost 1000 (spontOf 1) (1 / 1000) ∧
    steadyRate classHost 1000 (spontOf 3) (1 / 1000)
      < steadyRate classHost 1000 (spontOf 2) (1 / 1000) := by
  refine ⟨by norm_num, by norm_num, ?_, ?_, ?_⟩
  · decide!
  · decide!
  · decide!

/-! ## mexFunction: parameter validation -/

/-- The cast to `int` gives the argument back exactly when the argument is an integer in
the range of `int`. -/
theorem castInt32_eq_self_iff (x : ℚ) :
    x = ((castInt32 x : Int) : ℚ)
      ↔ ∃ n : Int, (n : ℚ) = x ∧ -2147483648 ≤ n ∧ n ≤ 2147483647 := by
  constructor
  · intro hx
    refine ⟨castInt32 x, hx.symm, ?_, ?_⟩
    · unfold castInt32
      split_ifs with hr
      · exact hr.1
      · decide
    · unfold castInt32
      split_ifs with hr
      · exact hr.2
      · decide
  · rintro ⟨n, rfl, hlo, hhi⟩
    unfold castInt32
    rw [castInt_intCast, if_pos ⟨hlo, hhi⟩]

/-- C10 (amended). For every call with 6 inputs, 2 outputs and a stimulus that does not
have a single column, and whatever the rounding, `mexFunction` raises an error (and then does not reach `SingleAN`)
if and only if `cf < 80`, or `cf > 40000`, or the `nrep` argument is not an integer, or
`nrep < 1`, or `nrep > 2^31 - 1`, the largest `int`. With a valid `nrep`, `cf = 80` and
`cf = 40000` are accepted; `cf = 79.9` and `cf = 40000.1` are rejected. -/
theorem mexFunction_validation (fl : ℚ → ℚ) (h : Host) (pxtmp : Buf) (pxbins : Int)
    (cf nrep tdres fibertype implnt : ℚ) (hpx : pxbins ≠ 1) :
    ((∃ msg, mexFunction fl h 2 6 pxtmp pxbins cf nrep tdres fibertype implnt = Except.error msg)
      ↔ (cf < 80 ∨ cf > 40000 ∨ (¬ ∃ n : Int, (n : ℚ) = nrep) ∨ nrep < 1
          ∨ 2147483647 < nrep)) ∧
    ((cf = 80 ∨ cf = 40000) → (∃ n : Int, (n : ℚ) = nrep) → 1 ≤ nrep → nrep ≤ 2147483647 →
      ∃ out, mexFunction fl h 2 6 pxtmp pxbins cf nrep tdres fibertype implnt = Except.ok out) ∧
    ((cf = 799 / 10 ∨ cf = 400001 / 10) →
      ∃ msg, mexFunction fl h 2 6 pxtmp pxbins cf nrep tdres fibertype implnt
        = Except.error msg) := by
  have main : (∃ msg, mexFunction fl h 2 6 pxtmp pxbins cf nrep tdres fibertype implnt
      = Except.error msg) ↔ (cf < 80 ∨ cf > 40000 ∨ (¬ ∃ n : Int, (n : ℚ) = nrep) ∨ nrep < 1
          ∨ 2147483647 < nrep) := by
    unfold mexFunction
    rw [if_neg (by decide : ¬ ((6 : Int) ≠ 6)), if_neg (by decide : ¬ ((2 : Int) ≠ 2)),
      if_neg hpx]
    dsimp only
    by_cases hcf : cf < 80 ∨ cf > 40000
    · rw [if_pos hcf]
      constructor
      · intro _
        rcases hcf with hc | hc
        · exact Or.inl hc
        · exact Or.inr (Or.inl hc)
      · intro _
        exact ⟨_, rfl⟩
    · rw [if_neg hcf]
      by_cases hint : nrep ≠ ((castInt32 nrep : Int) : ℚ)
      · rw [if_pos hint]
        constructor
        · intro _
          right
          right
          by_cases hex : ∃ n : Int, (n : ℚ) = nrep
          · obtain ⟨n, hn⟩ := hex
            right
            by_cases hlo : -2147483648 ≤ n
            · by_cases hhi : n ≤ 2147483647
              · exact absurd ((castInt32_eq_self_iff nrep).mpr ⟨n, hn, hlo, hhi⟩) hint
              · right
                rw [← hn]
                have : (2147483647 : Int) < n := by omega
                exact_mod_cast this
            · left
              rw [← hn]
              have : n < 1 := by omega
              exact_mod_cast this
          · exact Or.inl hex
        · intro _
          exact ⟨_, rfl⟩
      · rw [if_neg hint]
        have hint' : nrep = ((castInt32 nrep : Int) : ℚ) := not_not.mp hint
        obtain ⟨n, hn, -, hhi⟩ := (castInt32_eq_self_iff nrep).mp hint'
        by_cases hlt : castInt32 nrep < 1
        · rw [if_pos hlt]
          constructor
          · intro _
            right
            right
            right
            left
            rw [hint']
            exact_mod_cast hlt
          · intro _
            exact ⟨_, rfl⟩
        · rw [if_neg hlt]
          constructor
          · rintro ⟨msg, hm⟩
            cases hm
          · rintro (hc | hc | hc | hc | hc)
            · exact absurd (Or.inl hc) hcf
            · exact absurd (Or.inr hc) hcf
            · exact absurd ⟨n, hn⟩ hc
            · exfalso
              apply hlt
              rw [hint'] at hc
              exact_mod_cast hc
            · exfalso
              rw [← hn] at hc
              have : (2147483647 : Int) < n := by exact_mod_cast hc
              omega
  refine ⟨main, ?_, ?_⟩
  · intro hc hex h1 h2
    have hno : ¬ (∃ msg, mexFunction fl h 2 6 pxtmp pxbins cf nrep tdres fibertype implnt
        = Except.error msg) := by
      rw [main]
      rintro (h80 | h40 | hni | hlt | hgt)
      · rcases hc with rfl | rfl <;> norm_num at h80
      · rcases hc with rfl | rfl <;> norm_num at h40
      · exact hni hex
      · linarith
      · linarith
    cases hm : mexFunction fl h 2 6 pxtmp pxbins cf nrep tdres fibertype implnt with
    | error msg => exact absurd ⟨msg, hm⟩ hno
    | ok out => exact ⟨out, rfl⟩
  · intro hc
    rw [main]
    rcases hc with rfl | rfl
    · left
      norm_num
    · right
      left
      norm_num

/-- C10 at a call with a stimulus of 4 columns. -/
theorem mexFunction_validation_witness :
    (4 : Int) ≠ 1 ∧
    ∃ out, mexFunction binary64 flatHost 2 6 rate100 4 80 1 (1 / 1000) 2 1 = Except.ok out :=
  ⟨by decide,
    (mexFunction_validation binary64 flatHost rate100 4 80 1 (1 / 1000) 2 1 (by decide)).2.1
      (Or.inl rfl) ⟨1, by norm_num⟩ (le_refl 1) (by norm_num)⟩

/-- C10 as stated fails: the call with `cf = 1000` and `nrep = 3000000000`, an integer
`≥ 1`, meets none of the four conditions of the claim, and `mexFunction` raises the error
`nrep must an integer`, because `(int) 3e9` is not `3e9`. -/
theorem mexFunction_rejects_large_nrep :
    (4 : Int) ≠ 1 ∧
    ¬ ((1000 : ℚ) < 80 ∨ (1000 : ℚ) > 40000 ∨ (¬ ∃ n : Int, (n : ℚ) = 3000000000)
        ∨ (3000000000 : ℚ) < 1) ∧
    mexFunction binary64 flatHost 2 6 rate100 4 1000 3000000000 (1 / 100000) 2 1
      = Except.error "nrep must an integer.\n" := by
  refine ⟨by decide, ?_, ?_⟩
  · rintro (hc | hc | hc | hc)
    · norm_num at hc
    · norm_num at hc
    · exact hc ⟨3000000000, by norm_num⟩
    · norm_num at hc
  · have hc : castInt32 3000000000 = -2147483648 := by decide!
    unfold mexFunction
    rw [if_neg (by decide : ¬ ((6 : Int) ≠ 6)), if_neg (by decide : ¬ ((2 : Int) ≠ 2)),
      if_neg (by decide : ¬ ((4 : Int) = 1))]
    dsimp only
    rw [if_neg (by norm_num), if_pos]
    rw [hc]
    norm_num

/-! ## SingleAN: the PSTH -/

/-- With exact arithmetic the bin of a spike time `t ≥ 0` is
`floor((t mod (tdres*totalstim))/tdres)` and lies in `[0, totalstim)`. -/
theorem psthBinR_exact (t tdres : ℚ) (totalstim : Int) (htd : 0 < tdres) (hT : 1 ≤ totalstim)
    (ht : 0 ≤ t) :
    psthBinR id t tdres totalstim
      = ⌊(t - (⌊t / (tdres * (totalstim : ℚ))⌋ : ℚ) * (tdres * (totalstim : ℚ))) / tdres⌋ ∧
    0 ≤ psthBinR id t tdres totalstim ∧ psthBinR id t tdres totalstim < totalstim := by
  have hTq : (1 : ℚ) ≤ (totalstim : ℚ) := by exact_mod_cast hT
  have hm : 0 < tdres * (totalstim : ℚ) := by positivity
  have hq : 0 ≤ t / (tdres * (totalstim : ℚ)) := div_nonneg ht hm.le
  have hfm : fmod t (tdres * (totalstim : ℚ))
      = t - (⌊t / (tdres * (totalstim : ℚ))⌋ : ℚ) * (tdres * (totalstim : ℚ)) := by
    unfold fmod castInt
    rw [if_pos hq]
  have h1 : (⌊t / (tdres * (totalstim : ℚ))⌋ : ℚ) * (tdres * (totalstim : ℚ)) ≤ t := by
    have := Int.floor_le (t / (tdres * (totalstim : ℚ)))
    rwa [le_div_iff₀ hm] at this
  have h2 : t < ((⌊t / (tdres * (totalstim : ℚ))⌋ : ℚ) + 1) * (tdres * (totalstim : ℚ)) := by
    have := Int.lt_floor_add_one (t / (tdres * (totalstim : ℚ)))
    rwa [div_lt_iff₀ hm] at this
  have hlo : 0 ≤ (t - (⌊t / (tdres * (totalstim : ℚ))⌋ : ℚ) * (tdres * (totalstim : ℚ)))
      / tdres := div_nonneg (by linarith) htd.le
  have hhi : (t - (⌊t / (tdres * (totalstim : ℚ))⌋ : ℚ) * (tdres * (totalstim : ℚ))) / tdres
      < (totalstim : ℚ) := by
    rw [div_lt_iff₀ htd]
    linarith
  have e : psthBinR id t tdres totalstim
      = ⌊(t - (⌊t / (tdres * (totalstim : ℚ))⌋ : ℚ) * (tdres * (totalstim : ℚ))) / tdres⌋ := by
    unfold psthBinR
    simp only [id]
    rw [hfm]
    unfold castInt
    rw [if_pos hlo]
  rw [e]
  exact ⟨rfl, Int.floor_nonneg.mpr hlo, Int.floor_lt.mpr hhi⟩

/-- C13, the failing run in the arithmetic of the code. With `tdres = 1e-5`,
`totalstim = 6` and `nrep = 1`, `SpikeGenerator` returns one spike, at the time
`6e-05` that `countTime` has at the last rate sample; this time is in `[0, DT)`, since
`DT = 6*tdres = 6.000000000000001e-05`. Its bin is
`(int)(fmod(6e-05, 6.000000000000001e-05)/1e-05) = (int)(6e-05/1e-05) = 6 = totalstim`:
the PSTH loop increments `psth[6]`, one element past the `totalstim = 6` bins, and the
bins `0 .. 5` sum to 0, not to `nspikes = 1`. With exact arithmetic the bin of the same
spike time is 5. -/
theorem binPsth_writes_past_end :
    (SpikeGeneratorR binary64 drawHost lastSampleRate (binary64 (1 / 100000)) 6 1
        Buf.calloc).1 = 1 ∧
    (SpikeGeneratorR binary64 drawHost lastSampleRate (binary64 (1 / 100000)) 6 1
        Buf.calloc).2 0 = 8854437155380585 / 147573952589676412928 ∧
    (0 : ℚ) ≤ 8854437155380585 / 147573952589676412928 ∧
    (8854437155380585 / 147573952589676412928 : ℚ)
      < DTR binary64 6 (binary64 (1 / 100000)) 1 ∧
    binary64 (binary64 (1 / 100000) * 6) = 4427218577690293 / 73786976294838206464 ∧
    psthBinR binary64 (8854437155380585 / 147573952589676412928) (binary64 (1 / 100000)) 6
      = 6 ∧
    binPsthR binary64
        (SpikeGeneratorR binary64 drawHost lastSampleRate (binary64 (1 / 100000)) 6 1
          Buf.calloc).2
        (SpikeGeneratorR binary64 drawHost lastSampleRate (binary64 (1 / 100000)) 6 1
          Buf.calloc).1
        (binary64 (1 / 100000)) 6 Buf.calloc 6 = 1 ∧
    (∀ p : Int, 0 ≤ p → p < 6 →
      binPsthR binary64
        (SpikeGeneratorR binary64 drawHost lastSampleRate (binary64 (1 / 100000)) 6 1
          Buf.calloc).2
        (SpikeGeneratorR binary64 drawHost lastSampleRate (binary64 (1 / 100000)) 6 1
          Buf.calloc).1
        (binary64 (1 / 100000)) 6 Buf.calloc p = 0) ∧
    psthBinR id (8854437155380585 / 147573952589676412928) (binary64 (1 / 100000)) 6 = 5 := by
  have hn : (SpikeGeneratorR binary64 drawHost lastSampleRate (binary64 (1 / 100000)) 6 1
      Buf.calloc).1 = 1 := by decide!
  have ht : (SpikeGeneratorR binary64 drawHost lastSampleRate (binary64 (1 / 100000)) 6 1
      Buf.calloc).2 0 = 8854437155380585 / 147573952589676412928 := by decide!
  have hb : psthBinR binary64 (8854437155380585 / 147573952589676412928)
      (binary64 (1 / 100000)) 6 = 6 := by decide!
  have hrun : ∀ p : Int, binPsthR binary64
      (SpikeGeneratorR binary64 drawHost lastSampleRate (binary64 (1 / 100000)) 6 1
        Buf.calloc).2
      (SpikeGeneratorR binary64 drawHost lastSampleRate (binary64 (1 / 100000)) 6 1
        Buf.calloc).1
      (binary64 (1 / 100000)) 6 Buf.calloc p = if p = 6 then binary64 (0 + 1) else 0 := by
    intro p
    rw [hn]
    show Buf.write Buf.calloc _ _ p = _
    have e0 : ((0 : Nat) : Int) = 0 := rfl
    rw [e0, ht, hb]
    rfl
  refine ⟨hn, ht, by norm_num, by decide!, by decide!, hb, ?_, ?_, by decide!⟩
  · rw [hrun 6, if_pos rfl]
    decide!
  · intro p _ hp
    rw [hrun p, if_neg (by omega)]

/-! ## Double arithmetic: what the rounding `binary64` returns -/

theorem log2Halving_spec (fuel : Nat) :
    ∀ n : Nat, 1 ≤ n → n ≤ fuel →
      2 ^ log2Halving fuel n ≤ n ∧ n < 2 ^ (log2Halving fuel n + 1) := by
  induction fuel with
  | zero =>
    intro n h1 h2
    omega
  | succ f ih =>
    intro n h1 h2
    unfold log2Halving
    by_cases hn : n < 2
    · rw [if_pos hn]
      have : n = 1 := by omega
      subst this
      norm_num
    · rw [if_neg hn]
      have hd : 1 ≤ n / 2 := by omega
      have hf : n / 2 ≤ f := by omega
      obtain ⟨a, b⟩ := ih (n / 2) hd hf
      constructor
      · rw [pow_succ]
        omega
      · rw [pow_succ]
        omega

theorem pow2_eq_zpow (e : Int) : pow2 e = (2 : ℚ) ^ e := by
  unfold pow2
  split_ifs with h
  · obtain ⟨n, rfl⟩ := Int.eq_ofNat_of_zero_le h
    simp
  · push_neg at h
    obtain ⟨n, hn⟩ := Int.eq_ofNat_of_zero_le (show 0 ≤ -e by omega)
    have he : e = -(n : Int) := by omega
    rw [he]
    simp

/-- The binary exponent `e` of a positive number `x` has `2^e ≤ x < 2^(e+1)`. -/
theorem binExp_spec (x : ℚ) (hx : 0 < x) :
    pow2 (binExp x) ≤ x ∧ x < pow2 (binExp x + 1) := by
  have hnum : 0 < x.num := Rat.num_pos.mpr hx
  have hp1 : 1 ≤ x.num.natAbs := by omega
  have hq1 : 1 ≤ x.den := x.den_pos
  obtain ⟨pa, pb⟩ := log2Halving_spec x.num.natAbs x.num.natAbs hp1 (le_refl _)
  obtain ⟨qa, qb⟩ := log2Halving_spec x.den x.den hq1 (le_refl _)
  have hcast : (x.num.natAbs : ℚ) = (x.num : ℚ) := by
    rw [Nat.cast_natAbs, abs_of_pos hnum]
  have hmul : x * (x.den : ℚ) = (x.num.natAbs : ℚ) := by
    rw [hcast]
    exact Rat.mul_den_eq_num x
  have hden : (0 : ℚ) < (x.den : ℚ) := by exact_mod_cast x.den_pos
  have pa' : (2 : ℚ) ^ (log2Halving x.num.natAbs x.num.natAbs) ≤ (x.num.natAbs : ℚ) := by
    exact_mod_cast pa
  have pb' : (x.num.natAbs : ℚ) < (2 : ℚ) ^ (log2Halving x.num.natAbs x.num.natAbs + 1) := by
    exact_mod_cast pb
  have qa' : (2 : ℚ) ^ (log2Halving x.den x.den) ≤ (x.den : ℚ) := by exact_mod_cast qa
  have qb' : (x.den : ℚ) < (2 : ℚ) ^ (log2Halving x.den x.den + 1) := by exact_mod_cast qb
  have two : (0 : ℚ) < 2 := by norm_num
  -- the candidate exponent and the two bounds it satisfies
  have lo : pow2 ((log2Halving x.num.natAbs x.num.natAbs : Int)
      - (log2Halving x.den x.den : Int) - 1) ≤ x := by
    rw [pow2_eq_zpow, sub_sub, zpow_sub₀ two.ne', zpow_natCast]
    have e : (2 : ℚ) ^ ((log2Halving x.den x.den : Int) + 1)
        = (2 : ℚ) ^ (log2Halving x.den x.den + 1) := by
      rw [← zpow_natCast]
      norm_cast
    rw [e, div_le_iff₀ (by positivity)]
    calc (2 : ℚ) ^ (log2Halving x.num.natAbs x.num.natAbs) ≤ (x.num.natAbs : ℚ) := pa'
      _ = x * (x.den : ℚ) := hmul.symm
      _ ≤ x * (2 : ℚ) ^ (log2Halving x.den x.den + 1) :=
          mul_le_mul_of_nonneg_left qb'.le hx.le
  have hi : x < pow2 ((log2Halving x.num.natAbs x.num.natAbs : Int)
      - (log2Halving x.den x.den : Int) + 1) := by
    rw [pow2_eq_zpow, sub_add_eq_add_sub, zpow_sub₀ two.ne', zpow_natCast]
    have e : (2 : ℚ) ^ ((log2Halving x.num.natAbs x.num.natAbs : Int) + 1)
        = (2 : ℚ) ^ (log2Halving x.num.natAbs x.num.natAbs + 1) := by
      rw [← zpow_natCast]
      norm_cast
    rw [e, lt_div_iff₀ (by positivity)]
    calc x * (2 : ℚ) ^ (log2Halving x.den x.den) ≤ x * (x.den : ℚ) :=
          mul_le_mul_of_nonneg_left qa' hx.le
      _ = (x.num.natAbs : ℚ) := hmul
      _ < (2 : ℚ) ^ (log2Halving x.num.natAbs x.num.natAbs + 1) := pb'
  unfold binExp
  dsimp only
  split_ifs with hc
  · exact ⟨hc, hi⟩
  · push_neg at hc
    refine ⟨lo, ?_⟩
    rw [sub_add_cancel]
    exact hc

theorem roundHalfEven_ge (q : ℚ) (N : Int) (h : (N : ℚ) ≤ q) : N ≤ roundHalfEven q := by
  have hf : N ≤ ⌊q⌋ := Int.le_floor.mpr h
  unfold roundHalfEven
  split_ifs <;> omega

theorem roundHalfEven_le (q : ℚ) (N : Int) (h : q ≤ (N : ℚ)) : roundHalfEven q ≤ N := by
  rcases h.eq_or_lt with he | hlt
  · have hfl : ⌊q⌋ = N := by
      rw [he]
      exact Int.floor_intCast N
    unfold roundHalfEven
    rw [hfl, he]
    norm_num
  · have hf : ⌊q⌋ < N := Int.floor_lt.mpr hlt
    unfold roundHalfEven
    split_ifs <;> omega

/-- What `binary64` returns for `x ≠ 0`: with `e` the binary exponent of `|x|`, so that
`2^e ≤ |x| < 2^(e+1)`, it is `m * 2^(e-52)` for an integer significand `m` of at most 53
bits, `2^52 ≤ |m| ≤ 2^53`, and it is within half a unit `2^(e-52)` of `x`. -/
theorem binary64_spec (x : ℚ) (hx : x ≠ 0) :
    pow2 (binExp |x|) ≤ |x| ∧ |x| < pow2 (binExp |x| + 1) ∧
    ∃ m : Int, binary64 x = (m : ℚ) * pow2 (binExp |x| - 52) ∧
      2 ^ 52 ≤ |m| ∧ |m| ≤ 2 ^ 53 ∧
      |binary64 x - x| ≤ pow2 (binExp |x| - 52) / 2 := by
  have hax : 0 < |x| := abs_pos.mpr hx
  obtain ⟨elo, ehi⟩ := binExp_spec |x| hax
  refine ⟨elo, ehi, roundHalfEven (x / pow2 (binExp |x| - 52)), ?_, ?_, ?_, binary64_error x⟩
  · unfold binary64
    rw [if_neg hx]
  · have hu := pow2_pos (binExp |x| - 52)
    have e1 : pow2 (binExp |x|) = 2 ^ 52 * pow2 (binExp |x| - 52) := by
      rw [pow2_eq_zpow, pow2_eq_zpow, zpow_sub₀ (by norm_num : (2 : ℚ) ≠ 0)]
      norm_num
      ring
    rw [e1] at elo
    rcases lt_or_gt_of_ne hx with hneg | hpos
    · have hxa : |x| = -x := abs_of_neg hneg
      have hq : x / pow2 (binExp |x| - 52) ≤ ((-(2 ^ 52) : Int) : ℚ) := by
        rw [div_le_iff₀ hu]
        push_cast
        linarith
      have := roundHalfEven_le _ _ hq
      rw [abs_of_neg (by omega)]
      omega
    · have hxa : |x| = x := abs_of_pos hpos
      have hq : (((2 ^ 52 : Int)) : ℚ) ≤ x / pow2 (binExp |x| - 52) := by
        rw [le_div_iff₀ hu]
        push_cast
        linarith
      have := roundHalfEven_ge _ _ hq
      rw [abs_of_pos (by omega)]
      omega
  · have hu := pow2_pos (binExp |x| - 52)
    have e1 : pow2 (binExp |x| + 1) = 2 ^ 53 * pow2 (binExp |x| - 52) := by
      rw [pow2_eq_zpow, pow2_eq_zpow, zpow_sub₀ (by norm_num : (2 : ℚ) ≠ 0),
        zpow_add_one₀ (by norm_num : (2 : ℚ) ≠ 0)]
      norm_num
      ring
    rw [e1] at ehi
    rw [abs_le]
    rcases lt_or_gt_of_ne hx with hneg | hpos
    · have hxa : |x| = -x := abs_of_neg hneg
      have hq : ((-(2 ^ 53) : Int) : ℚ) ≤ x / pow2 (binExp |x| - 52) := by
        rw [le_div_iff₀ hu]
        push_cast
        linarith
      have hq' : x / pow2 (binExp |x| - 52) ≤ ((0 : Int) : ℚ) := by
        rw [div_le_iff₀ hu]
        push_cast
        linarith
      have := roundHalfEven_ge _ _ hq
      have := roundHalfEven_le _ _ hq'
      constructor <;> omega
    · have hxa : |x| = x := abs_of_pos hpos
      have hq : x / pow2 (binExp |x| - 52) ≤ (((2 ^ 53 : Int)) : ℚ) := by
        rw [div_le_iff₀ hu]
        push_cast
        linarith
      have hq' : ((0 : Int) : ℚ) ≤ x / pow2 (binExp |x| - 52) := by
        rw [le_div_iff₀ hu]
        push_cast
        linarith
      have := roundHalfEven_ge _ _ hq'
      have := roundHalfEven_le _ _ hq
      constructor <;> omega

/-- A tie goes to the even significand. -/
theorem roundHalfEven_tie (q : ℚ) (h : q - (⌊q⌋ : ℚ) = 1 / 2) : roundHalfEven q % 2 = 0 := by
  unfold roundHalfEven
  rw [h]
  norm_num
  split_ifs with hc
  · exact hc
  · omega

/-! ## Double arithmetic: roundings of bounded relative error, and the spike loop -/

theorem relErr_id : RelErr id 0 := by
  intro x
  simp

/-- The rounding `binary64` has relative error at most `2^-53`. -/
theorem binary64_relErr : RelErr binary64 (1 / 2 ^ 53) := by
  intro x
  by_cases hx : x = 0
  · rw [hx]
    have : binary64 0 = 0 := by
      unfold binary64
      rw [if_pos rfl]
    rw [this]
    simp
  · obtain ⟨elo, -, -, -, -, -, herr⟩ := binary64_spec x hx
    have e1 : pow2 (binExp |x| - 52) = pow2 (binExp |x|) / 2 ^ 52 := by
      rw [pow2_eq_zpow, pow2_eq_zpow, zpow_sub₀ (by norm_num : (2 : ℚ) ≠ 0)]
      norm_num
    rw [e1] at herr
    have hp := pow2_pos (binExp |x|)
    calc |binary64 x - x| ≤ pow2 (binExp |x|) / 2 ^ 52 / 2 := herr
      _ = 1 / 2 ^ 53 * pow2 (binExp |x|) := by ring
      _ ≤ 1 / 2 ^ 53 * |x| := mul_le_mul_of_nonneg_left elo (by norm_num)

theorem RelErr.le {fl : ℚ → ℚ} {u : ℚ} (H : RelErr fl u) (x : ℚ) (hx : 0 ≤ x) :
    fl x ≤ (1 + u) * x := by
  have h := H x
  rw [abs_of_nonneg hx, abs_le] at h
  linarith

theorem RelErr.ge {fl : ℚ → ℚ} {u : ℚ} (H : RelErr fl u) (x : ℚ) (hx : 0 ≤ x) :
    (1 - u) * x ≤ fl x := by
  have h := H x
  rw [abs_of_nonneg hx, abs_le] at h
  linarith

theorem RelErr.nonneg {fl : ℚ → ℚ} {u : ℚ} (H : RelErr fl u) (hu : u ≤ 1) (x : ℚ)
    (hx : 0 ≤ x) : 0 ≤ fl x :=
  le_trans (mul_nonneg (by linarith) hx) (H.ge x hx)

theorem RelErr.pos {fl : ℚ → ℚ} {u : ℚ} (H : RelErr fl u) (hu : u < 1) (x : ℚ)
    (hx : 0 < x) : 0 < fl x :=
  lt_of_lt_of_le (mul_pos (by linarith) hx) (H.ge x hx.le)

/-- One rounded addition to the clock: if `c` is within the relative error `G - 1` of `t`
and `a` within `u` of `b`, then `fl (c + a)` is within `G*(1+u)^2 - 1` of `t + b`. -/
theorem RelErr.add {fl : ℚ → ℚ} {u : ℚ} (H : RelErr fl u) (hu : 0 ≤ u) (c t a b G : ℚ)
    (hG : 1 ≤ G) (ht : 0 ≤ t) (hb : 0 ≤ b) (hc : |c - t| ≤ (G - 1) * t)
    (ha : |a - b| ≤ u * b) :
    |fl (c + a) - (t + b)| ≤ (G * (1 + u) ^ 2 - 1) * (t + b) := by
  have h1 := H (c + a)
  rw [abs_le] at hc ha
  have hca : |c + a| ≤ G * t + (1 + u) * b := by
    rw [abs_le]
    constructor
    · nlinarith
    · linarith
  have h2 : |fl (c + a) - (c + a)| ≤ u * (G * t + (1 + u) * b) :=
    le_trans h1 (mul_le_mul_of_nonneg_left hca hu)
  rw [abs_le] at h2
  have hGt : 0 ≤ G * (1 + u) * u * t := by positivity
  have hGb : 0 ≤ (G - 1) * (1 + u) ^ 2 * b := by
    have : 0 ≤ G - 1 := by linarith
    positivity
  rw [abs_le]
  constructor
  · nlinarith
  · nlinarith

theorem deadtimeIndexR_eq (fl : ℚ → ℚ) (tdres : ℚ) :
    deadtimeIndexR fl tdres = ⌊fl (fl dead / tdres)⌋ := by
  unfold deadtimeIndexR
  rw [castInt_intCast]

theorem deadtimeIndexR_nonneg {fl : ℚ → ℚ} {u : ℚ} (H : RelErr fl u) (hu : u ≤ 1)
    (tdres : ℚ) (htd : 0 < tdres) : 0 ≤ deadtimeIndexR fl tdres := by
  rw [deadtimeIndexR_eq]
  have hd : 0 ≤ fl dead := H.nonneg hu dead (by norm_num [dead])
  exact Int.floor_nonneg.mpr (H.nonneg hu _ (div_nonneg hd htd.le))

theorem spikeInitR_inv (fl : ℚ → ℚ) (u : ℚ) (h : Host) (synouttmp randNums : Buf) (tdres : ℚ)
    (totalstim nrep : Int) (sptime : Buf) :
    SpikeInvR fl u tdres totalstim nrep sptime
      (spikeInitR fl h synouttmp randNums tdres sptime) where
  nout_nonneg := le_refl _
  k_nonneg := le_refl _
  lead := by
    show (0 : Int) * _ ≤ 0
    omega
  count := by
    intro hpos
    exact absurd hpos (lt_irrefl _)
  clock := by
    show |tdres - (((0 : Int) : ℚ) + 1) * tdres|
      ≤ ((1 + u) ^ (4 * (0 : Int).toNat) - 1) * ((((0 : Int) : ℚ) + 1) * tdres)
    simp
  stamps := by
    intro i h0 h1
    have : i < 0 := h1
    omega
  frame := fun _ _ => rfl

theorem pow_four_mul_succ_le (u : ℚ) (hu : 0 ≤ u) (m d : Nat) :
    (1 + u) ^ (4 * m) * (1 + u) ^ 4 ≤ (1 + u) ^ (4 * (m + d + 1)) := by
  rw [← pow_add]
  exact pow_le_pow_right₀ (by linarith) (by omega)

/-- One iteration of the rounded spike loop, entered with its condition true, keeps the
invariant. -/
theorem spikeStepR_inv {fl : ℚ → ℚ} {u : ℚ} (H : RelErr fl u) (hu0 : 0 ≤ u) (hu1 : u ≤ 1)
    (h : Host) (synouttmp randNums : Buf) (tdres : ℚ) (totalstim nrep : Int) (sptime0 : Buf)
    (s : SpikeState) (htd : 0 < tdres)
    (hs : SpikeInvR fl u tdres totalstim nrep sptime0 s)
    (hc : s.k < totalstim * nrep ∧ s.countTime < DTR fl totalstim tdres nrep) :
    SpikeInvR fl u tdres totalstim nrep sptime0
      (spikeIncrR fl tdres (spikeBodyR fl h synouttmp randNums tdres s)) := by
  have hD := deadtimeIndexR_nonneg H hu1 tdres htd
  have hk0 := hs.k_nonneg
  have hkq : (0 : ℚ) ≤ (s.k : ℚ) := by exact_mod_cast hk0
  have hG : (1 : ℚ) ≤ (1 + u) ^ (4 * s.k.toNat) := one_le_pow₀ (by linarith)
  have ht : (0 : ℚ) ≤ ((s.k : ℚ) + 1) * tdres := by positivity
  have hu2 : (1 : ℚ) ≤ (1 + u) ^ 2 := one_le_pow₀ (by linarith)
  have ik : (spikeIncrR fl tdres (spikeBodyR fl h synouttmp randNums tdres s)).k
      = (spikeBodyR fl h synouttmp randNums tdres s).k + 1 := rfl
  have it : (spikeIncrR fl tdres (spikeBodyR fl h synouttmp randNums tdres s)).countTime
      = fl ((spikeBodyR fl h synouttmp randNums tdres s).countTime + tdres) := rfl
  have iN : (spikeIncrR fl tdres (spikeBodyR fl h synouttmp randNums tdres s)).Nout
      = (spikeBodyR fl h synouttmp randNums tdres s).Nout := rfl
  have ib : (spikeIncrR fl tdres (spikeBodyR fl h synouttmp randNums tdres s)).sptime
      = (spikeBodyR fl h synouttmp randNums tdres s).sptime := rfl
  have htdtd : |tdres - tdres| ≤ u * tdres := by
    rw [sub_self, abs_zero]
    positivity
  rcases spikeBodyR_cases fl h synouttmp randNums tdres s with
    ⟨bk, bt, bN, bb⟩ | ⟨-, bk, bt, bN, bb⟩
  · -- no spike
    refine ⟨?_, ?_, ?_, ?_, ?_, ?_, ?_⟩
    · rw [iN, bN]
      exact hs.nout_nonneg
    · rw [ik, bk]
      omega
    · rw [iN, bN, ik, bk]
      have := hs.lead
      omega
    · rw [iN, bN]
      exact hs.count
    · rw [it, bt, ik, bk]
      have hadd := H.add hu0 s.countTime (((s.k : ℚ) + 1) * tdres) tdres tdres
        ((1 + u) ^ (4 * s.k.toNat)) hG ht htd.le hs.clock htdtd
      have hto : (s.k + 1).toNat = s.k.toNat + 0 + 1 := by omega
      have hpow := pow_four_mul_succ_le u hu0 s.k.toNat 0
      rw [← hto] at hpow
      have e : (((s.k + 1 : Int) : ℚ) + 1) * tdres = ((s.k : ℚ) + 1) * tdres + tdres := by
        push_cast
        ring
      rw [e]
      have hpos : 0 ≤ ((s.k : ℚ) + 1) * tdres + tdres := by positivity
      have hle : (1 + u) ^ (4 * s.k.toNat) * (1 + u) ^ 2 - 1
          ≤ (1 + u) ^ (4 * (s.k + 1).toNat) - 1 := by
        have h4 : (1 + u) ^ 4 = (1 + u) ^ 2 * (1 + u) ^ 2 := by ring
        rw [h4] at hpow
        have : (1 + u) ^ (4 * s.k.toNat) * (1 + u) ^ 2
            ≤ (1 + u) ^ (4 * s.k.toNat) * ((1 + u) ^ 2 * (1 + u) ^ 2) := by
          apply mul_le_mul_of_nonneg_left _ (by linarith)
          nlinarith
        linarith
      exact le_trans hadd (mul_le_mul_of_nonneg_right hle hpos)
    · intro i h0 h1
      rw [iN, bN] at h1
      rw [ib, bb]
      exact hs.stamps i h0 h1
    · intro i hi
      rw [iN, bN] at hi
      rw [ib, bb]
      exact hs.frame i hi
  · -- a spike
    have hDq : (0 : ℚ) ≤ (deadtimeIndexR fl tdres : ℚ) := by exact_mod_cast hD
    have hb : (0 : ℚ) ≤ (deadtimeIndexR fl tdres : ℚ) * tdres := by positivity
    have hr : |deadtimeRndR fl tdres - (deadtimeIndexR fl tdres : ℚ) * tdres|
        ≤ u * ((deadtimeIndexR fl tdres : ℚ) * tdres) := by
      have := H ((deadtimeIndexR fl tdres : ℚ) * tdres)
      rwa [abs_of_nonneg hb] at this
    refine ⟨?_, ?_, ?_, ?_, ?_, ?_, ?_⟩
    · rw [iN, bN]
      have := hs.nout_nonneg
      omega
    · rw [ik, bk]
      omega
    · rw [iN, bN, ik, bk]
      have := hs.lead
      have e : (s.Nout + 1) * (deadtimeIndexR fl tdres + 1)
          = s.Nout * (deadtimeIndexR fl tdres + 1) + (deadtimeIndexR fl tdres + 1) := by ring
      rw [e]
      omega
    · intro _
      rw [iN, bN]
      have := hs.lead
      have e : s.Nout + 1 - 1 = s.Nout := by omega
      rw [e]
      omega
    · rw [it, bt, ik, bk]
      have hadd1 := H.add hu0 s.countTime (((s.k : ℚ) + 1) * tdres) (deadtimeRndR fl tdres)
        ((deadtimeIndexR fl tdres : ℚ) * tdres) ((1 + u) ^ (4 * s.k.toNat)) hG ht hb
        hs.clock hr
      have hG1 : (1 : ℚ) ≤ (1 + u) ^ (4 * s.k.toNat) * (1 + u) ^ 2 := by nlinarith
      have hadd2 := H.add hu0 (fl (s.countTime + deadtimeRndR fl tdres))
        (((s.k : ℚ) + 1) * tdres + (deadtimeIndexR fl tdres : ℚ) * tdres) tdres tdres
        ((1 + u) ^ (4 * s.k.toNat) * (1 + u) ^ 2) hG1 (by positivity) htd.le hadd1 htdtd
      have hto : (s.k + deadtimeIndexR fl tdres + 1).toNat
          = s.k.toNat + (deadtimeIndexR fl tdres).toNat + 1 := by omega
      have hpow := pow_four_mul_succ_le u hu0 s.k.toNat (deadtimeIndexR fl tdres).toNat
      rw [← hto] at hpow
      have e : (((s.k + deadtimeIndexR fl tdres + 1 : Int) : ℚ) + 1) * tdres
          = ((s.k : ℚ) + 1) * tdres + (deadtimeIndexR fl tdres : ℚ) * tdres + tdres := by
        push_cast
        ring
      rw [e]
      have hpos : 0 ≤ ((s.k : ℚ) + 1) * tdres + (deadtimeIndexR fl tdres : ℚ) * tdres
          + tdres := by positivity
      have hle : (1 + u) ^ (4 * s.k.toNat) * (1 + u) ^ 2 * (1 + u) ^ 2 - 1
          ≤ (1 + u) ^ (4 * (s.k + deadtimeIndexR fl tdres + 1).toNat) - 1 := by
        have h4 : (1 + u) ^ 4 = (1 + u) ^ 2 * (1 + u) ^ 2 := by ring
        rw [h4, ← mul_assoc] at hpow
        linarith
      exact le_trans hadd2 (mul_le_mul_of_nonneg_right hle hpos)
    · intro i h0 h1
      rw [iN, bN] at h1
      rw [ib, bb]
      by_cases hi : i = s.Nout
      · rw [hi, Buf.write_same]
        exact ⟨s.k, hk0, hc.1, hs.clock, hc.2⟩
      · rw [Buf.write_other _ _ _ _ hi]
        exact hs.stamps i h0 (by omega)
    · intro i hi
      rw [iN, bN] at hi
      rw [ib, bb]
      have := hs.nout_nonneg
      have hne : i ≠ s.Nout := by omega
      rw [Buf.write_other _ _ _ _ hne]
      exact hs.frame i (by omega)

theorem spikeLoopR_inv {fl : ℚ → ℚ} {u : ℚ} (H : RelErr fl u) (hu0 : 0 ≤ u) (hu1 : u ≤ 1)
    (h : Host) (synouttmp randNums : Buf) (tdres : ℚ) (totalstim nrep : Int) (sptime0 : Buf)
    (htd : 0 < tdres) (fuel : Nat) :
    ∀ s, SpikeInvR fl u tdres totalstim nrep sptime0 s →
      SpikeInvR fl u tdres totalstim nrep sptime0
        (spikeLoopR fl h synouttmp randNums tdres totalstim nrep fuel s) := by
  induction fuel with
  | zero => intro s hs; exact hs
  | succ m ih =>
    intro s hs
    unfold spikeLoopR
    split_ifs with hc
    · exact ih _ (spikeStepR_inv H hu0 hu1 h synouttmp randNums tdres totalstim nrep sptime0 s
        htd hs hc)
    · exact hs

theorem spikeHeadR_inv {fl : ℚ → ℚ} {u : ℚ} (H : RelErr fl u) (hu0 : 0 ≤ u) (hu1 : u ≤ 1)
    (h : Host) (synouttmp : Buf) (tdres : ℚ) (totalstim nrep : Int) (sptime : Buf)
    (htd : 0 < tdres) (n : Nat) :
    SpikeInvR fl u tdres totalstim nrep sptime
      (spikeHeadR fl h synouttmp tdres totalstim nrep sptime n) :=
  spikeLoopR_inv H hu0 hu1 h synouttmp _ tdres totalstim nrep sptime htd n _
    (spikeInitR_inv fl u h synouttmp _ tdres totalstim nrep sptime)

/-- The rounded loop ends: at the head `n`, either the condition has failed or `k ≥ n`. -/
theorem spikeHeadR_progress {fl : ℚ → ℚ} {u : ℚ} (H : RelErr fl u) (hu1 : u ≤ 1)
    (h : Host) (synouttmp : Buf) (tdres : ℚ) (totalstim nrep : Int) (sptime : Buf)
    (htd : 0 < tdres) (n : Nat) :
    (n : Int) ≤ (spikeHeadR fl h synouttmp tdres totalstim nrep sptime n).k ∨
    ¬ ((spikeHeadR fl h synouttmp tdres totalstim nrep sptime n).k < totalstim * nrep ∧
      (spikeHeadR fl h synouttmp tdres totalstim nrep sptime n).countTime
        < DTR fl totalstim tdres nrep) := by
  have hD := deadtimeIndexR_nonneg H hu1 tdres htd
  induction n with
  | zero =>
    left
    exact le_refl _
  | succ m ih =>
    have hsucc : spikeHeadR fl h synouttmp tdres totalstim nrep sptime (m + 1)
        = if (spikeHeadR fl h synouttmp tdres totalstim nrep sptime m).k < totalstim * nrep ∧
            (spikeHeadR fl h synouttmp tdres totalstim nrep sptime m).countTime
              < DTR fl totalstim tdres nrep then
            spikeIncrR fl tdres (spikeBodyR fl h synouttmp
              (h.rand 1 ((NoutMaxR fl totalstim nrep tdres + 1 : Int) : ℚ)) tdres
              (spikeHeadR fl h synouttmp tdres totalstim nrep sptime m))
          else spikeHeadR fl h synouttmp tdres totalstim nrep sptime m :=
      spikeLoopR_succ fl h synouttmp _ tdres totalstim nrep m _
    by_cases hc : (spikeHeadR fl h synouttmp tdres totalstim nrep sptime m).k < totalstim * nrep ∧
        (spikeHeadR fl h synouttmp tdres totalstim nrep sptime m).countTime
          < DTR fl totalstim tdres nrep
    · rcases ih with ih | ih
      · left
        rw [hsucc, if_pos hc]
        have ik : ∀ t, (spikeIncrR fl tdres t).k = t.k + 1 := fun _ => rfl
        rw [ik]
        rcases spikeBodyR_cases fl h synouttmp
            (h.rand 1 ((NoutMaxR fl totalstim nrep tdres + 1 : Int) : ℚ)) tdres
            (spikeHeadR fl h synouttmp tdres totalstim nrep sptime m) with
          ⟨bk, -, -, -⟩ | ⟨-, bk, -, -, -⟩
        · rw [bk]
          push_cast
          omega
        · rw [bk]
          push_cast
          omega
      · exact absurd hc ih
    · right
      rw [hsucc, if_neg hc]
      exact hc

/-! ## SpikeGenerator: the spike count and the two buffer lengths in rounded arithmetic -/

/-- Both length quotients are at least `(1-u)^3` times the exact quotient. -/
theorem lengths_lower {fl : ℚ → ℚ} {u : ℚ} (H : RelErr fl u) (hu0 : 0 ≤ u) (hu1 : u < 1)
    (totalstim nrep : Int) (tdres : ℚ) (htd : 0 < tdres) (hT : 0 ≤ totalstim)
    (hn : 0 ≤ nrep) :
    (1 - u) ^ 3 * (((totalstim * nrep : Int) : ℚ) * tdres / fl dead)
      ≤ fl (fl (((totalstim * nrep : Int) : ℚ) * tdres) / fl dead) ∧
    (1 - u) ^ 3 * (((totalstim * nrep : Int) : ℚ) * tdres / fl dead)
      ≤ fl (fl (fl ((totalstim : ℚ) * tdres) * (nrep : ℚ)) / fl dead) := by
  have hw : 0 < 1 - u := by linarith
  have hw1 : 1 - u ≤ 1 := by linarith
  have hd : 0 < fl dead := H.pos hu1 dead (by norm_num [dead])
  have hTq : (0 : ℚ) ≤ (totalstim : ℚ) := by exact_mod_cast hT
  have hnq : (0 : ℚ) ≤ (nrep : ℚ) := by exact_mod_cast hn
  have hNq : (0 : ℚ) ≤ ((totalstim * nrep : Int) : ℚ) := by
    push_cast
    positivity
  have hx : 0 ≤ ((totalstim * nrep : Int) : ℚ) * tdres / fl dead := by positivity
  constructor
  · have a1 := H.ge (((totalstim * nrep : Int) : ℚ) * tdres) (by positivity)
    have a1' : 0 ≤ fl (((totalstim * nrep : Int) : ℚ) * tdres) :=
      H.nonneg hu1.le _ (by positivity)
    have a2 := H.ge (fl (((totalstim * nrep : Int) : ℚ) * tdres) / fl dead) (by positivity)
    have a3 : (1 - u) * (((totalstim * nrep : Int) : ℚ) * tdres) / fl dead
        ≤ fl (((totalstim * nrep : Int) : ℚ) * tdres) / fl dead :=
      div_le_div_of_nonneg_right a1 hd.le
    have a4 : (1 - u) ^ 3 * (((totalstim * nrep : Int) : ℚ) * tdres / fl dead)
        ≤ (1 - u) ^ 2 * (((totalstim * nrep : Int) : ℚ) * tdres / fl dead) := by
      apply mul_le_mul_of_nonneg_right _ hx
      nlinarith [sq_nonneg (1 - u)]
    calc (1 - u) ^ 3 * (((totalstim * nrep : Int) : ℚ) * tdres / fl dead)
        ≤ (1 - u) ^ 2 * (((totalstim * nrep : Int) : ℚ) * tdres / fl dead) := a4
      _ = (1 - u) * ((1 - u) * (((totalstim * nrep : Int) : ℚ) * tdres) / fl dead) := by ring
      _ ≤ (1 - u) * (fl (((totalstim * nrep : Int) : ℚ) * tdres) / fl dead) :=
          mul_le_mul_of_nonneg_left a3 hw.le
      _ ≤ fl (fl (((totalstim * nrep : Int) : ℚ) * tdres) / fl dead) := a2
  · have b1 := H.ge ((totalstim : ℚ) * tdres) (by positivity)
    have b1' : 0 ≤ fl ((totalstim : ℚ) * tdres) := H.nonneg hu1.le _ (by positivity)
    have b2 := H.ge (fl ((totalstim : ℚ) * tdres) * (nrep : ℚ)) (by positivity)
    have b2' : 0 ≤ fl (fl ((totalstim : ℚ) * tdres) * (nrep : ℚ)) :=
      H.nonneg hu1.le _ (by positivity)
    have b3 := H.ge (fl (fl ((totalstim : ℚ) * tdres) * (nrep : ℚ)) / fl dead)
      (by positivity)
    have c1 : (1 - u) * ((totalstim : ℚ) * tdres) * (nrep : ℚ)
        ≤ fl ((totalstim : ℚ) * tdres) * (nrep : ℚ) :=
      mul_le_mul_of_nonneg_right b1 hnq
    have c2 : (1 - u) * ((1 - u) * ((totalstim : ℚ) * tdres) * (nrep : ℚ))
        ≤ fl (fl ((totalstim : ℚ) * tdres) * (nrep : ℚ)) :=
      le_trans (mul_le_mul_of_nonneg_left c1 hw.le) b2
    have c3 : (1 - u) * ((1 - u) * ((totalstim : ℚ) * tdres) * (nrep : ℚ)) / fl dead
        ≤ fl (fl ((totalstim : ℚ) * tdres) * (nrep : ℚ)) / fl dead :=
      div_le_div_of_nonneg_right c2 hd.le
    calc (1 - u) ^ 3 * (((totalstim * nrep : Int) : ℚ) * tdres / fl dead)
        = (1 - u) * ((1 - u) * ((1 - u) * ((totalstim : ℚ) * tdres) * (nrep : ℚ)) / fl dead) := by
          push_cast
          ring
      _ ≤ (1 - u) * (fl (fl ((totalstim : ℚ) * tdres) * (nrep : ℚ)) / fl dead) :=
          mul_le_mul_of_nonneg_left c3 hw.le
      _ ≤ fl (fl (fl ((totalstim : ℚ) * tdres) * (nrep : ℚ)) / fl dead) := b3

/-- The spike count at every loop head is below `1 + (1-u)^3 * N*tdres/dead`, the lower
bound of both length quotients, when `4*u*N < 1` for the number `N` of rate samples. -/
theorem count_lt_quotient {fl : ℚ → ℚ} {u : ℚ} (H : RelErr fl u) (hu1 : u < 1)
    (totalstim nrep : Int) (tdres : ℚ) (sptime0 : Buf) (s : SpikeState) (htd : 0 < tdres)
    (hT : 0 ≤ totalstim) (hn : 0 ≤ nrep)
    (hN : 4 * u * ((totalstim * nrep : Int) : ℚ) < 1)
    (hs : SpikeInvR fl u tdres totalstim nrep sptime0 s) (hpos : 0 < s.Nout) :
    ((s.Nout - 1 : Int) : ℚ)
      < (1 - u) ^ 3 * (((totalstim * nrep : Int) : ℚ) * tdres / fl dead) := by
  have hw : 0 < 1 - u := by linarith
  have hd : 0 < fl dead := H.pos hu1 dead (by norm_num [dead])
  have hNq : (0 : ℚ) ≤ ((totalstim * nrep : Int) : ℚ) := by
    have : 0 ≤ totalstim * nrep := mul_nonneg hT hn
    exact_mod_cast this
  have hcnt : (s.Nout - 1) * (deadtimeIndexR fl tdres + 1) ≤ totalstim * nrep - 1 := by
    have := hs.count hpos
    omega
  have hcq : ((s.Nout - 1 : Int) : ℚ) * ((deadtimeIndexR fl tdres : ℚ) + 1)
      ≤ ((totalstim * nrep : Int) : ℚ) - 1 := by
    exact_mod_cast hcnt
  have hm : (0 : ℚ) ≤ ((s.Nout - 1 : Int) : ℚ) := by
    have : 0 ≤ s.Nout - 1 := by omega
    exact_mod_cast this
  -- the stride `deadtimeIndex + 1` exceeds `(1-u) * dead/tdres`
  have hy : fl (fl dead / tdres) < (deadtimeIndexR fl tdres : ℚ) + 1 := by
    rw [deadtimeIndexR_eq]
    exact Int.lt_floor_add_one _
  have hy2 : (1 - u) * (fl dead / tdres) ≤ fl (fl dead / tdres) :=
    H.ge _ (by positivity)
  have hstride : (1 - u) * (fl dead / tdres) ≤ (deadtimeIndexR fl tdres : ℚ) + 1 := by
    linarith
  have h1 : ((s.Nout - 1 : Int) : ℚ) * ((1 - u) * (fl dead / tdres))
      ≤ ((totalstim * nrep : Int) : ℚ) - 1 :=
    le_trans (mul_le_mul_of_nonneg_left hstride hm) hcq
  have h2 : ((s.Nout - 1 : Int) : ℚ) * (1 - u) * fl dead
      ≤ (((totalstim * nrep : Int) : ℚ) - 1) * tdres := by
    have := mul_le_mul_of_nonneg_right h1 htd.le
    have e : ((s.Nout - 1 : Int) : ℚ) * ((1 - u) * (fl dead / tdres)) * tdres
        = ((s.Nout - 1 : Int) : ℚ) * (1 - u) * fl dead := by
      field_simp
      ring
    rwa [e] at this
  -- Bernoulli: `(1-u)^4 ≥ 1 - 4u`
  have hb : 1 - 4 * u ≤ (1 - u) ^ 4 := by
    nlinarith [sq_nonneg u, sq_nonneg (u * (2 - u))]
  have h3 : ((totalstim * nrep : Int) : ℚ) - 1 < (1 - u) ^ 4 * ((totalstim * nrep : Int) : ℚ) := by
    nlinarith [mul_le_mul_of_nonneg_right hb hNq]
  have h4 : ((s.Nout - 1 : Int) : ℚ) * (1 - u) * fl dead
      < (1 - u) ^ 4 * ((totalstim * nrep : Int) : ℚ) * tdres := by
    calc ((s.Nout - 1 : Int) : ℚ) * (1 - u) * fl dead
        ≤ (((totalstim * nrep : Int) : ℚ) - 1) * tdres := h2
      _ < (1 - u) ^ 4 * ((totalstim * nrep : Int) : ℚ) * tdres :=
          mul_lt_mul_of_pos_right h3 htd
  rw [mul_div_assoc', lt_div_iff₀ hd]
  have h5 : (1 - u) * (((s.Nout - 1 : Int) : ℚ) * fl dead)
      < (1 - u) * ((1 - u) ^ 3 * (((totalstim * nrep : Int) : ℚ) * tdres)) := by
    calc (1 - u) * (((s.Nout - 1 : Int) : ℚ) * fl dead)
        = ((s.Nout - 1 : Int) : ℚ) * (1 - u) * fl dead := by ring
      _ < (1 - u) ^ 4 * ((totalstim * nrep : Int) : ℚ) * tdres := h4
      _ = (1 - u) * ((1 - u) ^ 3 * (((totalstim * nrep : Int) : ℚ) * tdres)) := by ring
  exact lt_of_mul_lt_mul_left h5 hw.le

/-- The spike count at every loop head is at most `NoutMax` and at most the length of the
buffer `sptime`, each computed with the rounding `fl`. -/
theorem spikeHeadR_count_le {fl : ℚ → ℚ} {u : ℚ} (H : RelErr fl u) (hu0 : 0 ≤ u)
    (hu1 : u < 1) (h : Host) (synouttmp : Buf) (tdres : ℚ) (totalstim nrep : Int)
    (sptime : Buf) (n : Nat) (htd : 0 < tdres) (hT : 0 ≤ totalstim) (hn : 0 ≤ nrep)
    (hN : 4 * u * ((totalstim * nrep : Int) : ℚ) < 1) :
    (spikeHeadR fl h synouttmp tdres totalstim nrep sptime n).Nout
      ≤ NoutMaxR fl totalstim nrep tdres ∧
    (spikeHeadR fl h synouttmp tdres totalstim nrep sptime n).Nout
      ≤ sptimeLenR fl totalstim tdres nrep := by
  have inv := spikeHeadR_inv H hu0 hu1.le h synouttmp tdres totalstim nrep sptime htd n
  obtain ⟨lM, lL⟩ := lengths_lower H hu0 hu1 totalstim nrep tdres htd hT hn
  have hw : 0 < 1 - u := by linarith
  have hd : 0 < fl dead := H.pos hu1 dead (by norm_num [dead])
  have hNq : (0 : ℚ) ≤ ((totalstim * nrep : Int) : ℚ) := by
    have : 0 ≤ totalstim * nrep := mul_nonneg hT hn
    exact_mod_cast this
  have hC : 0 ≤ (1 - u) ^ 3 * (((totalstim * nrep : Int) : ℚ) * tdres / fl dead) := by
    positivity
  have eL : sptimeLenR fl totalstim tdres nrep
      = ⌈fl (fl (fl ((totalstim : ℚ) * tdres) * (nrep : ℚ)) / fl dead)⌉ := by
    unfold sptimeLenR
    rw [castInt_intCast]
    rfl
  have eM : NoutMaxR fl totalstim nrep tdres
      = ⌈fl (fl (((totalstim * nrep : Int) : ℚ) * tdres) / fl dead)⌉ := by
    unfold NoutMaxR
    rw [castInt_intCast]
  rw [eL, eM]
  rcases (inv.nout_nonneg).eq_or_lt with h0 | hpos
  · rw [← h0]
    exact ⟨Int.ceil_nonneg (le_trans hC lM), Int.ceil_nonneg (le_trans hC lL)⟩
  · have hlt := count_lt_quotient H hu1 totalstim nrep tdres sptime _ htd hT hn hN inv hpos
    have hM := Int.lt_ceil.mpr (lt_of_lt_of_le hlt lM)
    have hL := Int.lt_ceil.mpr (lt_of_lt_of_le hlt lL)
    constructor <;> omega

/-- The exact spike count is at most the exact `NoutMax`, and `sptime` is untouched from
`NoutMax` on. -/
theorem SpikeGenerator_count_exact (h : Host) (synouttmp : Buf) (tdres : ℚ)
    (totalstim nrep : Int) (sptime : Buf) (htd : 0 < tdres) (hN : 0 ≤ totalstim * nrep) :
    (SpikeGenerator h synouttmp tdres totalstim nrep sptime).1 ≤ NoutMax totalstim nrep tdres ∧
    (∀ j, NoutMax totalstim nrep tdres ≤ j →
      (SpikeGenerator h synouttmp tdres totalstim nrep sptime).2 j = sptime j) := by
  have inv := spikeFinal_inv h synouttmp tdres totalstim nrep sptime htd
  have hstride := dead_lt_stride tdres htd
  have hdead : (0 : ℚ) < dead := by norm_num [dead]
  have hNq : (0 : ℚ) ≤ ((totalstim * nrep : Int) : ℚ) := by exact_mod_cast hN
  have hcount : (spikeFinal h synouttmp tdres totalstim nrep sptime).Nout
      ≤ NoutMax totalstim nrep tdres := by
    unfold NoutMax
    rw [castInt_intCast]
    rcases (inv.nout_nonneg).eq_or_lt with h0 | hpos
    · rw [← h0]
      exact Int.ceil_nonneg (div_nonneg (mul_nonneg hNq htd.le) hdead.le)
    · have hlow := inv.lower _ (show 0 ≤ (spikeFinal h synouttmp tdres totalstim nrep sptime).Nout - 1
        by omega) (by omega)
      have hup := inv.upper _ (show 0 ≤ (spikeFinal h synouttmp tdres totalstim nrep sptime).Nout - 1
        by omega) (by omega)
      have hm : (0 : ℚ) ≤
          (((spikeFinal h synouttmp tdres totalstim nrep sptime).Nout - 1 : Int) : ℚ) := by
        have : 0 ≤ (spikeFinal h synouttmp tdres totalstim nrep sptime).Nout - 1 := by omega
        exact_mod_cast this
      have hlt : (((spikeFinal h synouttmp tdres totalstim nrep sptime).Nout - 1 : Int) : ℚ)
          < ((totalstim * nrep : Int) : ℚ) * tdres / dead := by
        rw [lt_div_iff₀ hdead]
        have e : ((totalstim * nrep : Int) : ℚ) * tdres = DT totalstim tdres nrep := by
          unfold DT
          push_cast
          ring
        rw [e]
        nlinarith [mul_le_mul_of_nonneg_left hstride.le hm]
      have := Int.lt_ceil.mpr hlt
      omega
  refine ⟨hcount, ?_⟩
  intro j hjm
  exact inv.frame j (Or.inr (le_trans hcount hjm))

/-- C4 (amended). For every rate trace, every host, every `tdres > 0`, every
`totalstim ≥ 0` and `nrep ≥ 0`, and every rounding `fl` of relative error at most `u < 1`
with `4*u*totalstim*nrep < 1` (for the `double`, `u = 2^-53` and `totalstim*nrep < 2^51`):
the spike count `SpikeGenerator` returns is at most
`NoutMax = ceil(totalstim*nrep*tdres/0.00075)` and at most the length
`ceil(totalstim*tdres*nrep/0.00075)` of the buffer `sptime` that `SingleAN` allocates;
no element of `sptime` at an index from the spike count on is written, so none at an
index `≥` either length; and the loop has been left through its condition after at most
`totalstim*nrep` iterations. With exact arithmetic (`fl = id`) the function is
`SpikeGenerator`, its count is at most the exact `NoutMax`, and the two lengths are
equal. -/
theorem SpikeGenerator_count_le_NoutMax (fl : ℚ → ℚ) (u : ℚ) (h : Host) (synouttmp : Buf)
    (tdres : ℚ) (totalstim nrep : Int) (sptime : Buf) (H : RelErr fl u) (hu0 : 0 ≤ u)
    (hu1 : u < 1) (htd : 0 < tdres) (hT : 0 ≤ totalstim) (hn : 0 ≤ nrep)
    (hN : 4 * u * ((totalstim * nrep : Int) : ℚ) < 1) :
    (SpikeGeneratorR fl h synouttmp tdres totalstim nrep sptime).1
      ≤ NoutMaxR fl totalstim nrep tdres ∧
    (SpikeGeneratorR fl h synouttmp tdres totalstim nrep sptime).1
      ≤ sptimeLenR fl totalstim tdres nrep ∧
    (∀ j, (SpikeGeneratorR fl h synouttmp tdres totalstim nrep sptime).1 ≤ j →
      (SpikeGeneratorR fl h synouttmp tdres totalstim nrep sptime).2 j = sptime j) ∧
    ¬ ((spikeHeadR fl h synouttmp tdres totalstim nrep sptime (totalstim * nrep).toNat).k
          < totalstim * nrep ∧
      (spikeHeadR fl h synouttmp tdres totalstim nrep sptime (totalstim * nrep).toNat).countTime
          < DTR fl totalstim tdres nrep) ∧
    SpikeGeneratorR id h synouttmp tdres totalstim nrep sptime
      = SpikeGenerator h synouttmp tdres totalstim nrep sptime ∧
    (SpikeGenerator h synouttmp tdres totalstim nrep sptime).1
      ≤ NoutMax totalstim nrep tdres ∧
    (∀ j, NoutMax totalstim nrep tdres ≤ j →
      (SpikeGenerator h synouttmp tdres totalstim nrep sptime).2 j = sptime j) ∧
    NoutMaxR id totalstim nrep tdres = NoutMax totalstim nrep tdres ∧
    sptimeLenR id totalstim tdres nrep = NoutMax totalstim nrep tdres := by
  have hN0 : 0 ≤ totalstim * nrep := mul_nonneg hT hn
  have inv := spikeHeadR_inv H hu0 hu1.le h synouttmp tdres totalstim nrep sptime htd
    (totalstim * nrep).toNat
  obtain ⟨cM, cL⟩ := spikeHeadR_count_le H hu0 hu1 h synouttmp tdres totalstim nrep sptime
    (totalstim * nrep).toNat htd hT hn hN
  obtain ⟨xc, xf⟩ := SpikeGenerator_count_exact h synouttmp tdres totalstim nrep sptime htd hN0
  refine ⟨cM, cL, fun j hj => inv.frame j (Or.inr hj), ?_,
    SpikeGeneratorR_id h synouttmp tdres totalstim nrep sptime, xc, xf, rfl, ?_⟩
  · rcases spikeHeadR_progress H hu1.le h synouttmp tdres totalstim nrep sptime htd
        (totalstim * nrep).toNat with hk | hc
    · intro hc
      have : ((totalstim * nrep).toNat : Int) = totalstim * nrep := Int.toNat_of_nonneg hN0
      omega
    · exact hc
  · unfold NoutMax sptimeLenR dead
    simp only [id]
    congr 3
    push_cast
    ring

/-- C4 in the arithmetic of the code, at the run with `tdres = 1e-5` and six rate
samples: the spike count is at most the length of `sptime`. -/
theorem SpikeGenerator_count_le_NoutMax_witness :
    RelErr binary64 (1 / 2 ^ 53) ∧ (0 : ℚ) ≤ 1 / 2 ^ 53 ∧ (1 : ℚ) / 2 ^ 53 < 1 ∧
    (0 : ℚ) < binary64 (1 / 100000) ∧ (0 : Int) ≤ 6 ∧ (0 : Int) ≤ 1 ∧
    4 * (1 / 2 ^ 53) * (((6 * 1 : Int)) : ℚ) < 1 ∧
    (SpikeGeneratorR binary64 drawHost lastSampleRate (binary64 (1 / 100000)) 6 1
        Buf.calloc).1
      ≤ sptimeLenR binary64 6 (binary64 (1 / 100000)) 1 :=
  ⟨binary64_relErr, by norm_num, by norm_num, by decide!, by decide, by decide, by norm_num,
    (SpikeGenerator_count_le_NoutMax binary64 (1 / 2 ^ 53) drawHost lastSampleRate
      (binary64 (1 / 100000)) 6 1 Buf.calloc binary64_relErr (by norm_num) (by norm_num)
      (by decide!) (by decide) (by decide) (by norm_num)).2.1⟩

/-- C4 as stated fails in the arithmetic of the code: `NoutMax` is not the length of the
buffer `sptime`. With `tdres = 1e-5`, `totalstim = 1575` and `nrep = 3` the quotient is
63 in exact arithmetic; `SpikeGenerator` computes `4725*tdres = 0.04725000000000001` and
`NoutMax = ceil(63.00000000000001) = 64`, while `SingleAN` computes
`1575*tdres*3 = 0.04725` and allocates `ceil(63.0) = 63` elements. -/
theorem NoutMax_differs_from_sptime_length :
    (0 : ℚ) < binary64 (1 / 100000) ∧
    NoutMaxR binary64 1575 3 (binary64 (1 / 100000)) = 64 ∧
    sptimeLenR binary64 1575 (binary64 (1 / 100000)) 3 = 63 ∧
    NoutMaxR binary64 1575 3 (binary64 (1 / 100000))
      ≠ sptimeLenR binary64 1575 (binary64 (1 / 100000)) 3 := by
  refine ⟨?_, ?_, ?_, ?_⟩ <;> decide!

/-! ## SpikeGenerator: the time stamps -/

theorem spikeHeadR_id_inv (h : Host) (synouttmp : Buf) (tdres : ℚ) (totalstim nrep : Int)
    (sptime : Buf) (htd : 0 < tdres) (n : Nat) :
    SpikeInv tdres totalstim nrep sptime
      (spikeHeadR id h synouttmp tdres totalstim nrep sptime n) := by
  rw [spikeHeadR_id]
  exact spikeLoop_inv h synouttmp _ tdres totalstim nrep sptime htd n _
    (spikeInit_inv h synouttmp _ tdres totalstim nrep sptime)

/-- While the loop condition holds, `k` is at most `totalstim*nrep - 2`: the condition
`countTime < DT` reads `(k+1)*tdres < totalstim*nrep*tdres`. -/
theorem SpikeInv.k_lt {tdres : ℚ} {totalstim nrep : Int} {sptime0 : Buf} {s : SpikeState}
    (hs : SpikeInv tdres totalstim nrep sptime0 s) (htd : 0 < tdres)
    (hc : s.countTime < DT totalstim tdres nrep) : s.k < totalstim * nrep - 1 := by
  have ht := hs.time_eq
  have e : DT totalstim tdres nrep = ((totalstim * nrep : Int) : ℚ) * tdres := by
    unfold DT
    push_cast
    ring
  rw [ht, e] at hc
  have h1 : ((s.k : ℚ) + 1) < ((totalstim * nrep : Int) : ℚ) := lt_of_mul_lt_mul_right hc htd.le
  have h2 : s.k + 1 < totalstim * nrep := by exact_mod_cast h1
  omega

/-- One iteration of the spike loop keeps the stamps: a new spike is stamped
`countTime = (k+1)*tdres`. -/
theorem spikeStep_stamp (h : Host) (synouttmp randNums : Buf) (tdres : ℚ) (totalstim nrep : Int)
    (sptime0 : Buf) (s : SpikeState) (htd : 0 < tdres)
    (hs : SpikeInv tdres totalstim nrep sptime0 s) (hst : SpikeStamp tdres totalstim nrep s)
    (hc : s.countTime < DT totalstim tdres nrep) :
    SpikeStamp tdres totalstim nrep
      (spikeIncr tdres (spikeBody h synouttmp randNums tdres s)) := by
  obtain ⟨-, -, iN, -, ib⟩ := spikeIncr_fields tdres (spikeBody h synouttmp randNums tdres s)
  intro i h0 h1
  rw [iN] at h1
  rw [ib]
  rcases spikeBody_cases h synouttmp randNums tdres s with
    ⟨-, -, bN, -, bb⟩ | ⟨-, -, -, bN, -, bb⟩
  · rw [bN] at h1
    rw [bb]
    exact hst i h0 h1
  · rw [bN] at h1
    rw [bb]
    by_cases hi : i = s.Nout
    · rw [hi, Buf.write_same]
      exact ⟨s.k, hs.k_nonneg, hs.k_lt htd hc, hs.time_eq⟩
    · rw [Buf.write_other _ _ _ _ hi]
      exact hst i h0 (by omega)

theorem spikeLoop_stamp (h : Host) (synouttmp randNums : Buf) (tdres : ℚ) (totalstim nrep : Int)
    (sptime0 : Buf) (htd : 0 < tdres) (fuel : Nat) :
    ∀ s, SpikeInv tdres totalstim nrep sptime0 s → SpikeStamp tdres totalstim nrep s →
      SpikeStamp tdres totalstim nrep
        (spikeLoop h synouttmp randNums tdres totalstim nrep fuel s) := by
  induction fuel with
  | zero => intro s _ hst; exact hst
  | succ m ih =>
    intro s hs hst
    unfold spikeLoop
    split_ifs with hc
    · exact ih _
        (spikeStep_inv h synouttmp randNums tdres totalstim nrep sptime0 s htd hs hc.2)
        (spikeStep_stamp h synouttmp randNums tdres totalstim nrep sptime0 s htd hs hst hc.2)
    · exact hst

theorem spikeFinal_stamp (h : Host) (synouttmp : Buf) (tdres : ℚ) (totalstim nrep : Int)
    (sptime : Buf) (htd : 0 < tdres) :
    SpikeStamp tdres totalstim nrep (spikeFinal h synouttmp tdres totalstim nrep sptime) := by
  apply spikeLoop_stamp h synouttmp _ tdres totalstim nrep sptime htd _ _
    (spikeInit_inv h synouttmp _ tdres totalstim nrep sptime)
  intro i h0 h1
  simp [spikeInit] at h1
  omega

/-- C22 (amended). The clock of the spike loop, for every `tdres > 0` and every rounding
`fl` of relative error at most `u ≤ 1` (for the `double`, `u = 2^-53`). At the head of
every iteration `countTime` is `(k+1)*tdres` up to the accumulated rounding error:
`|countTime - (k+1)*tdres| ≤ ((1+u)^(4k) - 1) * (k+1)*tdres`. When the loop condition
`(k<totalstim*nrep) && (countTime<DT)` holds, the iteration either records no spike and
`countTime` becomes `fl(countTime + tdres)`, or it records a spike, stamps it
`sptime[Nout] = countTime` and `countTime` becomes `fl(fl(countTime + deadtimeRnd) + tdres)`;
when the condition fails the loop is over. Every spike time the function returns is the
clock at a sample index `0 ≤ k ≤ totalstim*nrep - 1`, so it is within that error of the
positive integer multiple `(k+1)*tdres` of `tdres`.
With exact arithmetic (`fl = id`): at the head of every iteration
`countTime = (k+1)*tdres`; an iteration is entered only with `k < totalstim*nrep - 1`, so
the last rate sample is never processed; and every spike time the function returns is
`(k+1)*tdres` for a sample index `0 ≤ k < totalstim*nrep - 1`. -/
theorem SpikeGenerator_stamps (fl : ℚ → ℚ) (u : ℚ) (h : Host) (synouttmp : Buf) (tdres : ℚ)
    (totalstim nrep : Int) (sptime : Buf) (n : Nat) (H : RelErr fl u) (hu0 : 0 ≤ u)
    (hu1 : u ≤ 1) (htd : 0 < tdres) :
    |(spikeHeadR fl h synouttmp tdres totalstim nrep sptime n).countTime
        - (((spikeHeadR fl h synouttmp tdres totalstim nrep sptime n).k : ℚ) + 1) * tdres|
      ≤ ((1 + u) ^ (4 * (spikeHeadR fl h synouttmp tdres totalstim nrep sptime n).k.toNat) - 1)
        * ((((spikeHeadR fl h synouttmp tdres totalstim nrep sptime n).k : ℚ) + 1) * tdres) ∧
    ((spikeHeadR fl h synouttmp tdres totalstim nrep sptime n).k < totalstim * nrep ∧
        (spikeHeadR fl h synouttmp tdres totalstim nrep sptime n).countTime
          < DTR fl totalstim tdres nrep →
      ((spikeBodyR fl h synouttmp (h.rand 1 ((NoutMaxR fl totalstim nrep tdres + 1 : Int) : ℚ))
            tdres (spikeHeadR fl h synouttmp tdres totalstim nrep sptime n)).Nout
          = (spikeHeadR fl h synouttmp tdres totalstim nrep sptime n).Nout ∧
        (spikeHeadR fl h synouttmp tdres totalstim nrep sptime (n + 1)).countTime
          = fl ((spikeHeadR fl h synouttmp tdres totalstim nrep sptime n).countTime + tdres)) ∨
      ((spikeBodyR fl h synouttmp (h.rand 1 ((NoutMaxR fl totalstim nrep tdres + 1 : Int) : ℚ))
            tdres (spikeHeadR fl h synouttmp tdres totalstim nrep sptime n)).Nout
          = (spikeHeadR fl h synouttmp tdres totalstim nrep sptime n).Nout + 1 ∧
        (spikeHeadR fl h synouttmp tdres totalstim nrep sptime (n + 1)).sptime
            (spikeHeadR fl h synouttmp tdres totalstim nrep sptime n).Nout
          = (spikeHeadR fl h synouttmp tdres totalstim nrep sptime n).countTime ∧
        (spikeHeadR fl h synouttmp tdres totalstim nrep sptime (n + 1)).countTime
          = fl (fl ((spikeHeadR fl h synouttmp tdres totalstim nrep sptime n).countTime
              + deadtimeRndR fl tdres) + tdres))) ∧
    (¬ ((spikeHeadR fl h synouttmp tdres totalstim nrep sptime n).k < totalstim * nrep ∧
        (spikeHeadR fl h synouttmp tdres totalstim nrep sptime n).countTime
          < DTR fl totalstim tdres nrep) →
      spikeHeadR fl h synouttmp tdres totalstim nrep sptime (n + 1)
        = spikeHeadR fl h synouttmp tdres totalstim nrep sptime n) ∧
    (∀ i, 0 ≤ i → i < (SpikeGeneratorR fl h synouttmp tdres totalstim nrep sptime).1 →
      ∃ k : Int, 0 ≤ k ∧ k ≤ totalstim * nrep - 1 ∧
        |(SpikeGeneratorR fl h synouttmp tdres totalstim nrep sptime).2 i
            - ((k : ℚ) + 1) * tdres|
          ≤ ((1 + u) ^ (4 * k.toNat) - 1) * (((k : ℚ) + 1) * tdres)) ∧
    (spikeHeadR id h synouttmp tdres totalstim nrep sptime n).countTime
      = (((spikeHeadR id h synouttmp tdres totalstim nrep sptime n).k : ℚ) + 1) * tdres ∧
    ((spikeHeadR id h synouttmp tdres totalstim nrep sptime n).k < totalstim * nrep ∧
        (spikeHeadR id h synouttmp tdres totalstim nrep sptime n).countTime
          < DTR id totalstim tdres nrep →
      (spikeHeadR id h synouttmp tdres totalstim nrep sptime n).k < totalstim * nrep - 1) ∧
    (∀ i, 0 ≤ i → i < (SpikeGeneratorR id h synouttmp tdres totalstim nrep sptime).1 →
      ∃ k : Int, 0 ≤ k ∧ k < totalstim * nrep - 1 ∧
        (SpikeGeneratorR id h synouttmp tdres totalstim nrep sptime).2 i
          = ((k : ℚ) + 1) * tdres ∧
        ∃ m : Int, 0 < m ∧
          (SpikeGeneratorR id h synouttmp tdres totalstim nrep sptime).2 i
            = (m : ℚ) * tdres) := by
  have inv := spikeHeadR_id_inv h synouttmp tdres totalstim nrep sptime htd n
  have invR := spikeHeadR_inv H hu0 hu1 h synouttmp tdres totalstim nrep sptime htd n
  have invF := spikeHeadR_inv H hu0 hu1 h synouttmp tdres totalstim nrep sptime htd
    (totalstim * nrep).toNat
  have hsucc : spikeHeadR fl h synouttmp tdres totalstim nrep sptime (n + 1)
      = if (spikeHeadR fl h synouttmp tdres totalstim nrep sptime n).k < totalstim * nrep ∧
          (spikeHeadR fl h synouttmp tdres totalstim nrep sptime n).countTime
            < DTR fl totalstim tdres nrep then
          spikeIncrR fl tdres (spikeBodyR fl h synouttmp
            (h.rand 1 ((NoutMaxR fl totalstim nrep tdres + 1 : Int) : ℚ)) tdres
            (spikeHeadR fl h synouttmp tdres totalstim nrep sptime n))
        else spikeHeadR fl h synouttmp tdres totalstim nrep sptime n :=
    spikeLoopR_succ fl h synouttmp _ tdres totalstim nrep n _
  refine ⟨invR.clock, ?_, ?_, ?_, inv.time_eq, fun hc => inv.k_lt htd hc.2, ?_⟩
  · intro hc
    rw [hsucc, if_pos hc]
    rcases spikeBodyR_cases fl h synouttmp
        (h.rand 1 ((NoutMaxR fl totalstim nrep tdres + 1 : Int) : ℚ)) tdres
        (spikeHeadR fl h synouttmp tdres totalstim nrep sptime n) with
      ⟨-, bt, bN, -⟩ | ⟨-, -, bt, bN, bb⟩
    · left
      refine ⟨bN, ?_⟩
      show fl (_ + tdres) = _
      rw [bt]
    · right
      refine ⟨bN, ?_, ?_⟩
      · show (spikeBodyR fl h synouttmp _ tdres _).sptime _ = _
        rw [bb, Buf.write_same]
      · show fl (_ + tdres) = _
        rw [bt]
  · intro hc
    rw [hsucc, if_neg hc]
  · intro i h0 h1
    obtain ⟨k, hk0, hk1, hk, -⟩ := invF.stamps i h0 h1
    exact ⟨k, hk0, by omega, hk⟩
  · intro i h0 h1
    rw [SpikeGeneratorR_id] at h1 ⊢
    obtain ⟨k, hk0, hk1, hk⟩ :=
      spikeFinal_stamp h synouttmp tdres totalstim nrep sptime htd i h0 h1
    have hk' : (SpikeGenerator h synouttmp tdres totalstim nrep sptime).2 i
        = ((k : ℚ) + 1) * tdres := hk
    refine ⟨k, hk0, hk1, hk', k + 1, by omega, ?_⟩
    rw [hk']
    push_cast
    ring

/-- C22 in the arithmetic of the code, at the head of the iteration of the last of six
rate samples: the clock is within the accumulated rounding error of `6*tdres`. -/
theorem SpikeGenerator_stamps_witness :
    RelErr binary64 (1 / 2 ^ 53) ∧ (0 : ℚ) ≤ 1 / 2 ^ 53 ∧ (1 : ℚ) / 2 ^ 53 ≤ 1 ∧
    (0 : ℚ) < binary64 (1 / 100000) ∧
    |(spikeHeadR binary64 drawHost lastSampleRate (binary64 (1 / 100000)) 6 1
          Buf.calloc 5).countTime
        - (((spikeHeadR binary64 drawHost lastSampleRate (binary64 (1 / 100000)) 6 1
          Buf.calloc 5).k : ℚ) + 1) * binary64 (1 / 100000)|
      ≤ ((1 + 1 / 2 ^ 53) ^ (4 * (spikeHeadR binary64 drawHost lastSampleRate
          (binary64 (1 / 100000)) 6 1 Buf.calloc 5).k.toNat) - 1)
        * ((((spikeHeadR binary64 drawHost lastSampleRate (binary64 (1 / 100000)) 6 1
          Buf.calloc 5).k : ℚ) + 1) * binary64 (1 / 100000)) := by
  have htd : (0 : ℚ) < binary64 (1 / 100000) := by decide!
  exact ⟨binary64_relErr, by norm_num, by norm_num, htd,
    (SpikeGenerator_stamps binary64 (1 / 2 ^ 53) drawHost lastSampleRate
      (binary64 (1 / 100000)) 6 1 Buf.calloc 5 binary64_relErr (by norm_num) (by norm_num)
      htd).1⟩

/-- C22 as stated fails in the arithmetic of the code. With `tdres = 1e-5`, six rate
samples, `nrep = 1` and a rate that triggers a spike at the last sample: at the head of
the iteration `k = 5 = totalstim*nrep - 1` the clock `countTime`, which is `tdres` after
five rounded additions of `tdres`, is `6e-05`, below `DT = 6*tdres = 6.000000000000001e-05`; so the
loop condition holds, the last rate sample is processed, and the spike it triggers is
stamped `6e-05`, which lies strictly between `5*tdres` and `6*tdres` (so it is no integer
multiple of `tdres`) and differs from the product `(k+1)*tdres` of the doubles. The loop
is then over and the function returns this one spike. -/
theorem SpikeGenerator_processes_last_sample :
    (0 : ℚ) < binary64 (1 / 100000) ∧
    (spikeHeadR binary64 drawHost lastSampleRate (binary64 (1 / 100000)) 6 1 Buf.calloc 5).k
      = 6 * 1 - 1 ∧
    (spikeHeadR binary64 drawHost lastSampleRate (binary64 (1 / 100000)) 6 1 Buf.calloc 5).k
      < 6 * 1 ∧
    (spikeHeadR binary64 drawHost lastSampleRate (binary64 (1 / 100000)) 6 1
        Buf.calloc 5).countTime < DTR binary64 6 (binary64 (1 / 100000)) 1 ∧
    (spikeHeadR binary64 drawHost lastSampleRate (binary64 (1 / 100000)) 6 1
        Buf.calloc 5).countTime = 8854437155380585 / 147573952589676412928 ∧
    5 * binary64 (1 / 100000) < (8854437155380585 / 147573952589676412928 : ℚ) ∧
    (8854437155380585 / 147573952589676412928 : ℚ) < (5 + 1) * binary64 (1 / 100000) ∧
    (8854437155380585 / 147573952589676412928 : ℚ)
      ≠ binary64 ((5 + 1) * binary64 (1 / 100000)) ∧
    (SpikeGeneratorR binary64 drawHost lastSampleRate (binary64 (1 / 100000)) 6 1
        Buf.calloc).1 = 1 ∧
    (SpikeGeneratorR binary64 drawHost lastSampleRate (binary64 (1 / 100000)) 6 1
        Buf.calloc).2 0 = 8854437155380585 / 147573952589676412928 ∧
    ¬ ((spikeHeadR binary64 drawHost lastSampleRate (binary64 (1 / 100000)) 6 1
          Buf.calloc 6).k < 6 * 1 ∧
      (spikeHeadR binary64 drawHost lastSampleRate (binary64 (1 / 100000)) 6 1
          Buf.calloc 6).countTime < DTR binary64 6 (binary64 (1 / 100000)) 1) := by
  refine ⟨?_, ?_, ?_, ?_, ?_, ?_, ?_, ?_, ?_, ?_, ?_⟩ <;> decide!

end ANerve
